import Mathlib

/-!
# An open-addressed hash map with metadata bytes, tombstones and a probe rider

A shallow embedding of `src/hash_map.h` (namespace `HashMapNamespace`).

Conventions of the embedding.

* `HashType` (`uint64_t`) values are natural numbers; the two places where the
  source relies on wrap-around (`hash - 1` in the rider constructor and
  `current_hash_ + 1` in `Rider::next`) carry an explicit `% word`.
* The arrays `metadata_` and `data_` are lists; a null pointer is the empty
  list.  Reading or writing outside an array is undefined in C++ and is the
  result `none` here.
* `1 << n` on `int` is undefined for `n ≥ 31` and `1ull << n` for `n ≥ 64`;
  both are `none` here (`shl_int`, `shl_ull`).
* The counters `size_` and `full_` (`size_t`) are natural numbers: a wrap
  would need `2 ^ 64` increments.  `--size_` and `log_capacity_ - 1` are
  natural-number subtractions; the theorems below show that `erase_generic`
  runs with `size_ ≥ 1` and shrinks only from `log_capacity_ ≥ 3`.
* A loop that the source writes as `do … while (true)` is unrolled a number of
  times after which it has seen every slot of its cycle; since the loop does
  not write to the metadata, running out of iterations means that the C++ loop
  does not return, and the result is `none`.
* The call cycle `insert → insert_generic → resize → range constructor →
  insert` is cut by a depth counter (`fuel`): `resize` at depth `0` is `none`.
* A template parameter (`Rider<mode>`) is an ordinary argument.
-/

namespace HashMapNamespace

/-- Modulus of `HashType = uint64_t`. -/
def word : Nat := 2 ^ 64

/-- The C++ expression `1 << n` on `int` (32 bits): undefined from `n = 31` on. -/
def shl_int (n : Nat) : Option Nat := if n < 31 then some (2 ^ n) else none

/-- The C++ expression `1ull << n`: undefined from `n = 64` on. -/
def shl_ull (n : Nat) : Option Nat := if n < 64 then some (2 ^ n) else none

namespace Metadata

def mode_empty : Nat := 1
def mode_hash : Nat := 2
def mode_full : Nat := 4
def mode_deleted : Nat := 8

/-- `Metadata::get_empty`. -/
def get_empty : Nat := 0

/-- `Metadata::get_hash`: `(hash & 0b1111111) + 1`, narrowed to `uint8_t`. -/
def get_hash (hash : Nat) : Nat := ((hash &&& 127) + 1) % 256

/-- `Metadata::get_deleted`: `-1` narrowed to `uint8_t`. -/
def get_deleted : Nat := 255

/-- `Metadata::Rider<mode>`; the template argument `mode` is passed to `next`. -/
structure Rider where
  metadata_ : List Nat
  hash_mask_ : Nat
  initial_hash_ : Nat
  current_hash_ : Nat
deriving DecidableEq

/-- `Rider::Rider(metadata, hash, hash_mask)`; `hash - 1` wraps at `hash = 0`. -/
def Rider.new (metadata : List Nat) (hash hash_mask : Nat) : Rider :=
  { metadata_ := metadata, hash_mask_ := hash_mask, initial_hash_ := get_hash hash,
    current_hash_ := (hash + word - 1) % word }

/-- `Rider::operator==`: metadata pointer (here: the array), cursor and mask. -/
def Rider.operator_eq (a b : Rider) : Bool :=
  decide (a.metadata_ = b.metadata_ ∧ a.current_hash_ = b.current_hash_ ∧
    a.hash_mask_ = b.hash_mask_)

/-- The loop of `Rider::get_log_capacity`. -/
def Rider.get_log_capacity_loop (hash_mask : Nat) : Nat → Nat → Option Nat
  | 0, _ => none
  | fuel + 1, log_capacity =>
    match shl_ull log_capacity with
    | none => none
    | some p =>
      if p ≤ hash_mask then Rider.get_log_capacity_loop hash_mask fuel (log_capacity + 1)
      else some log_capacity

/-- `Rider::get_log_capacity`. -/
def Rider.get_log_capacity (r : Rider) : Option Nat :=
  Rider.get_log_capacity_loop r.hash_mask_ 65 0

/-- `Rider::get_current_hash`. -/
def Rider.get_current_hash (r : Rider) : Nat := r.current_hash_

/-- The `do … while (true)` loop of `Rider::next`, at most `fuel` rounds. -/
def Rider.next_loop (mode : Nat) : Nat → Rider → Option (Rider × (Nat × Nat))
  | 0, _ => none
  | fuel + 1, r =>
    let cur := ((r.current_hash_ + 1) % word) &&& r.hash_mask_
    let r' : Rider := { r with current_hash_ := cur }
    match r.metadata_[cur]? with
    | none => none
    | some b =>
      if b = get_empty then
        if mode &&& mode_empty ≠ 0 then some (r', (cur, mode_empty))
        else Rider.next_loop mode fuel r'
      else if b = get_deleted then
        if mode &&& mode_deleted ≠ 0 then some (r', (cur, mode_deleted))
        else Rider.next_loop mode fuel r'
      else if mode &&& mode_full ≠ 0 then some (r', (cur, mode_full))
      else if mode &&& mode_hash ≠ 0 ∧ b = r.initial_hash_ then some (r', (cur, mode_hash))
      else Rider.next_loop mode fuel r'

/-- `Rider::next`: the rider after the call and the returned pair.  After
`hash_mask_ + 1` rounds the cursor has been on every index of its cycle. -/
def Rider.next (mode : Nat) (r : Rider) : Option (Rider × (Nat × Nat)) :=
  Rider.next_loop mode (r.hash_mask_ + 1) r

end Metadata

open Metadata

/-- `IteratorBase<KeyValType>`. -/
structure IteratorBase (KV : Type) where
  rider_ : Rider
  data_ : List KV
  is_end_ : Bool

namespace IteratorBase

variable {KV : Type}

/-- `IteratorBase::IteratorBase(metadata, index, hash_mask, data, is_end)`. -/
def new (metadata : List Nat) (index hash_mask : Nat) (data : List KV) (is_end : Bool) :
    Option (IteratorBase KV) :=
  let rider := Rider.new metadata index hash_mask
  if is_end then some { rider_ := rider, data_ := data, is_end_ := is_end }
  else
    match rider.next mode_full with
    | none => none
    | some (rider', _) => some { rider_ := rider', data_ := data, is_end_ := is_end }

/-- `IteratorBase::operator*`. -/
def operator_deref (it : IteratorBase KV) : Option KV :=
  it.data_[it.rider_.get_current_hash]?

/-- `IteratorBase::operator++()` (pre-increment). -/
def operator_pre_inc (it : IteratorBase KV) : Option (IteratorBase KV) :=
  let last_index := it.rider_.get_current_hash
  match it.rider_.next mode_full with
  | none => none
  | some (rider', _) =>
    if rider'.get_current_hash ≤ last_index then
      some { it with rider_ := rider', is_end_ := true }
    else some { it with rider_ := rider' }

/-- `IteratorBase::operator==`; the data pointer is compared as the array. -/
def operator_eq [DecidableEq KV] (a b : IteratorBase KV) : Bool :=
  if a.is_end_ || b.is_end_ then a.is_end_ && b.is_end_
  else a.rider_.operator_eq b.rider_ && decide (a.data_ = b.data_)

/-- `IteratorBase::operator!=`. -/
def operator_ne [DecidableEq KV] (a b : IteratorBase KV) : Bool := !(a.operator_eq b)

/-- `IteratorBase::get_log_capacity`. -/
def get_log_capacity (it : IteratorBase KV) : Option Nat := it.rider_.get_log_capacity

end IteratorBase

/-- The data members of `HashMap<KeyType, ValueType, Hash>`; the hasher is an
argument of the operations. -/
structure HashMap (K V : Type) where
  size_ : Nat
  log_capacity_ : Nat
  metadata_ : List Nat
  data_ : List (K × V)
  full_ : Nat
deriving DecidableEq

/-- The result of `HashMap::at`: a value, or the exception `std::out_of_range`. -/
inductive AtResult (V : Type) where
  | value : V → AtResult V
  | out_of_range : AtResult V
deriving DecidableEq

namespace HashMap

variable {K V : Type} [DecidableEq K] [DecidableEq V] [Inhabited K] [Inhabited V]

/-- The member initialisers: `size_ = 0`, `log_capacity_ = 0`, null arrays, `full_ = 0`. -/
def members_default : HashMap K V :=
  { size_ := 0, log_capacity_ := 0, metadata_ := [], data_ := [], full_ := 0 }

/-- `HashMap::HashMap(Hash hasher)`. -/
def new : HashMap K V :=
  { size_ := 0, log_capacity_ := 1, metadata_ := List.replicate 2 get_empty,
    data_ := List.replicate 2 default, full_ := 0 }

/-- `HashMap::size`. -/
def size (t : HashMap K V) : Nat := t.size_

/-- `HashMap::empty`. -/
def empty (t : HashMap K V) : Bool := t.size_ == 0

/-- `HashMap::clear`. -/
def clear (_t : HashMap K V) : HashMap K V :=
  { size_ := 0, full_ := 0, log_capacity_ := 1, metadata_ := List.replicate 2 get_empty,
    data_ := List.replicate 2 default }

/-- `HashMap::full_clear`. -/
def full_clear (_t : HashMap K V) : HashMap K V :=
  { size_ := 0, full_ := 0, log_capacity_ := 0, metadata_ := [], data_ := [] }

/-- `HashMap::end`. -/
def «end» (t : HashMap K V) : Option (IteratorBase (K × V)) :=
  match shl_int t.log_capacity_ with
  | none => none
  | some cap => IteratorBase.new t.metadata_ 0 (cap - 1) t.data_ true

/-- `HashMap::begin`. -/
def begin (t : HashMap K V) : Option (IteratorBase (K × V)) :=
  if t.empty then t.end
  else
    match shl_int t.log_capacity_ with
    | none => none
    | some cap => IteratorBase.new t.metadata_ 0 (cap - 1) t.data_ false

/-- The loop of `HashMap::find_generic`; every round moves the rider by at
least one slot. -/
def find_generic_loop (data : List (K × V)) (key : K) : Nat → Rider → Option (Bool × Nat)
  | 0, _ => none
  | n + 1, rider =>
    match rider.next (mode_empty ||| mode_hash) with
    | none => none
    | some (rider', p) =>
      if p.2 = mode_empty then some (false, p.1)
      else if p.2 = mode_hash then
        match data[p.1]? with
        | none => none
        | some kv => if kv.1 = key then some (true, p.1) else find_generic_loop data key n rider'
      else find_generic_loop data key n rider'

/-- `HashMap::find_generic`. -/
def find_generic (hasher : K → Nat) (t : HashMap K V) (key : K) : Option (Bool × Nat) :=
  let hash := hasher key % word
  match shl_int t.log_capacity_ with
  | none => none
  | some cap => find_generic_loop t.data_ key cap (Rider.new t.metadata_ hash (cap - 1))

/-- The loop of `HashMap::find_allow_deleted_generic`, with its two locals
`not_found_empty_position` and `empty_position`. -/
def find_allow_deleted_generic_loop (data : List (K × V)) (key : K) :
    Nat → Rider → Bool → Nat → Option (Bool × Nat)
  | 0, _, _, _ => none
  | n + 1, rider, not_found_empty_position, empty_position =>
    match rider.next (mode_empty ||| mode_hash ||| mode_deleted) with
    | none => none
    | some (rider', p) =>
      if p.2 = mode_empty then
        if not_found_empty_position then some (false, p.1) else some (false, empty_position)
      else if p.2 = mode_deleted then
        if not_found_empty_position then
          find_allow_deleted_generic_loop data key n rider' false p.1
        else find_allow_deleted_generic_loop data key n rider' false empty_position
      else if p.2 = mode_hash then
        match data[p.1]? with
        | none => none
        | some kv =>
          if kv.1 = key then some (true, p.1)
          else
            find_allow_deleted_generic_loop data key n rider' not_found_empty_position
              empty_position
      else
        find_allow_deleted_generic_loop data key n rider' not_found_empty_position
          empty_position

/-- `HashMap::find_allow_deleted_generic`. -/
def find_allow_deleted_generic (hasher : K → Nat) (t : HashMap K V) (key : K) :
    Option (Bool × Nat) :=
  let hash := hasher key % word
  match shl_int t.log_capacity_ with
  | none => none
  | some cap =>
    find_allow_deleted_generic_loop t.data_ key cap (Rider.new t.metadata_ hash (cap - 1))
      true 0

/-- `HashMap::find`. -/
def find (hasher : K → Nat) (t : HashMap K V) (key : K) : Option (IteratorBase (K × V)) :=
  match find_generic hasher t key with
  | none => none
  | some p =>
    if p.1 then
      match shl_int t.log_capacity_ with
      | none => none
      | some cap => IteratorBase.new t.metadata_ p.2 (cap - 1) t.data_ false
    else t.end

/-- `HashMap::at`. -/
def «at» (hasher : K → Nat) (t : HashMap K V) (key : K) : Option (AtResult V) :=
  match find_generic hasher t key with
  | none => none
  | some p =>
    if p.1 then
      match t.data_[p.2]? with
      | none => none
      | some kv => some (AtResult.value kv.2)
    else some AtResult.out_of_range

/-- `HashMap::insert_generic`; `resize` is the callee. -/
def insert_generic (resize : HashMap K V → Nat → Option (HashMap K V)) (hasher : K → Nat)
    (t : HashMap K V) (index : Nat) (key_val : K × V) : Option (HashMap K V) :=
  if index < t.metadata_.length ∧ index < t.data_.length then
    let t1 : HashMap K V :=
      { t with
        size_ := t.size_ + 1
        full_ := t.full_ + 1
        metadata_ := t.metadata_.set index (get_hash (hasher key_val.1 % word))
        data_ := t.data_.set index key_val }
    match shl_ull t1.log_capacity_ with
    | none => none
    | some cap =>
      if t1.full_ > cap >>> 1 then resize t1 (t1.log_capacity_ + 1) else some t1
  else none

/-- `HashMap::erase_generic`; `resize` is the callee. -/
def erase_generic (resize : HashMap K V → Nat → Option (HashMap K V))
    (t : HashMap K V) (index : Nat) : Option (HashMap K V) :=
  if index < t.metadata_.length then
    let t1 : HashMap K V :=
      { t with
        size_ := t.size_ - 1
        metadata_ := t.metadata_.set index get_deleted }
    match shl_ull t1.log_capacity_ with
    | none => none
    | some cap =>
      if t1.size_ < cap >>> 3 then resize t1 (t1.log_capacity_ - 1) else some t1
  else none

/-- `HashMap::insert`; `resize` is what `insert_generic` calls. -/
def insert_with (resize : HashMap K V → Nat → Option (HashMap K V)) (hasher : K → Nat)
    (t : HashMap K V) (key_val : K × V) : Option (HashMap K V) :=
  match find_allow_deleted_generic hasher t key_val.1 with
  | none => none
  | some p => if !p.1 then insert_generic resize hasher t p.2 key_val else some t

/-- The loop `for (; l != r; ++l) insert(*l)` of `copy_from_iterators_generic`
for `IteratorType = IteratorBase`. -/
def copy_loop (insert : HashMap K V → K × V → Option (HashMap K V)) :
    Nat → IteratorBase (K × V) → IteratorBase (K × V) → HashMap K V → Option (HashMap K V)
  | 0, _, _, _ => none
  | n + 1, l, r, t =>
    if l.operator_ne r then
      match l.operator_deref with
      | none => none
      | some kv =>
        match insert t kv with
        | none => none
        | some t' =>
          match l.operator_pre_inc with
          | none => none
          | some l' => copy_loop insert n l' r t'
    else some t

/-- The first four statements of `copy_from_iterators_generic`: `full_clear`,
then fresh arrays of `1 << log_capacity` slots, the metadata zeroed. -/
def copy_from_iterators_alloc (t : HashMap K V) (log_capacity : Nat) : Option (HashMap K V) :=
  let t0 := t.full_clear
  match shl_int log_capacity with
  | none => none
  | some cap =>
    some { t0 with
      log_capacity_ := log_capacity
      metadata_ := List.replicate cap get_empty
      data_ := List.replicate cap default }

/-- `HashMap::copy_from_iterators_generic` for `IteratorType = IteratorBase`.
Every `++l` moves the cursor of `l` up or sets `is_end_`, so a loop that has
not met `r` after `hash_mask_ + 2` rounds never does. -/
def copy_from_iterators_generic (insert : HashMap K V → K × V → Option (HashMap K V))
    (t : HashMap K V) (l r : IteratorBase (K × V)) (log_capacity : Nat) :
    Option (HashMap K V) :=
  match copy_from_iterators_alloc t log_capacity with
  | none => none
  | some t1 => copy_loop insert (l.rider_.hash_mask_ + 2) l r t1

/-- The loop of `copy_from_iterators_generic` for pointers into an
`initializer_list`: the range is the list of its elements. -/
def copy_loop_ptr (insert : HashMap K V → K × V → Option (HashMap K V)) :
    List (K × V) → HashMap K V → Option (HashMap K V)
  | [], t => some t
  | kv :: rest, t =>
    match insert t kv with
    | none => none
    | some t' => copy_loop_ptr insert rest t'

/-- `HashMap::copy_from_iterators_generic` for `IteratorType = const KeyValType*`. -/
def copy_from_iterators_generic_ptr (insert : HashMap K V → K × V → Option (HashMap K V))
    (t : HashMap K V) (range : List (K × V)) (log_capacity : Nat) : Option (HashMap K V) :=
  match copy_from_iterators_alloc t log_capacity with
  | none => none
  | some t1 => copy_loop_ptr insert range t1

/-- `HashMap::HashMap(iterator l, iterator r, size_t log_capacity, Hash hasher)`. -/
def from_range_log (insert : HashMap K V → K × V → Option (HashMap K V))
    (l r : IteratorBase (K × V)) (log_capacity : Nat) : Option (HashMap K V) :=
  copy_from_iterators_generic insert
    { (members_default : HashMap K V) with log_capacity_ := log_capacity } l r log_capacity

/-- `HashMap::HashMap(iterator l, iterator r, Hash hasher)`. -/
def from_range (insert : HashMap K V → K × V → Option (HashMap K V))
    (l r : IteratorBase (K × V)) : Option (HashMap K V) :=
  match l.get_log_capacity with
  | none => none
  | some log_capacity => from_range_log insert l r log_capacity

/-- The loop `while ((1ull << log_capacity_) < l.size()) ++log_capacity_`. -/
def initializer_log_loop (n : Nat) : Nat → Nat → Option Nat
  | 0, _ => none
  | fuel + 1, log_capacity =>
    match shl_ull log_capacity with
    | none => none
    | some p =>
      if p < n then initializer_log_loop n fuel (log_capacity + 1) else some log_capacity

/-- `HashMap::HashMap(std::initializer_list<KeyValType> l, Hash hasher)`.  The
local `log_capacity_` shadows the member; the member is written by
`copy_from_iterators_generic`. -/
def from_initializer_list (insert : HashMap K V → K × V → Option (HashMap K V))
    (l : List (K × V)) : Option (HashMap K V) :=
  match initializer_log_loop l.length 65 0 with
  | none => none
  | some log_capacity_ =>
    copy_from_iterators_generic_ptr insert (members_default : HashMap K V) l (log_capacity_ + 1)

/-- `HashMap::resize`; `insert` is what the range constructor calls.  The
swap exchanges `size_`, `log_capacity_`, `metadata_` and `data_`; `full_` is
not among them. -/
def resize_with (insert : HashMap K V → K × V → Option (HashMap K V))
    (t : HashMap K V) (new_log_capacity : Nat) : Option (HashMap K V) :=
  match t.begin, t.end with
  | some b, some e =>
    match from_range_log insert b e new_log_capacity with
    | none => none
    | some new_hashmap =>
      some { t with
        size_ := new_hashmap.size_
        log_capacity_ := new_hashmap.log_capacity_
        metadata_ := new_hashmap.metadata_
        data_ := new_hashmap.data_ }
  | _, _ => none

/-- `HashMap::resize` at call depth `fuel`. -/
def resize (hasher : K → Nat) : Nat → HashMap K V → Nat → Option (HashMap K V)
  | 0 => fun _ _ => none
  | fuel + 1 => resize_with (insert_with (resize hasher fuel) hasher)

/-- `HashMap::insert`, with `fuel` nested calls of `resize` allowed. -/
def insert (hasher : K → Nat) (fuel : Nat) (t : HashMap K V) (key_val : K × V) :
    Option (HashMap K V) :=
  insert_with (resize hasher fuel) hasher t key_val

/-- `HashMap::erase`. -/
def erase (hasher : K → Nat) (fuel : Nat) (t : HashMap K V) (key : K) : Option (HashMap K V) :=
  match find_generic hasher t key with
  | none => none
  | some p => if p.1 then erase_generic (resize hasher fuel) t p.2 else some t

/-- `HashMap::operator[]`: the table after the call and the index of the slot
whose value field the returned reference designates. -/
def operator_index (hasher : K → Nat) (fuel : Nat) (t : HashMap K V) (key : K) :
    Option (HashMap K V × Nat) :=
  match find_allow_deleted_generic hasher t key with
  | none => none
  | some p =>
    match (if !p.1 then insert_generic (resize hasher fuel) hasher t p.2 (key, default)
           else some t) with
    | none => none
    | some t' =>
      match find_allow_deleted_generic hasher t' key with
      | none => none
      | some p' => if p'.2 < t'.data_.length then some (t', p'.2) else none

/-- Range constructors and the initializer-list constructor at depth `fuel`. -/
def of_range_log (hasher : K → Nat) (fuel : Nat) (l r : IteratorBase (K × V))
    (log_capacity : Nat) : Option (HashMap K V) :=
  from_range_log (insert hasher fuel) l r log_capacity

def of_range (hasher : K → Nat) (fuel : Nat) (l r : IteratorBase (K × V)) :
    Option (HashMap K V) :=
  from_range (insert hasher fuel) l r

def of_initializer_list (hasher : K → Nat) (fuel : Nat) (l : List (K × V)) :
    Option (HashMap K V) :=
  from_initializer_list (insert hasher fuel) l

/-- The loop `for (size_t i = 0; i < (1ull << log_capacity_); ++i)` of the copy
constructor and of `operator=`, for the `n` indices from `i` on: slot `i` of
both arrays of `other` is read and written to the new arrays. -/
def copy_slots (other : HashMap K V) :
    Nat → Nat → List Nat → List (K × V) → Option (List Nat × List (K × V))
  | 0, _, metadata, data => some (metadata, data)
  | n + 1, i, metadata, data =>
    match other.metadata_[i]?, other.data_[i]? with
    | some b, some kv =>
      if i < metadata.length ∧ i < data.length then
        copy_slots other n (i + 1) (metadata.set i b) (data.set i kv)
      else none
    | _, _ => none

/-- `HashMap::HashMap(const HashMap& other)`.  The initialiser list names
`hasher_`, `size_` and `log_capacity_`; `full_` keeps its member initialiser
`0`.  The new arrays have `1 << log_capacity_` slots, which the loop
overwrites one by one (the bytes they hold before that are written as empty
here). -/
def copy (other : HashMap K V) : Option (HashMap K V) :=
  let t0 : HashMap K V :=
    { (members_default : HashMap K V) with
      size_ := other.size_
      log_capacity_ := other.log_capacity_ }
  match shl_int t0.log_capacity_, shl_ull t0.log_capacity_ with
  | some cap, some n =>
    match copy_slots other n 0 (List.replicate cap get_empty) (List.replicate cap default) with
    | none => none
    | some (metadata, data) => some { t0 with metadata_ := metadata, data_ := data }
  | _, _ => none

/-- `HashMap::operator=`, called on `self`.  `copy_constructible` is
`std::is_copy_constructible<Hash>::value` (`assert(false)` otherwise) and
`aliased` says whether the arrays of `self` are those of `other`, the pointer
comparison of the source. -/
def operator_assign (copy_constructible aliased : Bool) (self other : HashMap K V) :
    Option (HashMap K V) :=
  if copy_constructible then
    if aliased then some self
    else
      let t0 := self.full_clear
      let t1 : HashMap K V :=
        { t0 with
          size_ := other.size_
          full_ := other.full_
          log_capacity_ := other.log_capacity_ }
      match shl_int t1.log_capacity_, shl_ull t1.log_capacity_ with
      | some cap, some n =>
        match copy_slots other n 0 (List.replicate cap get_empty)
            (List.replicate cap default) with
        | none => none
        | some (metadata, data) => some { t1 with metadata_ := metadata, data_ := data }
      | _, _ => none
  else none

end HashMap

/-! ## Vocabulary of the specification -/

open Metadata

/-- A metadata byte that is a fingerprint: neither empty nor deleted. -/
def is_full (b : Nat) : Bool := b != get_empty && b != get_deleted

/-- A metadata byte that is not empty: a fingerprint or a tombstone. -/
def is_used (b : Nat) : Bool := b != get_empty

/-- The `switch` of `Rider::next` on the metadata byte `b`, for a rider of
mode `mode` whose starting fingerprint is `fp`: the category that is returned,
or `none` when the loop goes on. -/
def category (mode fp b : Nat) : Option Nat :=
  if b = get_empty then
    if mode &&& mode_empty ≠ 0 then some mode_empty else none
  else if b = get_deleted then
    if mode &&& mode_deleted ≠ 0 then some mode_deleted else none
  else if mode &&& mode_full ≠ 0 then some mode_full
  else if mode &&& mode_hash ≠ 0 ∧ b = fp then some mode_hash
  else none

/-- The metadata byte `b` is accepted by the mode `mode` of a rider with
starting fingerprint `fp`, with category `c`: an empty byte if Empty is in the
mode, a tombstone if Deleted is, any fingerprint if Any-full is, a byte equal
to the starting fingerprint if Fingerprint-match is. -/
def Accepts (mode fp b c : Nat) : Prop :=
  (b = get_empty ∧ mode &&& mode_empty ≠ 0 ∧ c = mode_empty) ∨
  (b = get_deleted ∧ mode &&& mode_deleted ≠ 0 ∧ c = mode_deleted) ∨
  (is_full b = true ∧ mode &&& mode_full ≠ 0 ∧ c = mode_full) ∨
  (b = fp ∧ mode &&& mode_hash ≠ 0 ∧ c = mode_hash)

namespace HashMap

variable {K V : Type} [DecidableEq K] [DecidableEq V] [Inhabited K] [Inhabited V]

/-- The capacity `2 ^ log_capacity_`. -/
def capacity (t : HashMap K V) : Nat := 2 ^ t.log_capacity_

/-- The payloads of the slots whose metadata byte is a fingerprint, by
increasing slot index. -/
def entries (t : HashMap K V) : List (K × V) :=
  ((t.metadata_.zip t.data_).filter (fun s => is_full s.1)).map Prod.snd

/-- The indices of the slots whose metadata byte is a fingerprint, increasing. -/
def live_slots (t : HashMap K V) : List Nat :=
  (List.range t.metadata_.length).filter (fun i => is_full (t.metadata_.getD i get_empty))

/-- Key `k` is present: some fingerprint slot holds it. -/
def contains (t : HashMap K V) (k : K) : Prop := k ∈ t.entries.map Prod.fst

instance (t : HashMap K V) (k : K) : Decidable (t.contains k) := by
  unfold contains; infer_instance

/-- Slot `i` is a fingerprint slot with payload `kv`. -/
def Live (t : HashMap K V) (i : Nat) (kv : K × V) : Prop :=
  ∃ b, t.metadata_[i]? = some b ∧ is_full b = true ∧ t.data_[i]? = some kv

end HashMap

/-- The rider `r` walks `md` under the mask `cap - 1`, compares with the
fingerprint `fp`, and the next slot it examines is `p`. -/
def RiderAt (md : List Nat) (cap fp p : Nat) (r : Rider) : Prop :=
  r.metadata_ = md ∧ r.hash_mask_ = cap - 1 ∧ r.initial_hash_ = fp ∧
    ((r.current_hash_ + 1) % word) &&& r.hash_mask_ = p

/-- What one round of `find_generic_loop` does with the result of `next`. -/
def find_generic_cont {K V : Type} [DecidableEq K] (data : List (K × V)) (key : K) (n : Nat)
    (res : Option (Rider × (Nat × Nat))) : Option (Bool × Nat) :=
  match res with
  | none => none
  | some (rider', p) =>
    if p.2 = mode_empty then some (false, p.1)
    else if p.2 = mode_hash then
      match data[p.1]? with
      | none => none
      | some kv =>
        if kv.1 = key then some (true, p.1) else HashMap.find_generic_loop data key n rider'
    else HashMap.find_generic_loop data key n rider'

/-- What one round of `find_allow_deleted_generic_loop` does with the result
of `next`. -/
def find_allow_deleted_cont {K V : Type} [DecidableEq K] (data : List (K × V)) (key : K)
    (n : Nat) (nf : Bool) (ep : Nat) (res : Option (Rider × (Nat × Nat))) :
    Option (Bool × Nat) :=
  match res with
  | none => none
  | some (rider', p) =>
    if p.2 = mode_empty then
      if nf then some (false, p.1) else some (false, ep)
    else if p.2 = mode_deleted then
      if nf then HashMap.find_allow_deleted_generic_loop data key n rider' false p.1
      else HashMap.find_allow_deleted_generic_loop data key n rider' false ep
    else if p.2 = mode_hash then
      match data[p.1]? with
      | none => none
      | some kv =>
        if kv.1 = key then some (true, p.1)
        else HashMap.find_allow_deleted_generic_loop data key n rider' nf ep
    else HashMap.find_allow_deleted_generic_loop data key n rider' nf ep

/-- The offset, from `e` and within `k` slots of the probe path that starts at
`h`, of the first tombstone; `e + k` when there is none. -/
def first_tombstone (md : List Nat) (cap h : Nat) : Nat → Nat → Nat
  | 0, e => e
  | k + 1, e =>
    if md[(h + e) % cap]? = some get_deleted then e else first_tombstone md cap h k (e + 1)

/-- The representation invariant of the two arrays of a table of `2 ^ L`
slots: every fingerprint byte is the fingerprint of the key stored with it, no
empty byte lies on the probe path of a stored key before its slot, and no key
is stored twice. -/
structure Arr {K V : Type} (hasher : K → Nat) (L : Nat) (md : List Nat)
    (data : List (K × V)) : Prop where
  len_md : md.length = 2 ^ L
  len_data : data.length = 2 ^ L
  fp : ∀ (i b : Nat) (kv : K × V), md[i]? = some b → is_full b = true → data[i]? = some kv →
    b = get_hash (hasher kv.1 % word)
  chain : ∀ (i b : Nat) (kv : K × V), md[i]? = some b → is_full b = true → data[i]? = some kv →
    ∃ d, d < 2 ^ L ∧ (hasher kv.1 + d) % 2 ^ L = i ∧
      ∀ d', d' < d → md[(hasher kv.1 + d') % 2 ^ L]? ≠ some get_empty
  uniq : ∀ (i j b b' : Nat) (kv kv' : K × V), md[i]? = some b → is_full b = true → data[i]? = some kv →
    md[j]? = some b' → is_full b' = true → data[j]? = some kv' → kv.1 = kv'.1 → i = j

namespace HashMap

variable {K V : Type} [DecidableEq K] [DecidableEq V] [Inhabited K] [Inhabited V]

/-- The invariant of a table between two operations. -/
structure Inv (hasher : K → Nat) (t : HashMap K V) : Prop where
  arr : Arr hasher t.log_capacity_ t.metadata_ t.data_
  log_le : t.log_capacity_ ≤ 30
  size_ok : t.size_ = t.metadata_.countP is_full
  fill_ok : t.metadata_.countP is_used ≤ t.full_
  load_ok : 2 * t.metadata_.countP is_used ≤ 2 ^ t.log_capacity_

/-- The table that `copy_from_iterators_generic` starts its loop with: `2 ^ L`
empty slots. -/
def fresh (K V : Type) [Inhabited K] [Inhabited V] (L : Nat) : HashMap K V :=
  { size_ := 0, full_ := 0, log_capacity_ := L, metadata_ := List.replicate (2 ^ L) get_empty,
    data_ := List.replicate (2 ^ L) default }

/-- The loop `for (it = l; it != r; ++it) use(*it);` of a caller: the slots on
which the iterator stands when it is dereferenced, one per pre-increment. -/
def walk : Nat → IteratorBase (K × V) → IteratorBase (K × V) → Option (List Nat)
  | 0, _, _ => none
  | n + 1, l, r =>
    if l.operator_ne r then
      match l.operator_pre_inc with
      | none => none
      | some l' =>
        match walk n l' r with
        | none => none
        | some rest => some (l.rider_.get_current_hash :: rest)
    else some []

/-- The loop `for (it = begin(); it != end(); ++it) use(*it);`. -/
def traverse (t : HashMap K V) : Option (List Nat) :=
  match t.begin, t.end with
  | some b, some e => walk (b.rider_.hash_mask_ + 2) b e
  | _, _ => none

/-- Assignment of `v` through the reference that `operator[]` returned for slot `i`. -/
def assign (t : HashMap K V) (i : Nat) (v : V) : HashMap K V :=
  { t with data_ := t.data_.set i ((t.data_.getD i default).1, v) }

/-- The tables reached from a default-constructed one by `insert`, `erase`,
`operator[]` (with or without an assignment through the returned reference)
and `clear`. -/
inductive Reachable (hasher : K → Nat) : HashMap K V → Prop where
  | new : Reachable hasher HashMap.new
  | insert {t t' : HashMap K V} (fuel : Nat) (kv : K × V) :
      Reachable hasher t → HashMap.insert hasher fuel t kv = some t' → Reachable hasher t'
  | erase {t t' : HashMap K V} (fuel : Nat) (k : K) :
      Reachable hasher t → HashMap.erase hasher fuel t k = some t' → Reachable hasher t'
  | operator_index {t t' : HashMap K V} (fuel : Nat) (k : K) (i : Nat) :
      Reachable hasher t → HashMap.operator_index hasher fuel t k = some (t', i) →
      Reachable hasher t'
  | assign {t t' : HashMap K V} (fuel : Nat) (k : K) (i : Nat) (v : V) :
      Reachable hasher t → HashMap.operator_index hasher fuel t k = some (t', i) →
      Reachable hasher (t'.assign i v)
  | clear {t : HashMap K V} : Reachable hasher t → Reachable hasher t.clear

/-- One call of the public interface. -/
inductive Op (K V : Type) where
  | insert : K × V → Op K V
  | erase : K → Op K V
  | operator_index : K → Op K V
  | clear : Op K V

/-- The table after one call. -/
def apply (hasher : K → Nat) (fuel : Nat) (t : HashMap K V) : Op K V → Option (HashMap K V)
  | Op.insert kv => HashMap.insert hasher fuel t kv
  | Op.erase k => HashMap.erase hasher fuel t k
  | Op.operator_index k => (HashMap.operator_index hasher fuel t k).map Prod.fst
  | Op.clear => some t.clear

/-- The table after a sequence of calls. -/
def run (hasher : K → Nat) (fuel : Nat) : List (Op K V) → HashMap K V → Option (HashMap K V)
  | [], t => some t
  | op :: ops, t =>
    match apply hasher fuel t op with
    | none => none
    | some t' => run hasher fuel ops t'

end HashMap

/-! ## Concrete tables for the examples -/

/-- A table of `Nat` keys and values given by the leading slots of its two
arrays; the remaining slots are empty and hold the default payload. -/
def table (size_ log_capacity_ : Nat) (metadata_ : List Nat) (data_ : List (Nat × Nat))
    (full_ : Nat) : HashMap Nat Nat :=
  { size_ := size_, log_capacity_ := log_capacity_,
    metadata_ := metadata_ ++ List.replicate (2 ^ log_capacity_ - metadata_.length) 0,
    data_ := data_ ++ List.replicate (2 ^ log_capacity_ - data_.length) (0, 0),
    full_ := full_ }

/-- The hasher of the examples: a key is its own hash. -/
def id_hasher : Nat → Nat := fun k => k

/-- The payloads `(0, 0), …, (7, 7)`. -/
def diag8 : List (Nat × Nat) :=
  [(0, 0), (1, 1), (2, 2), (3, 3), (4, 4), (5, 5), (6, 6), (7, 7)]

/-- The table after `insert((1, 10))`, `insert((2, 20))`: capacity 4, and the
next insertion of a new key resizes it. -/
def small : HashMap Nat Nat :=
  table 2 2 [0, 2, 3] [(0, 0), (1, 10), (2, 20)] 2

/-- The table after `insert((1, 10))`, `insert((2, 20))`, `insert((3, 30))`. -/
def sample : HashMap Nat Nat :=
  table 3 3 [0, 2, 3, 4] [(0, 0), (1, 10), (2, 20), (3, 30)] 3

/-- The sample table after `erase(1)`, `erase(2)`: capacity 8 and one entry,
so that the next erasure of a stored key shrinks it. -/
def lonely : HashMap Nat Nat :=
  table 1 3 [0, 255, 255, 4] [(0, 0), (1, 10), (2, 20), (3, 30)] 3

/-- The sample table after `insert((9, 90))`, `erase(2)`: the key 9 hashes to
slot 1 and is stored in slot 4, behind a fingerprint, a tombstone and a
fingerprint. -/
def crowded : HashMap Nat Nat :=
  table 3 3 [0, 2, 255, 4, 10] [(0, 0), (1, 10), (2, 20), (3, 30), (9, 90)] 4

/-- The sample table after `insert((9, 90))`: four of its eight metadata bytes
are fingerprints, and `full_` is `capacity / 2`. -/
def quartet : HashMap Nat Nat :=
  table 4 3 [0, 2, 3, 4, 10] [(0, 0), (1, 10), (2, 20), (3, 30), (9, 90)] 4

/-- What the copy constructor returns on `quartet`: its arrays and `size_`,
with `full_ = 0`. -/
def quartet_copy : HashMap Nat Nat :=
  table 4 3 [0, 2, 3, 4, 10] [(0, 0), (1, 10), (2, 20), (3, 30), (9, 90)] 0

/-- The table `quartet_copy` after `insert((5, 50))`, `insert((6, 60))`,
`insert((7, 70))`, `insert((8, 80))`: no metadata byte is empty. -/
def brimful : HashMap Nat Nat :=
  table 8 3 [9, 2, 3, 4, 10, 6, 7, 8]
    [(8, 80), (1, 10), (2, 20), (3, 30), (9, 90), (5, 50), (6, 60), (7, 70)] 4

/-! # Theorems -/

open Metadata HashMap

set_option linter.unusedSectionVars false

section

/-! ## Arithmetic of the cursor -/

theorem word_mask_mod (x L : Nat) (hL : L ≤ 64) : (x % word) &&& (2 ^ L - 1) = x % 2 ^ L := by
  rw [Nat.and_pow_two_sub_one_eq_mod, word, Nat.mod_mod_of_dvd _ (Nat.pow_dvd_pow 2 hL)]

theorem start_wrap (h L : Nat) (hL : L ≤ 64) :
    (((h % word + word - 1) % word + 1) % word) &&& (2 ^ L - 1) = h % 2 ^ L := by
  rw [word_mask_mod _ _ hL]
  have hw : 0 < word := by decide
  have h1 : (h % word + word - 1) % word + 1 ≡ h [MOD word] := by
    have hlt : h % word < word := Nat.mod_lt _ hw
    rcases Nat.eq_zero_or_pos (h % word) with h0 | hpos
    · rw [h0]
      have e1 : (0 + word - 1) % word + 1 = word := by decide
      rw [e1]
      have e2 : h ≡ 0 [MOD word] := h0
      exact (Nat.modEq_zero_iff_dvd.mpr (dvd_refl _)).trans e2.symm
    · have e : (h % word + word - 1) = (h % word - 1) + word := by omega
      rw [e, Nat.add_mod_right, Nat.mod_eq_of_lt (by omega)]
      have e3 : h % word - 1 + 1 = h % word := by omega
      rw [e3]
      exact Nat.mod_modEq _ _
  exact h1.of_dvd (by rw [word]; exact Nat.pow_dvd_pow 2 hL)

/-- A freshly constructed rider examines slot `hash % cap` first. -/
theorem riderAt_new (md : List Nat) (h L : Nat) (hL : L ≤ 64) :
    RiderAt md (2 ^ L) (get_hash (h % word)) (h % 2 ^ L) (Rider.new md (h % word) (2 ^ L - 1)) := by
  refine ⟨rfl, rfl, rfl, ?_⟩
  exact start_wrap h L hL

/-- After the rider has examined slot `p`, it examines `(p + 1) % cap`. -/
theorem riderAt_step {md : List Nat} {L fp p : Nat} {r : Rider} (hL : L ≤ 64)
    (h : RiderAt md (2 ^ L) fp p r) :
    RiderAt md (2 ^ L) fp ((p + 1) % 2 ^ L) { r with current_hash_ := p } := by
  obtain ⟨h1, h2, h3, _⟩ := h
  refine ⟨h1, h2, h3, ?_⟩
  simp only [h2]
  exact word_mask_mod _ _ hL

theorem pos_succ (h e cap : Nat) : ((h + e) % cap + 1) % cap = (h + (e + 1)) % cap := by
  rw [← Nat.add_assoc, Nat.add_mod (h + e) 1 cap, Nat.add_mod ((h + e) % cap) 1 cap, Nat.mod_mod]

/-- Offsets below the capacity name different slots. -/
theorem pos_inj {h d d' cap : Nat} (hd : d < cap) (hd' : d' < cap)
    (he : (h + d) % cap = (h + d') % cap) : d = d' := by
  have h1 : h + d ≡ h + d' [MOD cap] := he
  have h2 : d ≡ d' [MOD cap] := Nat.ModEq.add_left_cancel' h h1
  exact Nat.ModEq.eq_of_lt_of_lt h2 hd hd'

/-- Every slot is on the probe path of every start. -/
theorem pos_surj (h : Nat) {i cap : Nat} (hi : i < cap) :
    ∃ d, d < cap ∧ (h + d) % cap = i := by
  refine ⟨(i + cap - h % cap) % cap, Nat.mod_lt _ (by omega), ?_⟩
  have hlt : h % cap < cap := Nat.mod_lt _ (by omega)
  have e : h % cap + (i + cap - h % cap) = i + cap := by omega
  rw [Nat.add_mod_mod, ← Nat.mod_add_mod, e, Nat.add_mod_right, Nat.mod_eq_of_lt hi]

/-! ## One round of `Rider::next` -/

theorem next_loop_empty3 {md : List Nat} {cap fp p f : Nat} {r : Rider}
    (h : RiderAt md cap fp p r) (hb : md[p]? = some get_empty) :
    Rider.next_loop (mode_empty ||| mode_hash) (f + 1) r
      = some ({ r with current_hash_ := p }, (p, mode_empty)) := by
  obtain ⟨h1, _, _, h4⟩ := h
  simp +decide [Rider.next_loop, h4, h1, hb, mode_empty, mode_hash]

theorem next_loop_hit3 {md : List Nat} {cap fp p f b : Nat} {r : Rider}
    (h : RiderAt md cap fp p r) (hb : md[p]? = some b) (hf : is_full b = true) (hfp : b = fp) :
    Rider.next_loop (mode_empty ||| mode_hash) (f + 1) r
      = some ({ r with current_hash_ := p }, (p, mode_hash)) := by
  obtain ⟨h1, _, h3, h4⟩ := h
  have hi : b = r.initial_hash_ := hfp.trans h3.symm
  simp [is_full] at hf
  simp +decide [Rider.next_loop, h4, h1, hb, mode_empty, mode_hash, mode_full, mode_deleted,
    hf.1, hf.2, ← hi]

theorem next_loop_skip3 {md : List Nat} {cap fp p f b : Nat} {r : Rider}
    (h : RiderAt md cap fp p r) (hb : md[p]? = some b) (hne : b ≠ get_empty)
    (hs : b = get_deleted ∨ b ≠ fp) :
    Rider.next_loop (mode_empty ||| mode_hash) (f + 1) r
      = Rider.next_loop (mode_empty ||| mode_hash) f { r with current_hash_ := p } := by
  obtain ⟨h1, _, h3, h4⟩ := h
  by_cases hd : b = get_deleted
  · simp +decide [Rider.next_loop, h4, h1, hb, mode_empty, mode_hash, mode_full, mode_deleted,
      hd, get_deleted, get_empty]
  · have hi : b ≠ r.initial_hash_ := by
      rcases hs with hs | hs
      · exact absurd hs hd
      · rw [h3]; exact hs
    simp +decide [Rider.next_loop, h4, h1, hb, mode_empty, mode_hash, mode_full, mode_deleted,
      hd, hne, hi]

theorem next_loop_empty11 {md : List Nat} {cap fp p f : Nat} {r : Rider}
    (h : RiderAt md cap fp p r) (hb : md[p]? = some get_empty) :
    Rider.next_loop (mode_empty ||| mode_hash ||| mode_deleted) (f + 1) r
      = some ({ r with current_hash_ := p }, (p, mode_empty)) := by
  obtain ⟨h1, _, _, h4⟩ := h
  simp +decide [Rider.next_loop, h4, h1, hb, mode_empty, mode_hash, mode_deleted]

theorem next_loop_deleted11 {md : List Nat} {cap fp p f : Nat} {r : Rider}
    (h : RiderAt md cap fp p r) (hb : md[p]? = some get_deleted) :
    Rider.next_loop (mode_empty ||| mode_hash ||| mode_deleted) (f + 1) r
      = some ({ r with current_hash_ := p }, (p, mode_deleted)) := by
  obtain ⟨h1, _, _, h4⟩ := h
  simp +decide [Rider.next_loop, h4, h1, hb, mode_empty, mode_hash, mode_deleted, get_deleted,
    get_empty]

theorem next_loop_hit11 {md : List Nat} {cap fp p f b : Nat} {r : Rider}
    (h : RiderAt md cap fp p r) (hb : md[p]? = some b) (hf : is_full b = true) (hfp : b = fp) :
    Rider.next_loop (mode_empty ||| mode_hash ||| mode_deleted) (f + 1) r
      = some ({ r with current_hash_ := p }, (p, mode_hash)) := by
  obtain ⟨h1, _, h3, h4⟩ := h
  have hi : b = r.initial_hash_ := hfp.trans h3.symm
  simp [is_full] at hf
  simp +decide [Rider.next_loop, h4, h1, hb, mode_empty, mode_hash, mode_full, mode_deleted,
    hf.1, hf.2, ← hi]

theorem next_loop_skip11 {md : List Nat} {cap fp p f b : Nat} {r : Rider}
    (h : RiderAt md cap fp p r) (hb : md[p]? = some b) (hf : is_full b = true) (hfp : b ≠ fp) :
    Rider.next_loop (mode_empty ||| mode_hash ||| mode_deleted) (f + 1) r
      = Rider.next_loop (mode_empty ||| mode_hash ||| mode_deleted) f
          { r with current_hash_ := p } := by
  obtain ⟨h1, _, h3, h4⟩ := h
  have hi : b ≠ r.initial_hash_ := by rw [h3]; exact hfp
  simp [is_full] at hf
  simp +decide [Rider.next_loop, h4, h1, hb, mode_empty, mode_hash, mode_full, mode_deleted,
    hf.1, hf.2, hi]

theorem next_loop_hit4 {md : List Nat} {cap fp p f b : Nat} {r : Rider}
    (h : RiderAt md cap fp p r) (hb : md[p]? = some b) (hf : is_full b = true) :
    Rider.next_loop mode_full (f + 1) r
      = some ({ r with current_hash_ := p }, (p, mode_full)) := by
  obtain ⟨h1, _, _, h4⟩ := h
  simp [is_full] at hf
  simp +decide [Rider.next_loop, h4, h1, hb, mode_full, hf.1, hf.2]

theorem next_loop_skip4 {md : List Nat} {cap fp p f b : Nat} {r : Rider}
    (h : RiderAt md cap fp p r) (hb : md[p]? = some b) (hf : is_full b = false) :
    Rider.next_loop mode_full (f + 1) r
      = Rider.next_loop mode_full f { r with current_hash_ := p } := by
  obtain ⟨h1, _, _, h4⟩ := h
  by_cases he : b = get_empty
  · simp +decide [Rider.next_loop, h4, h1, hb, mode_full, mode_empty, he]
  · have hd : b = get_deleted := by
      simp [is_full, he] at hf; exact hf
    simp +decide [Rider.next_loop, h4, h1, hb, mode_full, mode_empty, mode_deleted, hd,
      get_deleted, get_empty]

end

section

variable {K V : Type} [DecidableEq K]

theorem find_generic_loop_succ (data : List (K × V)) (key : K) (n : Nat) (r : Rider) :
    HashMap.find_generic_loop data key (n + 1) r
      = find_generic_cont data key n (r.next (mode_empty ||| mode_hash)) := by
  rw [HashMap.find_generic_loop, find_generic_cont.eq_def]

theorem find_allow_deleted_generic_loop_succ (data : List (K × V)) (key : K) (n : Nat)
    (r : Rider) (nf : Bool) (ep : Nat) :
    HashMap.find_allow_deleted_generic_loop data key (n + 1) r nf ep
      = find_allow_deleted_cont data key n nf ep
          (r.next (mode_empty ||| mode_hash ||| mode_deleted)) := by
  rw [HashMap.find_allow_deleted_generic_loop, find_allow_deleted_cont.eq_def]

theorem riderAt_mask {md : List Nat} {L fp p : Nat} {r : Rider} (h : RiderAt md (2 ^ L) fp p r) :
    r.hash_mask_ + 1 = 2 ^ L := by
  have := h.2.1
  have hp : 0 < 2 ^ L := Nat.pos_pow_of_pos L (by decide)
  omega

/-- The probe of `find_generic`: if the slots at offsets `e .. D - 1` of the
path are passed over and the slot at offset `D` ends the search with `res`,
the loop returns `res`. -/
theorem find_generic_cont_spec (md : List Nat) (data : List (K × V)) (key : K) (L h fp D : Nat)
    (hL : L ≤ 64) (hD : D < 2 ^ L) (res : Bool × Nat)
    (hpass : ∀ d, d < D → ∃ b, md[(h + d) % 2 ^ L]? = some b ∧ b ≠ get_empty ∧
      (is_full b = true → b = fp → ∃ kv, data[(h + d) % 2 ^ L]? = some kv ∧ kv.1 ≠ key))
    (hterm : (md[(h + D) % 2 ^ L]? = some get_empty ∧ res = (false, (h + D) % 2 ^ L)) ∨
      (∃ b kv, md[(h + D) % 2 ^ L]? = some b ∧ is_full b = true ∧ b = fp ∧
        data[(h + D) % 2 ^ L]? = some kv ∧ kv.1 = key ∧ res = (true, (h + D) % 2 ^ L))) :
    ∀ k e f n r, D - e = k → e ≤ D → D - e < f → D - e ≤ n →
      RiderAt md (2 ^ L) fp ((h + e) % 2 ^ L) r →
      find_generic_cont data key n (Rider.next_loop (mode_empty ||| mode_hash) f r) = some res := by
  intro k
  induction k with
  | zero =>
    intro e f n r hk he hf _ hr
    have heD : e = D := by omega
    subst heD
    obtain ⟨f', rfl⟩ : ∃ f', f = f' + 1 := ⟨f - 1, by omega⟩
    rcases hterm with ⟨hb, hres⟩ | ⟨b, kv, hb, hfull, hfp, hdat, hkey, hres⟩
    · rw [next_loop_empty3 hr hb, hres]
      simp [find_generic_cont]
    · rw [next_loop_hit3 hr hb hfull hfp, hres]
      simp +decide [find_generic_cont, mode_hash, mode_empty, hdat, hkey]
  | succ k ih =>
    intro e f n r hk he hf hn hr
    obtain ⟨f', rfl⟩ : ∃ f', f = f' + 1 := ⟨f - 1, by omega⟩
    obtain ⟨b, hb, hne, hmis⟩ := hpass e (by omega)
    have hr' := riderAt_step hL hr
    rw [pos_succ] at hr'
    by_cases hs : b = get_deleted ∨ b ≠ fp
    · rw [next_loop_skip3 hr hb hne hs]
      exact ih (e + 1) f' n _ (by omega) (by omega) (by omega) (by omega) hr'
    · have hs' : b ≠ get_deleted ∧ b = fp := by
        constructor
        · intro hc; exact hs (Or.inl hc)
        · by_contra hc; exact hs (Or.inr hc)
      have hfull : is_full b = true := by simp [is_full, hne, hs'.1]
      obtain ⟨kv, hdat, hkey⟩ := hmis hfull hs'.2
      rw [next_loop_hit3 hr hb hfull hs'.2]
      obtain ⟨n', rfl⟩ : ∃ n', n = n' + 1 := ⟨n - 1, by omega⟩
      simp +decide only [find_generic_cont, mode_hash, mode_empty, hdat, hkey, if_false]
      rw [find_generic_loop_succ, Rider.next, riderAt_mask hr']
      exact ih (e + 1) (2 ^ L) n' _ (by omega) (by omega) (by omega) (by omega) hr'

/-- The shape of the result of `find_generic` on a table of `2 ^ L` slots. -/
theorem find_generic_spec (hasher : K → Nat) (t : HashMap K V) (key : K) (D : Nat)
    (hL : t.log_capacity_ ≤ 30) (hD : D < 2 ^ t.log_capacity_) (res : Bool × Nat)
    (hpass : ∀ d, d < D → ∃ b, t.metadata_[(hasher key + d) % 2 ^ t.log_capacity_]? = some b ∧
      b ≠ get_empty ∧
      (is_full b = true → b = get_hash (hasher key % word) →
        ∃ kv, t.data_[(hasher key + d) % 2 ^ t.log_capacity_]? = some kv ∧ kv.1 ≠ key))
    (hterm : (t.metadata_[(hasher key + D) % 2 ^ t.log_capacity_]? = some get_empty ∧
        res = (false, (hasher key + D) % 2 ^ t.log_capacity_)) ∨
      (∃ b kv, t.metadata_[(hasher key + D) % 2 ^ t.log_capacity_]? = some b ∧
        is_full b = true ∧ b = get_hash (hasher key % word) ∧
        t.data_[(hasher key + D) % 2 ^ t.log_capacity_]? = some kv ∧ kv.1 = key ∧
        res = (true, (hasher key + D) % 2 ^ t.log_capacity_))) :
    HashMap.find_generic hasher t key = some res := by
  have hsh : shl_int t.log_capacity_ = some (2 ^ t.log_capacity_) := by
    simp [shl_int]; omega
  have hpos : 0 < 2 ^ t.log_capacity_ := Nat.pos_pow_of_pos _ (by decide)
  obtain ⟨n, hn⟩ : ∃ n, 2 ^ t.log_capacity_ = n + 1 := ⟨2 ^ t.log_capacity_ - 1, by omega⟩
  have hr := riderAt_new t.metadata_ (hasher key) t.log_capacity_ (by omega)
  simp only [HashMap.find_generic, hsh]
  rw [hn, find_generic_loop_succ, Rider.next, ← hn, riderAt_mask hr]
  refine find_generic_cont_spec t.metadata_ t.data_ key t.log_capacity_ (hasher key) _ D
    (by omega) hD res hpass hterm D 0 _ n _ rfl (by omega) (by omega) (by omega) ?_
  simpa using hr

end

section

variable {K V : Type} [DecidableEq K]

theorem first_tombstone_bounds (md : List Nat) (cap h : Nat) :
    ∀ k e, e ≤ first_tombstone md cap h k e ∧ first_tombstone md cap h k e ≤ e + k := by
  intro k
  induction k with
  | zero => intro e; simp [first_tombstone]
  | succ k ih =>
    intro e
    simp only [first_tombstone]
    split
    · omega
    · have := ih (e + 1); omega

theorem first_tombstone_spec (md : List Nat) (cap h : Nat) :
    ∀ k e, first_tombstone md cap h k e = e + k ∨
      md[(h + first_tombstone md cap h k e) % cap]? = some get_deleted := by
  intro k
  induction k with
  | zero => intro e; left; simp [first_tombstone]
  | succ k ih =>
    intro e
    simp only [first_tombstone]
    split
    · right; assumption
    · rcases ih (e + 1) with h1 | h1
      · left; omega
      · right; exact h1

/-- No tombstone lies on the path before the offset `first_tombstone` returns. -/
theorem first_tombstone_min (md : List Nat) (cap h : Nat) :
    ∀ k e d, e ≤ d → d < first_tombstone md cap h k e →
      md[(h + d) % cap]? ≠ some get_deleted := by
  intro k
  induction k with
  | zero =>
    intro e d h1 h2
    simp [first_tombstone] at h2
    omega
  | succ k ih =>
    intro e d h1 h2
    simp only [first_tombstone] at h2
    split at h2
    · omega
    · rename_i hne
      rcases Nat.eq_or_lt_of_le h1 with h3 | h3
      · subst h3; exact hne
      · exact ih (e + 1) d h3 h2

/-- The probe of `find_allow_deleted_generic` for a key that is not found: the
search ends on the empty slot at offset `D`. -/
theorem find_allow_deleted_cont_absent (md : List Nat) (data : List (K × V)) (key : K)
    (L h fp D : Nat) (hL : L ≤ 64) (hD : D < 2 ^ L)
    (hpass : ∀ d, d < D → ∃ b, md[(h + d) % 2 ^ L]? = some b ∧ b ≠ get_empty ∧
      (is_full b = true → b = fp → ∃ kv, data[(h + d) % 2 ^ L]? = some kv ∧ kv.1 ≠ key))
    (hterm : md[(h + D) % 2 ^ L]? = some get_empty) :
    ∀ k e f n r nf ep, D - e = k → e ≤ D → D - e < f → D - e ≤ n →
      RiderAt md (2 ^ L) fp ((h + e) % 2 ^ L) r →
      find_allow_deleted_cont data key n nf ep
          (Rider.next_loop (mode_empty ||| mode_hash ||| mode_deleted) f r)
        = some (false, if nf then (h + first_tombstone md (2 ^ L) h k e) % 2 ^ L else ep) := by
  intro k
  induction k with
  | zero =>
    intro e f n r nf ep hk he hf _ hr
    have heD : e = D := by omega
    subst heD
    obtain ⟨f', rfl⟩ : ∃ f', f = f' + 1 := ⟨f - 1, by omega⟩
    rw [next_loop_empty11 hr hterm]
    cases nf <;> simp [find_allow_deleted_cont, first_tombstone]
  | succ k ih =>
    intro e f n r nf ep hk he hf hn hr
    obtain ⟨f', rfl⟩ : ∃ f', f = f' + 1 := ⟨f - 1, by omega⟩
    obtain ⟨n', rfl⟩ : ∃ n', n = n' + 1 := ⟨n - 1, by omega⟩
    obtain ⟨b, hb, hne, hmis⟩ := hpass e (by omega)
    have hr' := riderAt_step hL hr
    rw [pos_succ] at hr'
    by_cases hdel : b = get_deleted
    · subst hdel
      rw [next_loop_deleted11 hr hb]
      have key1 := ih (e + 1) (2 ^ L) n' _ false ((h + e) % 2 ^ L) (by omega) (by omega)
        (by omega) (by omega) hr'
      have key2 := ih (e + 1) (2 ^ L) n' _ false ep (by omega) (by omega)
        (by omega) (by omega) hr'
      cases nf
      · simp +decide only [find_allow_deleted_cont, mode_hash, mode_empty, mode_deleted, if_false,
          if_true]
        rw [find_allow_deleted_generic_loop_succ, Rider.next, riderAt_mask hr', key2]
        simp
      · simp +decide only [find_allow_deleted_cont, mode_hash, mode_empty, mode_deleted, if_false,
          if_true]
        rw [find_allow_deleted_generic_loop_succ, Rider.next, riderAt_mask hr', key1]
        simp [first_tombstone, hb]
    · have hfull : is_full b = true := by simp [is_full, hne, hdel]
      have hft : first_tombstone md (2 ^ L) h (k + 1) e = first_tombstone md (2 ^ L) h k (e + 1) := by
        simp [first_tombstone, hb, hdel]
      rw [hft]
      by_cases hfp : b = fp
      · obtain ⟨kv, hdat, hkey⟩ := hmis hfull hfp
        rw [next_loop_hit11 hr hb hfull hfp]
        simp +decide only [find_allow_deleted_cont, mode_hash, mode_empty, mode_deleted, hdat, hkey,
          if_false]
        rw [find_allow_deleted_generic_loop_succ, Rider.next, riderAt_mask hr']
        exact ih (e + 1) (2 ^ L) n' _ nf ep (by omega) (by omega) (by omega) (by omega) hr'
      · rw [next_loop_skip11 hr hb hfull hfp]
        exact ih (e + 1) f' (n' + 1) _ nf ep (by omega) (by omega) (by omega) (by omega) hr'

/-- The probe of `find_allow_deleted_generic` for a key that is found at offset `D`. -/
theorem find_allow_deleted_cont_present (md : List Nat) (data : List (K × V)) (key : K)
    (L h fp D : Nat) (hL : L ≤ 64) (hD : D < 2 ^ L)
    (hpass : ∀ d, d < D → ∃ b, md[(h + d) % 2 ^ L]? = some b ∧ b ≠ get_empty ∧
      (is_full b = true → b = fp → ∃ kv, data[(h + d) % 2 ^ L]? = some kv ∧ kv.1 ≠ key))
    (hterm : ∃ b kv, md[(h + D) % 2 ^ L]? = some b ∧ is_full b = true ∧ b = fp ∧
        data[(h + D) % 2 ^ L]? = some kv ∧ kv.1 = key) :
    ∀ k e f n r nf ep, D - e = k → e ≤ D → D - e < f → D - e ≤ n →
      RiderAt md (2 ^ L) fp ((h + e) % 2 ^ L) r →
      find_allow_deleted_cont data key n nf ep
          (Rider.next_loop (mode_empty ||| mode_hash ||| mode_deleted) f r)
        = some (true, (h + D) % 2 ^ L) := by
  intro k
  induction k with
  | zero =>
    intro e f n r nf ep hk he hf _ hr
    have heD : e = D := by omega
    subst heD
    obtain ⟨f', rfl⟩ : ∃ f', f = f' + 1 := ⟨f - 1, by omega⟩
    obtain ⟨b, kv, hb, hfull, hfp, hdat, hkey⟩ := hterm
    rw [next_loop_hit11 hr hb hfull hfp]
    simp +decide [find_allow_deleted_cont, mode_hash, mode_empty, mode_deleted, hdat, hkey]
  | succ k ih =>
    intro e f n r nf ep hk he hf hn hr
    obtain ⟨f', rfl⟩ : ∃ f', f = f' + 1 := ⟨f - 1, by omega⟩
    obtain ⟨n', rfl⟩ : ∃ n', n = n' + 1 := ⟨n - 1, by omega⟩
    obtain ⟨b, hb, hne, hmis⟩ := hpass e (by omega)
    have hr' := riderAt_step hL hr
    rw [pos_succ] at hr'
    by_cases hdel : b = get_deleted
    · subst hdel
      rw [next_loop_deleted11 hr hb]
      cases nf
      · simp +decide only [find_allow_deleted_cont, mode_hash, mode_empty, mode_deleted, if_false,
          if_true]
        rw [find_allow_deleted_generic_loop_succ, Rider.next, riderAt_mask hr']
        exact ih (e + 1) (2 ^ L) n' _ _ _ (by omega) (by omega) (by omega) (by omega) hr'
      · simp +decide only [find_allow_deleted_cont, mode_hash, mode_empty, mode_deleted, if_false,
          if_true]
        rw [find_allow_deleted_generic_loop_succ, Rider.next, riderAt_mask hr']
        exact ih (e + 1) (2 ^ L) n' _ _ _ (by omega) (by omega) (by omega) (by omega) hr'
    · have hfull : is_full b = true := by simp [is_full, hne, hdel]
      by_cases hfp : b = fp
      · obtain ⟨kv, hdat, hkey⟩ := hmis hfull hfp
        rw [next_loop_hit11 hr hb hfull hfp]
        simp +decide only [find_allow_deleted_cont, mode_hash, mode_empty, mode_deleted, hdat, hkey,
          if_false]
        rw [find_allow_deleted_generic_loop_succ, Rider.next, riderAt_mask hr']
        exact ih (e + 1) (2 ^ L) n' _ nf ep (by omega) (by omega) (by omega) (by omega) hr'
      · rw [next_loop_skip11 hr hb hfull hfp]
        exact ih (e + 1) f' (n' + 1) _ nf ep (by omega) (by omega) (by omega) (by omega) hr'

/-- `next` in mode `mode_full`: the rider stops on the first fingerprint slot. -/
theorem next_loop_full_spec (md : List Nat) (L h fp D : Nat) (hL : L ≤ 64)
    (hpass : ∀ d, d < D → ∃ b, md[(h + d) % 2 ^ L]? = some b ∧ is_full b = false)
    (hterm : ∃ b, md[(h + D) % 2 ^ L]? = some b ∧ is_full b = true) :
    ∀ k e f r, D - e = k → e ≤ D → D - e < f →
      RiderAt md (2 ^ L) fp ((h + e) % 2 ^ L) r →
      ∃ r', Rider.next_loop mode_full f r = some (r', ((h + D) % 2 ^ L, mode_full)) ∧
        r'.current_hash_ = (h + D) % 2 ^ L ∧ r'.metadata_ = md ∧ r'.hash_mask_ = 2 ^ L - 1 := by
  intro k
  induction k with
  | zero =>
    intro e f r hk he hf hr
    have heD : e = D := by omega
    subst heD
    obtain ⟨f', rfl⟩ : ∃ f', f = f' + 1 := ⟨f - 1, by omega⟩
    obtain ⟨b, hb, hfull⟩ := hterm
    rw [next_loop_hit4 hr hb hfull]
    exact ⟨_, rfl, rfl, hr.1, hr.2.1⟩
  | succ k ih =>
    intro e f r hk he hf hr
    obtain ⟨f', rfl⟩ : ∃ f', f = f' + 1 := ⟨f - 1, by omega⟩
    obtain ⟨b, hb, hnf⟩ := hpass e (by omega)
    have hr' := riderAt_step hL hr
    rw [pos_succ] at hr'
    rw [next_loop_skip4 hr hb hnf]
    exact ih (e + 1) f' _ (by omega) (by omega) (by omega) hr'

end

section

variable {K V : Type} [DecidableEq K]

theorem get_hash_full (x : Nat) : is_full (get_hash x) = true := by
  have h : x &&& 127 ≤ 127 := Nat.and_le_right
  simp only [is_full, get_hash, get_empty, get_deleted, Bool.and_eq_true, bne_iff_ne, ne_eq]
  omega

theorem is_full_used {b : Nat} (h : is_full b = true) : is_used b = true := by
  simp [is_full, is_used] at *
  exact h.1

theorem not_full_deleted : is_full get_deleted = false := by decide

theorem used_deleted : is_used get_deleted = true := by decide

theorem not_full_empty : is_full get_empty = false := by decide

theorem shl_int_eq {L : Nat} (hL : L ≤ 30) : shl_int L = some (2 ^ L) := by
  simp [shl_int]; omega

theorem shl_ull_eq {L : Nat} (hL : L ≤ 63) : shl_ull L = some (2 ^ L) := by
  simp [shl_ull]; omega

theorem two_pow_pos' (L : Nat) : 0 < 2 ^ L := Nat.pos_pow_of_pos L (by decide)

theorem getElem?_some_of_lt {α : Type} {l : List α} {i : Nat} (h : i < l.length) :
    ∃ a, l[i]? = some a := ⟨l[i], List.getElem?_eq_getElem h⟩

theorem lt_of_getElem?_some {α : Type} {l : List α} {i : Nat} {a : α} (h : l[i]? = some a) :
    i < l.length := by
  by_contra hc
  rw [List.getElem?_eq_none (by omega)] at h
  exact absurd h (by simp)

/-- A table whose non-empty bytes fill at most half of it has an empty byte. -/
theorem exists_empty_slot {md : List Nat} {L : Nat} (hlen : md.length = 2 ^ L)
    (hload : 2 * md.countP is_used ≤ 2 ^ L) : ∃ i : Nat, md[i]? = some get_empty := by
  have hpos := two_pow_pos' L
  have hlt : md.countP is_used ≠ md.length := by omega
  have hne : ¬ ∀ a ∈ md, is_used a = true := fun hall => hlt (List.countP_eq_length.mpr hall)
  push_neg at hne
  obtain ⟨a, ha, hu⟩ := hne
  have ha0 : a = get_empty := by
    simp [is_used] at hu; exact hu
  obtain ⟨i, hi⟩ := List.mem_iff_getElem?.mp ha
  exact ⟨i, by rw [hi, ha0]⟩

/-- On a probe path that meets an empty byte there is a first one. -/
theorem first_empty_offset {md : List Nat} {L : Nat} (hlen : md.length = 2 ^ L) (h : Nat)
    (hex : ∃ i : Nat, md[i]? = some get_empty) :
    ∃ D, D < 2 ^ L ∧ md[(h + D) % 2 ^ L]? = some get_empty ∧
      ∀ d, d < D → md[(h + d) % 2 ^ L]? ≠ some get_empty := by
  obtain ⟨i, hi⟩ := hex
  have hil : i < 2 ^ L := hlen ▸ lt_of_getElem?_some hi
  obtain ⟨d0, hd0, hp0⟩ := pos_surj h hil
  have hex' : ∃ d, d < 2 ^ L ∧ md[(h + d) % 2 ^ L]? = some get_empty := ⟨d0, hd0, by rw [hp0]; exact hi⟩
  refine ⟨Nat.find hex', (Nat.find_spec hex').1, (Nat.find_spec hex').2, ?_⟩
  intro d hd hc
  exact Nat.find_min hex' hd ⟨lt_trans hd (Nat.find_spec hex').1, hc⟩

theorem find_allow_deleted_generic_absent_spec (hasher : K → Nat) (t : HashMap K V) (key : K)
    (D : Nat) (hL : t.log_capacity_ ≤ 30) (hD : D < 2 ^ t.log_capacity_)
    (hpass : ∀ d, d < D → ∃ b, t.metadata_[(hasher key + d) % 2 ^ t.log_capacity_]? = some b ∧
      b ≠ get_empty ∧
      (is_full b = true → b = get_hash (hasher key % word) →
        ∃ kv, t.data_[(hasher key + d) % 2 ^ t.log_capacity_]? = some kv ∧ kv.1 ≠ key))
    (hterm : t.metadata_[(hasher key + D) % 2 ^ t.log_capacity_]? = some get_empty) :
    HashMap.find_allow_deleted_generic hasher t key
      = some (false, (hasher key + first_tombstone t.metadata_ (2 ^ t.log_capacity_)
          (hasher key) D 0) % 2 ^ t.log_capacity_) := by
  have hsh := shl_int_eq hL
  have hpos := two_pow_pos' t.log_capacity_
  obtain ⟨n, hn⟩ : ∃ n, 2 ^ t.log_capacity_ = n + 1 := ⟨2 ^ t.log_capacity_ - 1, by omega⟩
  have hr := riderAt_new t.metadata_ (hasher key) t.log_capacity_ (by omega)
  simp only [HashMap.find_allow_deleted_generic, hsh]
  rw [hn, find_allow_deleted_generic_loop_succ, Rider.next, ← hn, riderAt_mask hr]
  have := find_allow_deleted_cont_absent t.metadata_ t.data_ key t.log_capacity_ (hasher key) _ D
    (by omega) hD hpass hterm D 0 (2 ^ t.log_capacity_) n _ true 0 rfl (by omega) (by omega)
    (by omega) (by simpa using hr)
  simpa using this

theorem find_allow_deleted_generic_present_spec (hasher : K → Nat) (t : HashMap K V) (key : K)
    (D : Nat) (hL : t.log_capacity_ ≤ 30) (hD : D < 2 ^ t.log_capacity_)
    (hpass : ∀ d, d < D → ∃ b, t.metadata_[(hasher key + d) % 2 ^ t.log_capacity_]? = some b ∧
      b ≠ get_empty ∧
      (is_full b = true → b = get_hash (hasher key % word) →
        ∃ kv, t.data_[(hasher key + d) % 2 ^ t.log_capacity_]? = some kv ∧ kv.1 ≠ key))
    (hterm : ∃ b kv, t.metadata_[(hasher key + D) % 2 ^ t.log_capacity_]? = some b ∧
        is_full b = true ∧ b = get_hash (hasher key % word) ∧
        t.data_[(hasher key + D) % 2 ^ t.log_capacity_]? = some kv ∧ kv.1 = key) :
    HashMap.find_allow_deleted_generic hasher t key
      = some (true, (hasher key + D) % 2 ^ t.log_capacity_) := by
  have hsh := shl_int_eq hL
  have hpos := two_pow_pos' t.log_capacity_
  obtain ⟨n, hn⟩ : ∃ n, 2 ^ t.log_capacity_ = n + 1 := ⟨2 ^ t.log_capacity_ - 1, by omega⟩
  have hr := riderAt_new t.metadata_ (hasher key) t.log_capacity_ (by omega)
  simp only [HashMap.find_allow_deleted_generic, hsh]
  rw [hn, find_allow_deleted_generic_loop_succ, Rider.next, ← hn, riderAt_mask hr]
  exact find_allow_deleted_cont_present t.metadata_ t.data_ key t.log_capacity_ (hasher key) _ D
    (by omega) hD hpass hterm D 0 (2 ^ t.log_capacity_) n _ true 0 rfl (by omega) (by omega)
    (by omega) (by simpa using hr)

/-- The slots of a probe path before offset `D` are passed over by a search
for `key` when none of them is empty and none of them stores `key`. -/
theorem pass_of {hasher : K → Nat} {L : Nat} {md : List Nat} {data : List (K × V)}
    (ha : Arr hasher L md data) (key : K) (D : Nat)
    (hne : ∀ d, d < D → md[(hasher key + d) % 2 ^ L]? ≠ some get_empty)
    (hkey : ∀ d, d < D → ∀ b kv, md[(hasher key + d) % 2 ^ L]? = some b → is_full b = true →
      data[(hasher key + d) % 2 ^ L]? = some kv → kv.1 ≠ key) :
    ∀ d, d < D → ∃ b, md[(hasher key + d) % 2 ^ L]? = some b ∧ b ≠ get_empty ∧
      (is_full b = true → b = get_hash (hasher key % word) →
        ∃ kv, data[(hasher key + d) % 2 ^ L]? = some kv ∧ kv.1 ≠ key) := by
  intro d hd
  have hlt : (hasher key + d) % 2 ^ L < 2 ^ L := Nat.mod_lt _ (two_pow_pos' L)
  obtain ⟨b, hb⟩ := getElem?_some_of_lt (l := md) (by rw [ha.len_md]; exact hlt)
  obtain ⟨kv, hkv⟩ := getElem?_some_of_lt (l := data) (by rw [ha.len_data]; exact hlt)
  refine ⟨b, hb, ?_, ?_⟩
  · intro hc; exact hne d hd (by rw [hb, hc])
  · intro hf _
    exact ⟨kv, hkv, hkey d hd b kv hb hf hkv⟩

/-- A stored key is found, by both searches, in the slot that stores it. -/
theorem find_present {hasher : K → Nat} {t : HashMap K V}
    (ha : Arr hasher t.log_capacity_ t.metadata_ t.data_) (hL : t.log_capacity_ ≤ 30)
    {i b : Nat} {kv : K × V} (hb : t.metadata_[i]? = some b) (hf : is_full b = true)
    (hkv : t.data_[i]? = some kv) :
    HashMap.find_generic hasher t kv.1 = some (true, i) ∧
      HashMap.find_allow_deleted_generic hasher t kv.1 = some (true, i) := by
  obtain ⟨D, hD, hpos, hpath⟩ := ha.chain i b kv hb hf hkv
  have hpass := pass_of ha kv.1 D hpath (by
    intro d hd b' kv' hb' hf' hkv' hc
    have := ha.uniq _ _ _ _ _ _ hb' hf' hkv' hb hf hkv hc
    rw [← hpos] at this
    have := pos_inj (lt_trans hd hD) hD this
    omega)
  have hfp := ha.fp i b kv hb hf hkv
  constructor
  · have := find_generic_spec hasher t kv.1 D hL hD (true, i) hpass
      (Or.inr ⟨b, kv, by rw [hpos]; exact hb, hf, hfp, by rw [hpos]; exact hkv, rfl, by rw [hpos]⟩)
    exact this
  · have := find_allow_deleted_generic_present_spec hasher t kv.1 D hL hD hpass
      ⟨b, kv, by rw [hpos]; exact hb, hf, hfp, by rw [hpos]; exact hkv, rfl⟩
    rw [this, hpos]

/-- A key that is not stored is not found: `find_generic` stops on an empty
slot, `find_allow_deleted_generic` returns a slot that is not a fingerprint
slot and before which the probe path of the key has no empty byte. -/
theorem find_absent {hasher : K → Nat} {t : HashMap K V}
    (ha : Arr hasher t.log_capacity_ t.metadata_ t.data_) (hL : t.log_capacity_ ≤ 30)
    (hex : ∃ i : Nat, t.metadata_[i]? = some get_empty) (key : K)
    (habs : ∀ (i b : Nat) (kv : K × V), t.metadata_[i]? = some b → is_full b = true → t.data_[i]? = some kv →
      kv.1 ≠ key) :
    (∃ j, HashMap.find_generic hasher t key = some (false, j) ∧
      t.metadata_[j]? = some get_empty) ∧
    (∃ T, T < 2 ^ t.log_capacity_ ∧
      HashMap.find_allow_deleted_generic hasher t key
        = some (false, (hasher key + T) % 2 ^ t.log_capacity_) ∧
      (∃ b, t.metadata_[(hasher key + T) % 2 ^ t.log_capacity_]? = some b ∧ is_full b = false) ∧
      ∀ d, d < T → t.metadata_[(hasher key + d) % 2 ^ t.log_capacity_]? ≠ some get_empty) := by
  obtain ⟨D, hD, hemp, hpath⟩ := first_empty_offset ha.len_md (hasher key) hex
  have hpass := pass_of ha key D hpath (by
    intro d _ b' kv' hb' hf' hkv'
    exact habs _ _ _ hb' hf' hkv')
  constructor
  · exact ⟨_, find_generic_spec hasher t key D hL hD _ hpass (Or.inl ⟨hemp, rfl⟩), hemp⟩
  · have hbd := first_tombstone_bounds t.metadata_ (2 ^ t.log_capacity_) (hasher key) D 0
    refine ⟨first_tombstone t.metadata_ (2 ^ t.log_capacity_) (hasher key) D 0, by omega,
      find_allow_deleted_generic_absent_spec hasher t key D hL hD hpass hemp, ?_, ?_⟩
    · rcases first_tombstone_spec t.metadata_ (2 ^ t.log_capacity_) (hasher key) D 0 with h1 | h1
      · refine ⟨get_empty, ?_, not_full_empty⟩
        rw [h1]; simpa using hemp
      · exact ⟨get_deleted, h1, not_full_deleted⟩
    · intro d hd
      exact hpath d (by omega)

end

section

variable {K V : Type} [DecidableEq K]

theorem getElem?_set_of_lt {α : Type} {l : List α} {p : Nat} (hp : p < l.length) (a : α)
    (j : Nat) : (l.set p a)[j]? = if p = j then some a else l[j]? := by
  rw [List.getElem?_set]
  simp [hp]

/-- Writing a new entry into the slot that `find_allow_deleted_generic`
returned for an absent key keeps the array invariant. -/
theorem arr_insert {hasher : K → Nat} {L : Nat} {md : List Nat} {data : List (K × V)}
    (ha : Arr hasher L md data) (key : K) (v : V) (T : Nat) (hT : T < 2 ^ L)
    (hpath : ∀ d, d < T → md[(hasher key + d) % 2 ^ L]? ≠ some get_empty)
    (habs : ∀ (i b : Nat) (kv : K × V), md[i]? = some b → is_full b = true →
      data[i]? = some kv → kv.1 ≠ key) :
    Arr hasher L (md.set ((hasher key + T) % 2 ^ L) (get_hash (hasher key % word)))
      (data.set ((hasher key + T) % 2 ^ L) (key, v)) := by
  have hpl : (hasher key + T) % 2 ^ L < 2 ^ L := Nat.mod_lt _ (two_pow_pos' L)
  have hpm : (hasher key + T) % 2 ^ L < md.length := by rw [ha.len_md]; exact hpl
  have hpd : (hasher key + T) % 2 ^ L < data.length := by rw [ha.len_data]; exact hpl
  refine ⟨by simp [ha.len_md], by simp [ha.len_data], ?_, ?_, ?_⟩
  · intro i b kv hb hf hkv
    rw [getElem?_set_of_lt hpm] at hb
    rw [getElem?_set_of_lt hpd] at hkv
    by_cases hi : (hasher key + T) % 2 ^ L = i
    · simp only [hi, if_true, Option.some.injEq] at hb hkv
      rw [← hb, ← hkv]
    · simp only [hi, if_false] at hb hkv
      exact ha.fp i b kv hb hf hkv
  · intro i b kv hb hf hkv
    rw [getElem?_set_of_lt hpm] at hb
    rw [getElem?_set_of_lt hpd] at hkv
    by_cases hi : (hasher key + T) % 2 ^ L = i
    · simp only [hi, if_true, Option.some.injEq] at hb hkv
      subst hkv
      refine ⟨T, hT, hi, ?_⟩
      intro d' hd'
      rw [getElem?_set_of_lt hpm]
      have hne : ¬ (hasher key + T) % 2 ^ L = (hasher key + d') % 2 ^ L := by
        intro hc
        have := pos_inj hT (lt_trans hd' hT) hc
        omega
      simp only [hne, if_false]
      exact hpath d' hd'
    · simp only [hi, if_false] at hb hkv
      obtain ⟨d, hd, hpos, hp⟩ := ha.chain i b kv hb hf hkv
      refine ⟨d, hd, hpos, ?_⟩
      intro d' hd'
      rw [getElem?_set_of_lt hpm]
      by_cases hc : (hasher key + T) % 2 ^ L = (hasher kv.1 + d') % 2 ^ L
      · simp only [hc, if_true]
        intro h0
        have h1 : is_full (get_hash (hasher key % word)) = true := get_hash_full _
        simp only [Option.some.injEq] at h0
        rw [h0] at h1
        exact absurd h1 (by decide)
      · simp only [hc, if_false]
        exact hp d' hd'
  · intro i j b b' kv kv' hb hf hkv hb' hf' hkv' hk
    rw [getElem?_set_of_lt hpm] at hb hb'
    rw [getElem?_set_of_lt hpd] at hkv hkv'
    by_cases hi : (hasher key + T) % 2 ^ L = i <;> by_cases hj : (hasher key + T) % 2 ^ L = j
    · rw [← hi, ← hj]
    · simp only [hi, if_true, Option.some.injEq] at hkv
      simp only [hj, if_false] at hb' hkv'
      exfalso
      apply habs j b' kv' hb' hf' hkv'
      rw [← hk, ← hkv]
    · simp only [hj, if_true, Option.some.injEq] at hkv'
      simp only [hi, if_false] at hb hkv
      exfalso
      apply habs i b kv hb hf hkv
      rw [hk, ← hkv']
    · simp only [hi, if_false] at hb hkv
      simp only [hj, if_false] at hb' hkv'
      exact ha.uniq i j b b' kv kv' hb hf hkv hb' hf' hkv' hk

/-- Writing a tombstone keeps the array invariant. -/
theorem arr_erase {hasher : K → Nat} {L : Nat} {md : List Nat} {data : List (K × V)}
    (ha : Arr hasher L md data) (p : Nat) (hp : p < 2 ^ L) :
    Arr hasher L (md.set p get_deleted) data := by
  have hpm : p < md.length := by rw [ha.len_md]; exact hp
  refine ⟨by simp [ha.len_md], ha.len_data, ?_, ?_, ?_⟩
  · intro i b kv hb hf hkv
    rw [getElem?_set_of_lt hpm] at hb
    by_cases hi : p = i
    · simp only [hi, if_true, Option.some.injEq] at hb
      rw [← hb] at hf
      exact absurd hf (by decide)
    · simp only [hi, if_false] at hb
      exact ha.fp i b kv hb hf hkv
  · intro i b kv hb hf hkv
    rw [getElem?_set_of_lt hpm] at hb
    by_cases hi : p = i
    · simp only [hi, if_true, Option.some.injEq] at hb
      rw [← hb] at hf
      exact absurd hf (by decide)
    · simp only [hi, if_false] at hb
      obtain ⟨d, hd, hpos, hpath⟩ := ha.chain i b kv hb hf hkv
      refine ⟨d, hd, hpos, ?_⟩
      intro d' hd'
      rw [getElem?_set_of_lt hpm]
      by_cases hc : p = (hasher kv.1 + d') % 2 ^ L
      · simp only [hc, if_true]
        decide
      · simp only [hc, if_false]
        exact hpath d' hd'
  · intro i j b b' kv kv' hb hf hkv hb' hf' hkv' hk
    rw [getElem?_set_of_lt hpm] at hb hb'
    by_cases hi : p = i
    · simp only [hi, if_true, Option.some.injEq] at hb
      rw [← hb] at hf
      exact absurd hf (by decide)
    · by_cases hj : p = j
      · simp only [hj, if_true, Option.some.injEq] at hb'
        rw [← hb'] at hf'
        exact absurd hf' (by decide)
      · simp only [hi, if_false] at hb
        simp only [hj, if_false] at hb'
        exact ha.uniq i j b b' kv kv' hb hf hkv hb' hf' hkv' hk

/-- Replacing the value of a slot, the key kept, keeps the array invariant. -/
theorem arr_assign {hasher : K → Nat} {L : Nat} {md : List Nat} {data : List (K × V)}
    (ha : Arr hasher L md data) (p : Nat) {kv0 : K × V} (hkv0 : data[p]? = some kv0) (v : V) :
    Arr hasher L md (data.set p (kv0.1, v)) := by
  have hpd : p < data.length := lt_of_getElem?_some hkv0
  have key : ∀ (i : Nat) (kv : K × V), (data.set p (kv0.1, v))[i]? = some kv →
      ∃ kv1 : K × V, data[i]? = some kv1 ∧ kv1.1 = kv.1 := by
    intro i kv h
    rw [getElem?_set_of_lt hpd] at h
    by_cases hi : p = i
    · simp only [hi, if_true, Option.some.injEq] at h
      subst hi
      exact ⟨kv0, hkv0, by rw [← h]⟩
    · simp only [hi, if_false] at h
      exact ⟨kv, h, rfl⟩
  refine ⟨ha.len_md, by simp [ha.len_data], ?_, ?_, ?_⟩
  · intro i b kv hb hf hkv
    obtain ⟨kv1, h1, h2⟩ := key i kv hkv
    rw [← h2]
    exact ha.fp i b kv1 hb hf h1
  · intro i b kv hb hf hkv
    obtain ⟨kv1, h1, h2⟩ := key i kv hkv
    rw [← h2]
    exact ha.chain i b kv1 hb hf h1
  · intro i j b b' kv kv' hb hf hkv hb' hf' hkv' hk
    obtain ⟨kv1, h1, h2⟩ := key i kv hkv
    obtain ⟨kv1', h1', h2'⟩ := key j kv' hkv'
    exact ha.uniq i j b b' kv1 kv1' hb hf h1 hb' hf' h1' (by rw [h2, h2', hk])

/-! ## Counting -/

theorem countP_set_full {md : List Nat} {p b : Nat} (hb : md[p]? = some b)
    (hnf : is_full b = false) (x : Nat) (hx : is_full x = true) :
    (md.set p x).countP is_full = md.countP is_full + 1 := by
  have hp : p < md.length := lt_of_getElem?_some hb
  have hbe : md[p] = b := by
    rw [List.getElem?_eq_getElem hp] at hb; exact Option.some.inj hb
  rw [List.countP_set _ _ _ _ hp, hbe, hnf, hx]
  simp

theorem countP_set_used_le {md : List Nat} {p : Nat} (hp : p < md.length) (x : Nat) :
    (md.set p x).countP is_used ≤ md.countP is_used + 1 := by
  rw [List.countP_set _ _ _ _ hp]
  split <;> split <;> omega

theorem countP_erase_full {md : List Nat} {p b : Nat} (hb : md[p]? = some b)
    (hf : is_full b = true) :
    (md.set p get_deleted).countP is_full + 1 = md.countP is_full := by
  have hp : p < md.length := lt_of_getElem?_some hb
  have hbe : md[p] = b := by
    rw [List.getElem?_eq_getElem hp] at hb; exact Option.some.inj hb
  have hpos : 0 < md.countP is_full :=
    List.countP_pos_iff.mpr ⟨b, List.mem_iff_getElem?.mpr ⟨p, hb⟩, hf⟩
  rw [List.countP_set _ _ _ _ hp, hbe, hf, not_full_deleted]
  simp
  omega

theorem countP_erase_used {md : List Nat} {p b : Nat} (hb : md[p]? = some b)
    (hf : is_full b = true) :
    (md.set p get_deleted).countP is_used = md.countP is_used := by
  have hp : p < md.length := lt_of_getElem?_some hb
  have hbe : md[p] = b := by
    rw [List.getElem?_eq_getElem hp] at hb; exact Option.some.inj hb
  have hpos : 0 < md.countP is_used :=
    List.countP_pos_iff.mpr ⟨b, List.mem_iff_getElem?.mpr ⟨p, hb⟩, is_full_used hf⟩
  rw [List.countP_set _ _ _ _ hp, hbe, is_full_used hf, used_deleted]
  simp
  omega

theorem countP_full_le_used (md : List Nat) : md.countP is_full ≤ md.countP is_used := by
  induction md with
  | nil => simp
  | cons a l ih =>
    simp only [List.countP_cons]
    by_cases h : is_full a = true
    · simp [h, is_full_used h]; exact ih
    · simp [h]; split <;> omega

/-! ## The entries of a table -/

theorem mem_entries_iff (t : HashMap K V) (kv : K × V) :
    kv ∈ t.entries ↔ ∃ (i b : Nat), t.metadata_[i]? = some b ∧ is_full b = true ∧
      t.data_[i]? = some kv := by
  simp only [HashMap.entries, List.mem_map, List.mem_filter]
  constructor
  · rintro ⟨⟨b, kv'⟩, ⟨hmem, hf⟩, rfl⟩
    obtain ⟨i, hi⟩ := List.mem_iff_getElem?.mp hmem
    rw [List.getElem?_zip_eq_some] at hi
    exact ⟨i, b, hi.1, hf, hi.2⟩
  · rintro ⟨i, b, hb, hf, hkv⟩
    refine ⟨(b, kv), ⟨List.mem_iff_getElem?.mpr ⟨i, ?_⟩, hf⟩, rfl⟩
    rw [List.getElem?_zip_eq_some]
    exact ⟨hb, hkv⟩

theorem contains_iff (t : HashMap K V) (k : K) :
    t.contains k ↔ ∃ (i b : Nat) (kv : K × V), t.metadata_[i]? = some b ∧ is_full b = true ∧
      t.data_[i]? = some kv ∧ kv.1 = k := by
  simp only [HashMap.contains, List.mem_map]
  constructor
  · rintro ⟨kv, hmem, rfl⟩
    obtain ⟨i, b, h1, h2, h3⟩ := (mem_entries_iff t kv).mp hmem
    exact ⟨i, b, kv, h1, h2, h3, rfl⟩
  · rintro ⟨i, b, kv, h1, h2, h3, rfl⟩
    exact ⟨kv, (mem_entries_iff t kv).mpr ⟨i, b, h1, h2, h3⟩, rfl⟩

theorem filter_zip_length (md : List Nat) : ∀ (data : List (K × V)), md.length ≤ data.length →
    ((md.zip data).filter (fun s => is_full s.1)).length = md.countP is_full := by
  induction md with
  | nil => intro data _; simp
  | cons a l ih =>
    intro data hlen
    cases data with
    | nil => simp at hlen
    | cons x xs =>
      simp only [List.zip_cons_cons, List.filter_cons, List.countP_cons]
      have := ih xs (by simpa using hlen)
      by_cases h : is_full a = true
      · simp [h, this]
      · simp [h, this]

theorem entries_length (t : HashMap K V) (h : t.metadata_.length ≤ t.data_.length) :
    t.entries.length = t.metadata_.countP is_full := by
  simp only [HashMap.entries, List.length_map]
  exact filter_zip_length _ _ h

end

section

variable {K V : Type} [DecidableEq K] [DecidableEq V] [Inhabited K] [Inhabited V]

/-- The payloads of the fingerprint slots from slot `c` on. -/
theorem entries_from_step (md : List Nat) (data : List (K × V)) (c b : Nat) (kv : K × V)
    (hb : md[c]? = some b) (hkv : data[c]? = some kv) :
    (((md.zip data).drop c).filter (fun s => is_full s.1)).map Prod.snd
      = if is_full b = true then
          kv :: (((md.zip data).drop (c + 1)).filter (fun s => is_full s.1)).map Prod.snd
        else (((md.zip data).drop (c + 1)).filter (fun s => is_full s.1)).map Prod.snd := by
  have hz : (md.zip data)[c]? = some (b, kv) := by
    rw [List.getElem?_zip_eq_some]; exact ⟨hb, hkv⟩
  have hlt : c < (md.zip data).length := lt_of_getElem?_some hz
  have hze : (md.zip data)[c] = (b, kv) := by
    rw [List.getElem?_eq_getElem hlt] at hz; exact Option.some.inj hz
  rw [List.drop_eq_getElem_cons hlt, hze, List.filter_cons]
  by_cases h : is_full b = true
  · simp [h]
  · simp [h]

theorem entries_from_skip (md : List Nat) (data : List (K × V)) :
    ∀ k c, c + k ≤ data.length →
      (∀ i, c ≤ i → i < c + k → ∃ b, md[i]? = some b ∧ is_full b = false) →
      (((md.zip data).drop c).filter (fun s => is_full s.1)).map Prod.snd
        = (((md.zip data).drop (c + k)).filter (fun s => is_full s.1)).map Prod.snd := by
  intro k
  induction k with
  | zero => intro c _ _; rfl
  | succ k ih =>
    intro c hc hall
    obtain ⟨b, hb, hnf⟩ := hall c (by omega) (by omega)
    obtain ⟨kv, hkv⟩ := getElem?_some_of_lt (l := data) (i := c) (by omega)
    rw [entries_from_step md data c b kv hb hkv, hnf]
    simp only [Bool.false_eq_true, if_false]
    rw [ih (c + 1) (by omega) (fun i h1 h2 => hall i (by omega) (by omega))]
    congr 3
    omega

theorem entries_from_end (md : List Nat) (data : List (K × V)) (c : Nat)
    (hc : md.length ≤ c) :
    (((md.zip data).drop c).filter (fun s => is_full s.1)).map Prod.snd = [] := by
  rw [List.drop_eq_nil_of_le]
  · rfl
  · rw [List.length_zip]; omega

theorem riderAt_cursor (r : Rider) (L c : Nat) (hL : L ≤ 64) (hm : r.hash_mask_ = 2 ^ L - 1)
    (hc : r.current_hash_ = c) :
    RiderAt r.metadata_ (2 ^ L) r.initial_hash_ ((c + 1) % 2 ^ L) r := by
  refine ⟨rfl, hm, rfl, ?_⟩
  rw [hm, hc]
  exact word_mask_mod _ _ hL

theorem operator_ne_end (l e : IteratorBase (K × V)) (hl : l.is_end_ = false)
    (he : e.is_end_ = true) : l.operator_ne e = true := by
  simp [IteratorBase.operator_ne, IteratorBase.operator_eq, hl, he]

theorem operator_ne_end_end (l e : IteratorBase (K × V)) (hl : l.is_end_ = true)
    (he : e.is_end_ = true) : l.operator_ne e = false := by
  simp [IteratorBase.operator_ne, IteratorBase.operator_eq, hl, he]

/-- The first fingerprint slot on the cyclic walk from slot `s`, when there is one. -/
theorem first_full_offset {md : List Nat} {L : Nat} (hlen : md.length = 2 ^ L) (s : Nat)
    (hex : ∃ (i b : Nat), md[i]? = some b ∧ is_full b = true) :
    ∃ D, D < 2 ^ L ∧ (∃ b, md[(s + D) % 2 ^ L]? = some b ∧ is_full b = true) ∧
      ∀ d, d < D → ∃ b, md[(s + d) % 2 ^ L]? = some b ∧ is_full b = false := by
  obtain ⟨i, b, hi, hf⟩ := hex
  have hil : i < 2 ^ L := hlen ▸ lt_of_getElem?_some hi
  obtain ⟨d0, hd0, hp0⟩ := pos_surj s hil
  have hex' : ∃ d, d < 2 ^ L ∧ ∃ b, md[(s + d) % 2 ^ L]? = some b ∧ is_full b = true :=
    ⟨d0, hd0, b, by rw [hp0]; exact hi, hf⟩
  refine ⟨Nat.find hex', (Nat.find_spec hex').1, (Nat.find_spec hex').2, ?_⟩
  intro d hd
  have hlt : (s + d) % 2 ^ L < md.length := by rw [hlen]; exact Nat.mod_lt _ (two_pow_pos' L)
  obtain ⟨b', hb'⟩ := getElem?_some_of_lt hlt
  refine ⟨b', hb', ?_⟩
  by_contra hc
  exact Nat.find_min hex' hd ⟨lt_trans hd (Nat.find_spec hex').1, b', hb', by simpa using hc⟩

/-- The loop over an iterator range that ends with `end()` inserts the
payloads of the fingerprint slots from the iterator's slot on. -/
theorem copy_loop_from (ins : HashMap K V → K × V → Option (HashMap K V)) (md : List Nat)
    (data : List (K × V)) (L : Nat) (hL : L ≤ 64) (hmd : md.length = 2 ^ L)
    (hdata : data.length = 2 ^ L) (e : IteratorBase (K × V)) (he : e.is_end_ = true) :
    ∀ m c (l : IteratorBase (K × V)) n t1, 2 ^ L - c = m → c < 2 ^ L →
      l.rider_.metadata_ = md → l.rider_.hash_mask_ = 2 ^ L - 1 → l.rider_.current_hash_ = c →
      l.data_ = data → l.is_end_ = false →
      (∃ b, md[c]? = some b ∧ is_full b = true) → 2 ^ L - c + 1 ≤ n →
      HashMap.copy_loop ins n l e t1
        = HashMap.copy_loop_ptr ins
            ((((md.zip data).drop c).filter (fun s => is_full s.1)).map Prod.snd) t1 := by
  intro m
  induction m using Nat.strong_induction_on with
  | _ m ih =>
    intro c l n t1 hm hc hlmd hlmask hlcur hldata hlend hfull hn
    obtain ⟨b, hb, hf⟩ := hfull
    obtain ⟨kv, hkv⟩ := getElem?_some_of_lt (l := data) (i := c) (by omega)
    obtain ⟨n', rfl⟩ : ∃ n', n = n' + 1 := ⟨n - 1, by omega⟩
    rw [entries_from_step md data c b kv hb hkv, hf]
    simp only [if_true]
    have hderef : l.operator_deref = some kv := by
      simp [IteratorBase.operator_deref, Rider.get_current_hash, hlcur, hldata, hkv]
    simp only [HashMap.copy_loop, operator_ne_end l e hlend he, if_true, hderef,
      HashMap.copy_loop_ptr]
    cases hins : ins t1 kv with
    | none => rfl
    | some t' =>
      simp only []
      -- the pre-increment
      obtain ⟨D, hD, hDfull, hDpass⟩ :=
        first_full_offset hmd (c + 1) ⟨c, b, hb, hf⟩
      have hr : RiderAt md (2 ^ L) l.rider_.initial_hash_ ((c + 1 + 0) % 2 ^ L) l.rider_ := by
        have := riderAt_cursor l.rider_ L c hL hlmask hlcur
        rw [hlmd] at this
        simpa using this
      obtain ⟨r', hnext, hr'cur, hr'md, hr'mask⟩ :=
        next_loop_full_spec md L (c + 1) l.rider_.initial_hash_ D hL hDpass hDfull D 0
          (2 ^ L) l.rider_ (by omega) (by omega) (by omega) hr
      have hnext' : l.rider_.next mode_full = some (r', ((c + 1 + D) % 2 ^ L, mode_full)) := by
        rw [Rider.next, hlmask]
        have : 2 ^ L - 1 + 1 = 2 ^ L := by have := two_pow_pos' L; omega
        rw [this]; exact hnext
      by_cases hwrap : c + 1 + D < 2 ^ L
      · -- the next fingerprint slot is further up
        have hj : (c + 1 + D) % 2 ^ L = c + 1 + D := Nat.mod_eq_of_lt hwrap
        have hinc : l.operator_pre_inc = some { l with rider_ := r' } := by
          simp only [IteratorBase.operator_pre_inc, hnext', Rider.get_current_hash, hr'cur, hj,
            hlcur]
          rw [if_neg (by omega)]
        rw [hinc]
        simp only []
        rw [ih (2 ^ L - (c + 1 + D)) (by omega) (c + 1 + D) { l with rider_ := r' } n' t' rfl
          hwrap hr'md hr'mask (by rw [hr'cur, hj]) hldata hlend (by rw [← hj]; exact hDfull)
          (by omega)]
        congr 1
        rw [Nat.add_assoc c 1 D, Nat.add_comm 1 D, ← Nat.add_assoc]
        rw [entries_from_skip md data D (c + 1) (by omega)]
        · congr 3; omega
        · intro i h1 h2
          have := hDpass (i - (c + 1)) (by omega)
          have e2 : c + 1 + (i - (c + 1)) = i := by omega
          rw [e2, Nat.mod_eq_of_lt (by omega)] at this
          exact this
      · -- the walk wraps: the iterator becomes the end iterator
        have hj : (c + 1 + D) % 2 ^ L = c + 1 + D - 2 ^ L := by
          have e2 : c + 1 + D = (c + 1 + D - 2 ^ L) + 2 ^ L := by omega
          rw [e2, Nat.add_mod_right, Nat.mod_eq_of_lt (by omega)]
          omega
        have hinc : l.operator_pre_inc = some { l with rider_ := r', is_end_ := true } := by
          simp only [IteratorBase.operator_pre_inc, hnext', Rider.get_current_hash, hr'cur, hj,
            hlcur]
          rw [if_pos (by omega)]
        rw [hinc]
        simp only []
        obtain ⟨n'', rfl⟩ : ∃ n'', n' = n'' + 1 := ⟨n' - 1, by omega⟩
        have hne : IteratorBase.operator_ne { l with rider_ := r', is_end_ := true } e = false :=
          operator_ne_end_end _ e rfl he
        simp only [HashMap.copy_loop, hne]
        have hnil : (((md.zip data).drop (c + 1)).filter (fun s => is_full s.1)).map Prod.snd
            = [] := by
          rw [entries_from_skip md data (2 ^ L - (c + 1)) (c + 1) (by omega)]
          · exact entries_from_end md data _ (by omega)
          · intro i h1 h2
            have := hDpass (i - (c + 1)) (by omega)
            have e2 : c + 1 + (i - (c + 1)) = i := by omega
            rw [e2, Nat.mod_eq_of_lt (by omega)] at this
            exact this
        rw [hnil]
        simp [HashMap.copy_loop_ptr]

end

section

variable {K V : Type} [DecidableEq K] [DecidableEq V] [Inhabited K] [Inhabited V]

theorem end_eq (t : HashMap K V) (hL : t.log_capacity_ ≤ 30) :
    t.end = some { rider_ := Rider.new t.metadata_ 0 (2 ^ t.log_capacity_ - 1), data_ := t.data_,
                   is_end_ := true } := by
  simp [HashMap.end, shl_int_eq hL, IteratorBase.new]

theorem exists_full_of_countP_pos {md : List Nat} (h : 0 < md.countP is_full) :
    ∃ (i b : Nat), md[i]? = some b ∧ is_full b = true := by
  obtain ⟨b, hb, hf⟩ := List.countP_pos_iff.mp h
  obtain ⟨i, hi⟩ := List.mem_iff_getElem?.mp hb
  exact ⟨i, b, hi, hf⟩

/-- The iterator `begin()` of a non-empty table stands on the first fingerprint slot. -/
theorem begin_nonempty (t : HashMap K V) (hL : t.log_capacity_ ≤ 30)
    (hmd : t.metadata_.length = 2 ^ t.log_capacity_)
    (hsz : t.size_ = t.metadata_.countP is_full) (hne : t.size_ ≠ 0) :
    ∃ (b : IteratorBase (K × V)) (c : Nat), t.begin = some b ∧ c < 2 ^ t.log_capacity_ ∧
      b.rider_.metadata_ = t.metadata_ ∧ b.rider_.hash_mask_ = 2 ^ t.log_capacity_ - 1 ∧
      b.rider_.current_hash_ = c ∧ b.data_ = t.data_ ∧ b.is_end_ = false ∧
      (∃ x, t.metadata_[c]? = some x ∧ is_full x = true) ∧
      ∀ i, i < c → ∃ x, t.metadata_[i]? = some x ∧ is_full x = false := by
  obtain ⟨D, hD, hDfull, hDpass⟩ :=
    first_full_offset hmd 0 (exists_full_of_countP_pos (by omega))
  have hr := riderAt_new t.metadata_ 0 t.log_capacity_ (by omega)
  simp only [Nat.zero_mod] at hr
  have hr0 : RiderAt t.metadata_ (2 ^ t.log_capacity_) (get_hash 0) ((0 + 0) % 2 ^ t.log_capacity_)
      (Rider.new t.metadata_ 0 (2 ^ t.log_capacity_ - 1)) := by simpa using hr
  obtain ⟨r', hnext, hr'cur, hr'md, hr'mask⟩ :=
    next_loop_full_spec t.metadata_ t.log_capacity_ 0 (get_hash 0) D (by omega) hDpass hDfull D 0
      (2 ^ t.log_capacity_) _ (by omega) (by omega) (by omega) hr0
  have hDm : (0 + D) % 2 ^ t.log_capacity_ = D := by
    rw [Nat.zero_add, Nat.mod_eq_of_lt hD]
  have hpos := two_pow_pos' t.log_capacity_
  refine ⟨{ rider_ := r', data_ := t.data_, is_end_ := false }, D, ?_, hD, hr'md, hr'mask,
    by rw [hr'cur, hDm], rfl, rfl, by rw [← hDm]; exact hDfull, ?_⟩
  · have hemp : t.empty = false := by simp [HashMap.empty, hne]
    simp only [HashMap.begin, hemp, shl_int_eq hL, IteratorBase.new, Rider.next]
    have hm : (Rider.new t.metadata_ 0 (2 ^ t.log_capacity_ - 1)).hash_mask_ + 1
        = 2 ^ t.log_capacity_ := by
      simp only [Rider.new]; omega
    rw [hm, hnext]
    simp
  · intro i hi
    have := hDpass i hi
    rw [Nat.zero_add, Nat.mod_eq_of_lt (by omega)] at this
    exact this

/-- Copying the range `[begin(), end())` of a table inserts its entries in slot order. -/
theorem copy_range_eq (ins : HashMap K V → K × V → Option (HashMap K V)) (t : HashMap K V)
    (hL : t.log_capacity_ ≤ 30) (hmd : t.metadata_.length = 2 ^ t.log_capacity_)
    (hdata : t.data_.length = 2 ^ t.log_capacity_)
    (hsz : t.size_ = t.metadata_.countP is_full) :
    ∃ b e, t.begin = some b ∧ t.end = some e ∧ e.is_end_ = true ∧
      b.rider_.hash_mask_ = 2 ^ t.log_capacity_ - 1 ∧
      ∀ t1, HashMap.copy_loop ins (2 ^ t.log_capacity_ + 1) b e t1
        = HashMap.copy_loop_ptr ins t.entries t1 := by
  by_cases hne : t.size_ = 0
  · refine ⟨{ rider_ := Rider.new t.metadata_ 0 (2 ^ t.log_capacity_ - 1), data_ := t.data_,
                is_end_ := true }, _, ?_, end_eq t hL, rfl, rfl, ?_⟩
    · have hemp : t.empty = true := by simp [HashMap.empty, hne]
      simp only [HashMap.begin, hemp, if_true]
      exact end_eq t hL
    · intro t1
      have hnil : t.entries = [] := by
        apply List.eq_nil_of_length_eq_zero
        rw [entries_length t (by omega), ← hsz, hne]
      rw [hnil]
      simp [HashMap.copy_loop, HashMap.copy_loop_ptr, IteratorBase.operator_ne,
        IteratorBase.operator_eq]
  · obtain ⟨b, c, hb, hc, hbmd, hbmask, hbcur, hbdata, hbend, hcfull, hcpass⟩ :=
      begin_nonempty t hL hmd hsz hne
    refine ⟨b, _, hb, end_eq t hL, rfl, hbmask, ?_⟩
    intro t1
    rw [copy_loop_from ins t.metadata_ t.data_ t.log_capacity_ (by omega) hmd hdata _ rfl
      (2 ^ t.log_capacity_ - c) c b _ t1 rfl hc hbmd hbmask hbcur hbdata hbend hcfull (by omega)]
    congr 1
    have := entries_from_skip t.metadata_ t.data_ c 0 (by omega)
      (fun i _ h2 => hcpass i (by omega))
    simp only [Nat.zero_add, List.drop_zero] at this
    rw [HashMap.entries, this]

theorem alloc_eq (t : HashMap K V) (L : Nat) (hL : L ≤ 30) :
    HashMap.copy_from_iterators_alloc t L = some (HashMap.fresh K V L) := by
  simp [HashMap.copy_from_iterators_alloc, shl_int_eq hL, HashMap.full_clear, HashMap.fresh]

/-- `resize` builds the new arrays by inserting the entries of the table, in
slot order, into an empty table of the new capacity; `full_` is kept. -/
theorem resize_with_eq (ins : HashMap K V → K × V → Option (HashMap K V)) (t : HashMap K V)
    (hL : t.log_capacity_ ≤ 30) (hmd : t.metadata_.length = 2 ^ t.log_capacity_)
    (hdata : t.data_.length = 2 ^ t.log_capacity_)
    (hsz : t.size_ = t.metadata_.countP is_full) (newL : Nat) (hnew : newL ≤ 30) :
    HashMap.resize_with ins t newL
      = (HashMap.copy_loop_ptr ins t.entries (HashMap.fresh K V newL)).map
          (fun N => { t with size_ := N.size_, log_capacity_ := N.log_capacity_,
                             metadata_ := N.metadata_, data_ := N.data_ }) := by
  obtain ⟨b, e, hb, he, _, hmask, hloop⟩ := copy_range_eq ins t hL hmd hdata hsz
  have hpos := two_pow_pos' t.log_capacity_
  simp only [HashMap.resize_with, hb, he, HashMap.from_range_log,
    HashMap.copy_from_iterators_generic, alloc_eq _ newL hnew, hmask]
  have e1 : 2 ^ t.log_capacity_ - 1 + 2 = 2 ^ t.log_capacity_ + 1 := by omega
  rw [e1, hloop]
  cases HashMap.copy_loop_ptr ins t.entries (HashMap.fresh K V newL) <;> rfl

end

section

variable {K V : Type} [DecidableEq K] [DecidableEq V] [Inhabited K] [Inhabited V]

theorem exists_empty_of_lt {md : List Nat} (hlt : md.countP is_used < md.length) :
    ∃ i : Nat, md[i]? = some get_empty := by
  have hne : ¬ ∀ a ∈ md, is_used a = true :=
    fun hall => (Nat.ne_of_lt hlt) (List.countP_eq_length.mpr hall)
  push_neg at hne
  obtain ⟨a, ha, hu⟩ := hne
  have ha0 : a = get_empty := by
    simp [is_used] at hu; exact hu
  obtain ⟨i, hi⟩ := List.mem_iff_getElem?.mp ha
  exact ⟨i, by rw [hi, ha0]⟩

theorem not_contains_iff (t : HashMap K V) (k : K) :
    ¬ t.contains k ↔ ∀ (i b : Nat) (kv : K × V), t.metadata_[i]? = some b → is_full b = true →
      t.data_[i]? = some kv → kv.1 ≠ k := by
  rw [contains_iff]
  constructor
  · intro h i b kv h1 h2 h3 h4
    exact h ⟨i, b, kv, h1, h2, h3, h4⟩
  · rintro h ⟨i, b, kv, h1, h2, h3, h4⟩
    exact h i b kv h1 h2 h3 h4

/-- `insert` of an absent key: the entry is written into a slot that held no
entry, then `insert_generic` compares `full_` with half the capacity. -/
theorem insert_with_absent (rs : HashMap K V → Nat → Option (HashMap K V)) (hasher : K → Nat)
    (t : HashMap K V) (ha : Arr hasher t.log_capacity_ t.metadata_ t.data_)
    (hL : t.log_capacity_ ≤ 30) (hex : ∃ i : Nat, t.metadata_[i]? = some get_empty)
    (key : K) (v : V) (habs : ¬ t.contains key) :
    ∃ t1 : HashMap K V,
      Arr hasher t.log_capacity_ t1.metadata_ t1.data_ ∧
      t1.log_capacity_ = t.log_capacity_ ∧ t1.size_ = t.size_ + 1 ∧ t1.full_ = t.full_ + 1 ∧
      t1.metadata_.countP is_full = t.metadata_.countP is_full + 1 ∧
      t1.metadata_.countP is_used ≤ t.metadata_.countP is_used + 1 ∧
      (∀ kv, kv ∈ t1.entries ↔ kv = (key, v) ∨ kv ∈ t.entries) ∧
      HashMap.insert_with rs hasher t (key, v)
        = if t.full_ + 1 > 2 ^ t.log_capacity_ / 2 then rs t1 (t.log_capacity_ + 1)
          else some t1 := by
  have habs' := (not_contains_iff t key).mp habs
  obtain ⟨_, T, hT, hfind, ⟨bp, hbp, hnf⟩, hpath⟩ := find_absent ha hL hex key habs'
  have hpl : (hasher key + T) % 2 ^ t.log_capacity_ < 2 ^ t.log_capacity_ :=
    Nat.mod_lt _ (two_pow_pos' _)
  have hpm : (hasher key + T) % 2 ^ t.log_capacity_ < t.metadata_.length := by
    rw [ha.len_md]; exact hpl
  have hpd : (hasher key + T) % 2 ^ t.log_capacity_ < t.data_.length := by
    rw [ha.len_data]; exact hpl
  refine ⟨{ t with
      size_ := t.size_ + 1
      full_ := t.full_ + 1
      metadata_ := t.metadata_.set ((hasher key + T) % 2 ^ t.log_capacity_)
        (get_hash (hasher key % word))
      data_ := t.data_.set ((hasher key + T) % 2 ^ t.log_capacity_) (key, v) },
    arr_insert ha key v T hT hpath habs', rfl, rfl, rfl,
    countP_set_full hbp hnf _ (get_hash_full _), countP_set_used_le hpm _, ?_, ?_⟩
  · intro kv
    rw [mem_entries_iff, mem_entries_iff]
    simp only
    constructor
    · rintro ⟨i, b, hb, hf, hkv⟩
      rw [getElem?_set_of_lt hpm] at hb
      rw [getElem?_set_of_lt hpd] at hkv
      by_cases hi : (hasher key + T) % 2 ^ t.log_capacity_ = i
      · simp only [hi, if_true, Option.some.injEq] at hkv
        left; exact hkv.symm
      · simp only [hi, if_false] at hb hkv
        right; exact ⟨i, b, hb, hf, hkv⟩
    · rintro (rfl | ⟨i, b, hb, hf, hkv⟩)
      · refine ⟨(hasher key + T) % 2 ^ t.log_capacity_, get_hash (hasher key % word), ?_,
          get_hash_full _, ?_⟩
        · rw [getElem?_set_of_lt hpm]; simp
        · rw [getElem?_set_of_lt hpd]; simp
      · have hi : ¬ (hasher key + T) % 2 ^ t.log_capacity_ = i := by
          intro hc
          rw [hc, hb] at hbp
          simp only [Option.some.injEq] at hbp
          rw [hbp, hnf] at hf
          exact absurd hf (by simp)
        refine ⟨i, b, ?_, hf, ?_⟩
        · rw [getElem?_set_of_lt hpm]; simp [hi, hb]
        · rw [getElem?_set_of_lt hpd]; simp [hi, hkv]
  · simp only [HashMap.insert_with, hfind, Bool.not_false, if_true, HashMap.insert_generic, hpm,
      hpd, and_self, shl_ull_eq (show t.log_capacity_ ≤ 63 by omega), Nat.shiftRight_eq_div_pow,
      pow_one]

/-- `insert` of a key that is present changes nothing. -/
theorem insert_with_present (rs : HashMap K V → Nat → Option (HashMap K V)) (hasher : K → Nat)
    (t : HashMap K V) (ha : Arr hasher t.log_capacity_ t.metadata_ t.data_)
    (hL : t.log_capacity_ ≤ 30) (kv : K × V) (hc : t.contains kv.1) :
    HashMap.insert_with rs hasher t kv = some t := by
  obtain ⟨i, b, kv', hb, hf, hkv, hk⟩ := (contains_iff t kv.1).mp hc
  have := (find_present ha hL hb hf hkv).2
  rw [hk] at this
  simp [HashMap.insert_with, this]

theorem fresh_arr (hasher : K → Nat) (L : Nat) :
    Arr hasher L (HashMap.fresh K V L).metadata_ (HashMap.fresh K V L).data_ := by
  have hno : ∀ (i b : Nat), (List.replicate (2 ^ L) get_empty)[i]? = some b →
      is_full b = true → False := by
    intro i b hb hf
    rw [List.getElem?_replicate] at hb
    split at hb
    · simp only [Option.some.injEq] at hb
      rw [← hb] at hf
      exact absurd hf (by decide)
    · exact absurd hb (by simp)
  refine ⟨by simp [HashMap.fresh], by simp [HashMap.fresh], ?_, ?_, ?_⟩
  · intro i b kv hb hf _; exact (hno i b hb hf).elim
  · intro i b kv hb hf _; exact (hno i b hb hf).elim
  · intro i j b b' kv kv' hb hf _ _ _ _ _; exact (hno i b hb hf).elim

theorem fresh_countP_used (L : Nat) :
    (HashMap.fresh K V L).metadata_.countP is_used = 0 := by
  simp only [HashMap.fresh]
  rw [List.countP_eq_zero]
  intro a ha
  rw [List.mem_replicate] at ha
  rw [ha.2]
  decide

theorem fresh_countP_full (L : Nat) :
    (HashMap.fresh K V L).metadata_.countP is_full = 0 := by
  have := countP_full_le_used (HashMap.fresh K V L).metadata_
  rw [fresh_countP_used] at this
  omega

theorem fresh_entries (L : Nat) : (HashMap.fresh K V L).entries = [] := by
  apply List.eq_nil_of_length_eq_zero
  rw [entries_length _ (by simp [HashMap.fresh]), fresh_countP_full]

/-- The loop of the range constructor when the table has room for the whole
range: no insertion resizes, whatever the keys. -/
theorem build_any (rs : HashMap K V → Nat → Option (HashMap K V)) (hasher : K → Nat) :
    ∀ (es : List (K × V)) (t : HashMap K V),
      Arr hasher t.log_capacity_ t.metadata_ t.data_ → t.log_capacity_ ≤ 30 →
      t.size_ = t.metadata_.countP is_full → t.metadata_.countP is_used ≤ t.full_ →
      t.full_ + es.length ≤ 2 ^ t.log_capacity_ / 2 →
      ∃ t', HashMap.copy_loop_ptr (HashMap.insert_with rs hasher) es t = some t' ∧
        Arr hasher t'.log_capacity_ t'.metadata_ t'.data_ ∧
        t'.log_capacity_ = t.log_capacity_ ∧ t'.size_ = t'.metadata_.countP is_full ∧
        t'.metadata_.countP is_used ≤ t'.full_ ∧ t'.full_ ≤ t.full_ + es.length ∧
        (∀ kv, kv ∈ t'.entries → kv ∈ t.entries ∨ kv ∈ es) ∧
        (∀ k, k ∈ es.map Prod.fst → t'.contains k) ∧
        (∀ kv, kv ∈ t.entries → kv ∈ t'.entries) := by
  intro es
  induction es with
  | nil =>
    intro t ha hL hsz hfill _
    exact ⟨t, rfl, ha, rfl, hsz, hfill, by simp, fun kv h => Or.inl h, by simp, fun kv h => h⟩
  | cons e es ih =>
    intro t ha hL hsz hfill hroom
    simp only [List.length_cons] at hroom
    by_cases hc : t.contains e.1
    · rw [HashMap.copy_loop_ptr, insert_with_present rs hasher t ha hL e hc]
      obtain ⟨t', h1, h2, h3, h4, h5, h6, h7, h8, h9⟩ := ih t ha hL hsz hfill (by omega)
      refine ⟨t', h1, h2, h3, h4, h5, by simp only [List.length_cons]; omega, ?_, ?_, h9⟩
      · intro kv hkv
        rcases h7 kv hkv with h | h
        · exact Or.inl h
        · exact Or.inr (List.mem_cons_of_mem _ h)
      · intro k hk
        simp only [List.map_cons, List.mem_cons] at hk
        rcases hk with rfl | hk
        · obtain ⟨kv, hkv, hk1⟩ := List.mem_map.mp hc
          exact List.mem_map.mpr ⟨kv, h9 kv hkv, hk1⟩
        · exact h8 k hk
    · have hex : ∃ i : Nat, t.metadata_[i]? = some get_empty := by
        apply exists_empty_of_lt
        rw [ha.len_md]
        have := Nat.div_le_self (2 ^ t.log_capacity_) 2
        omega
      obtain ⟨t1, ha1, hL1, hs1, hf1, hc1, hu1, hm1, hins⟩ :=
        insert_with_absent rs hasher t ha hL hex e.1 e.2 hc
      rw [HashMap.copy_loop_ptr, show e = (e.1, e.2) from rfl, hins, if_neg (by omega)]
      simp only
      rw [← hL1] at ha1
      obtain ⟨t', h1, h2, h3, h4, h5, h6, h7, h8, h9⟩ :=
        ih t1 ha1 (by omega) (by omega) (by omega) (by rw [hL1, hf1]; omega)
      refine ⟨t', h1, h2, by rw [h3, hL1], h4, h5, by simp only [List.length_cons]; omega,
        ?_, ?_, ?_⟩
      · intro kv hkv
        rcases h7 kv hkv with h | h
        · rcases (hm1 kv).mp h with h | h
          · right; rw [h]; exact List.mem_cons_self _ _
          · left; exact h
        · exact Or.inr (List.mem_cons_of_mem _ h)
      · intro k hk
        simp only [List.map_cons, List.mem_cons] at hk
        rcases hk with rfl | hk
        · exact List.mem_map.mpr ⟨(e.1, e.2), h9 _ ((hm1 _).mpr (Or.inl rfl)), rfl⟩
        · exact h8 k hk
      · intro kv hkv
        exact h9 kv ((hm1 kv).mpr (Or.inr hkv))

/-- The loop of the range constructor on a range of distinct keys that the
table does not contain yet, when the table has room for the range. -/
theorem build_distinct (rs : HashMap K V → Nat → Option (HashMap K V)) (hasher : K → Nat) :
    ∀ (es : List (K × V)) (t : HashMap K V),
      Arr hasher t.log_capacity_ t.metadata_ t.data_ → t.log_capacity_ ≤ 30 →
      t.size_ = t.metadata_.countP is_full → t.metadata_.countP is_used ≤ t.full_ →
      t.full_ + es.length ≤ 2 ^ t.log_capacity_ / 2 →
      es.Pairwise (fun a b => a.1 ≠ b.1) → (∀ kv, kv ∈ es → ¬ t.contains kv.1) →
      ∃ t', HashMap.copy_loop_ptr (HashMap.insert_with rs hasher) es t = some t' ∧
        Arr hasher t'.log_capacity_ t'.metadata_ t'.data_ ∧
        t'.log_capacity_ = t.log_capacity_ ∧ t'.size_ = t'.metadata_.countP is_full ∧
        t'.metadata_.countP is_used ≤ t.metadata_.countP is_used + es.length ∧
        t'.full_ = t.full_ + es.length ∧ t'.size_ = t.size_ + es.length ∧
        (∀ kv, kv ∈ t'.entries ↔ kv ∈ t.entries ∨ kv ∈ es) := by
  intro es
  induction es with
  | nil =>
    intro t ha hL hsz hfill _ _ _
    exact ⟨t, rfl, ha, rfl, hsz, by simp, by simp, by simp, by simp⟩
  | cons e es ih =>
    intro t ha hL hsz hfill hroom hpw habs
    simp only [List.length_cons] at hroom
    have hc : ¬ t.contains e.1 := habs e (List.mem_cons_self _ _)
    have hex : ∃ i : Nat, t.metadata_[i]? = some get_empty := by
      apply exists_empty_of_lt
      rw [ha.len_md]
      have := Nat.div_le_self (2 ^ t.log_capacity_) 2
      omega
    obtain ⟨t1, ha1, hL1, hs1, hf1, hc1, hu1, hm1, hins⟩ :=
      insert_with_absent rs hasher t ha hL hex e.1 e.2 hc
    rw [HashMap.copy_loop_ptr, show e = (e.1, e.2) from rfl, hins, if_neg (by omega)]
    simp only
    rw [← hL1] at ha1
    rw [List.pairwise_cons] at hpw
    have habs1 : ∀ kv, kv ∈ es → ¬ t1.contains kv.1 := by
      intro kv hkv hcon
      obtain ⟨kv', hkv', hk⟩ := List.mem_map.mp hcon
      rcases (hm1 kv').mp hkv' with h | h
      · apply hpw.1 kv hkv
        rw [← hk, h]
      · exact habs kv (List.mem_cons_of_mem _ hkv) (List.mem_map.mpr ⟨kv', h, hk⟩)
    obtain ⟨t', h1, h2, h3, h4, h5, h6, h7, h8⟩ :=
      ih t1 ha1 (by omega) (by omega) (by omega) (by rw [hL1, hf1]; omega) hpw.2 habs1
    refine ⟨t', h1, h2, by rw [h3, hL1], h4, by simp only [List.length_cons]; omega,
      by simp only [List.length_cons]; omega, by simp only [List.length_cons]; omega, ?_⟩
    intro kv
    rw [h8 kv, hm1 kv, List.mem_cons]
    constructor
    · rintro ((h | h) | h)
      · right; left; exact h
      · left; exact h
      · right; right; exact h
    · rintro (h | h | h)
      · left; right; exact h
      · left; left; exact h
      · right; exact h

end

section

variable {K V : Type} [DecidableEq K] [DecidableEq V] [Inhabited K] [Inhabited V]

/-- The entries of a table have pairwise different keys. -/
theorem entries_pairwise {hasher : K → Nat} {t : HashMap K V}
    (ha : Arr hasher t.log_capacity_ t.metadata_ t.data_) :
    t.entries.Pairwise (fun a b => a.1 ≠ b.1) := by
  rw [HashMap.entries, List.pairwise_map]
  have hz : (t.metadata_.zip t.data_).Pairwise
      (fun a b => is_full a.1 = true → is_full b.1 = true → a.2.1 ≠ b.2.1) := by
    rw [List.pairwise_iff_getElem]
    intro i j hi hj hij hfi hfj hk
    have h1 : (t.metadata_.zip t.data_)[i]? = some (t.metadata_.zip t.data_)[i] :=
      List.getElem?_eq_getElem hi
    have h2 : (t.metadata_.zip t.data_)[j]? = some (t.metadata_.zip t.data_)[j] :=
      List.getElem?_eq_getElem hj
    rw [List.getElem?_zip_eq_some] at h1 h2
    have := ha.uniq i j _ _ _ _ h1.1 hfi h1.2 h2.1 hfj h2.2 hk
    omega
  refine List.Pairwise.imp_of_mem ?_ (List.Pairwise.filter _ hz)
  intro a b hma hmb hab
  exact hab (List.mem_filter.mp hma).2 (List.mem_filter.mp hmb).2


/-- `resize` to a capacity that has room for the entries: the new arrays hold
the same entries and no tombstone; `full_` keeps its value. -/
theorem resize_ok (hasher : K → Nat) (f : Nat) (t : HashMap K V)
    (ha : Arr hasher t.log_capacity_ t.metadata_ t.data_) (hL : t.log_capacity_ ≤ 30)
    (hsz : t.size_ = t.metadata_.countP is_full) (newL : Nat) (hnew : newL ≤ 30)
    (hroom : t.metadata_.countP is_full ≤ 2 ^ newL / 2) :
    ∃ t', HashMap.resize hasher (f + 1) t newL = some t' ∧
      Arr hasher newL t'.metadata_ t'.data_ ∧ t'.log_capacity_ = newL ∧
      t'.full_ = t.full_ ∧ t'.size_ = t.size_ ∧ t'.size_ = t'.metadata_.countP is_full ∧
      t'.metadata_.countP is_used ≤ t.size_ ∧ (∀ kv, kv ∈ t'.entries ↔ kv ∈ t.entries) := by
  have hlen : t.entries.length = t.metadata_.countP is_full :=
    entries_length t (by rw [ha.len_md, ha.len_data])
  obtain ⟨N, h1, h2, h3, h4, h5, h6, h7, h8⟩ :=
    build_distinct (HashMap.resize hasher f) hasher t.entries (HashMap.fresh K V newL)
      (fresh_arr hasher newL) hnew (by rw [fresh_countP_full]; rfl)
      (by rw [fresh_countP_used]; exact Nat.zero_le _)
      (by simp only [HashMap.fresh] at *; omega) (entries_pairwise ha)
      (by intro kv _ hc
          simp only [HashMap.contains, fresh_entries, List.map_nil] at hc
          exact absurd hc (List.not_mem_nil _))
  have h3' : N.log_capacity_ = newL := h3
  refine ⟨{ t with size_ := N.size_, log_capacity_ := N.log_capacity_, metadata_ := N.metadata_,
                   data_ := N.data_ }, ?_, by rw [← h3']; exact h2, h3, rfl, ?_, h4, ?_, ?_⟩
  · rw [HashMap.resize, resize_with_eq _ t hL ha.len_md ha.len_data hsz newL hnew, h1]
    rfl
  · show N.size_ = t.size_
    rw [h7, hsz, hlen]; simp [HashMap.fresh]
  · show N.metadata_.countP is_used ≤ t.size_
    rw [fresh_countP_used] at h5
    omega
  · intro kv
    have : kv ∈ N.entries ↔ kv ∈ t.entries := by
      rw [h8 kv, fresh_entries]; simp
    exact this

/-- A `resize` that returns was asked for a capacity that `int` can hold. -/
theorem resize_some_le (hasher : K → Nat) (f : Nat) (t t' : HashMap K V) (newL : Nat)
    (h : HashMap.resize hasher f t newL = some t') : newL ≤ 30 := by
  by_contra hc
  have hsh : shl_int newL = none := by simp [shl_int]; omega
  cases f with
  | zero => simp [HashMap.resize] at h
  | succ f =>
    simp only [HashMap.resize, HashMap.resize_with, HashMap.from_range_log,
      HashMap.copy_from_iterators_generic, HashMap.copy_from_iterators_alloc, hsh] at h
    split at h <;> simp at h

theorem half_le (n : Nat) : 2 * (n / 2) ≤ n := by omega

/-- `insert` of an absent key, under the invariant. -/
theorem insert_absent_spec (hasher : K → Nat) (fuel : Nat) (t : HashMap K V)
    (hinv : t.Inv hasher) (key : K) (v : V) (habs : ¬ t.contains key) :
    (∀ t', HashMap.insert hasher fuel t (key, v) = some t' →
      t'.Inv hasher ∧ (∀ kv, kv ∈ t'.entries ↔ kv = (key, v) ∨ kv ∈ t.entries) ∧
      t'.size_ = t.size_ + 1 ∧ t'.full_ = t.full_ + 1 ∧ t.log_capacity_ ≤ t'.log_capacity_ ∧
      t'.log_capacity_ ≤ t.log_capacity_ + 1) ∧
    (0 < fuel → (t.log_capacity_ < 30 ∨ t.full_ + 1 ≤ 2 ^ t.log_capacity_ / 2) →
      ∃ t', HashMap.insert hasher fuel t (key, v) = some t') := by
  obtain ⟨ha, hL, hsz, hfill, hload⟩ := hinv
  have hex := exists_empty_slot ha.len_md hload
  obtain ⟨t1, ha1, hL1, hs1, hf1, hc1, hu1, hm1, hins⟩ :=
    insert_with_absent (HashMap.resize hasher fuel) hasher t ha hL hex key v habs
  have hle := List.countP_le_length is_full (l := t1.metadata_)
  rw [ha1.len_md] at hle
  have ha1' : Arr hasher t1.log_capacity_ t1.metadata_ t1.data_ := by rw [hL1]; exact ha1
  -- the two outcomes of the comparison in `insert_generic`
  have grow : ∀ f, t.log_capacity_ + 1 ≤ 30 →
      ∃ t', HashMap.resize hasher (f + 1) t1 (t.log_capacity_ + 1) = some t' ∧
        t'.Inv hasher ∧ (∀ kv, kv ∈ t'.entries ↔ kv = (key, v) ∨ kv ∈ t.entries) ∧
        t'.size_ = t.size_ + 1 ∧ t'.full_ = t.full_ + 1 ∧
        t'.log_capacity_ = t.log_capacity_ + 1 := by
    intro f hnew
    have hroom : t1.metadata_.countP is_full ≤ 2 ^ (t.log_capacity_ + 1) / 2 := by
      rw [Nat.pow_succ, Nat.mul_div_cancel _ (by decide : 0 < 2)]; exact hle
    obtain ⟨t', h1, h2, h3, h4, h5, h6, h7, h8⟩ :=
      resize_ok hasher f t1 ha1' (by omega) (by omega) (t.log_capacity_ + 1) hnew hroom
    refine ⟨t', h1, ⟨by rw [h3]; exact h2, by omega, h6, ?_, ?_⟩, ?_, by omega, by omega, h3⟩
    · have := countP_full_le_used t.metadata_; omega
    · rw [h3, Nat.pow_succ]; omega
    · intro kv; rw [h8 kv, hm1 kv]
  have stay : t.full_ + 1 ≤ 2 ^ t.log_capacity_ / 2 → t1.Inv hasher := by
    intro hroom
    refine ⟨ha1', by omega, by omega, by omega, ?_⟩
    rw [hL1]
    have := half_le (2 ^ t.log_capacity_)
    omega
  constructor
  · intro t' h
    rw [HashMap.insert, hins] at h
    by_cases hg : t.full_ + 1 > 2 ^ t.log_capacity_ / 2
    · rw [if_pos hg] at h
      have hnew := resize_some_le hasher fuel t1 t' _ h
      cases fuel with
      | zero => simp [HashMap.resize] at h
      | succ f =>
        obtain ⟨t'', h1, h2, h3, h4, h5, h6⟩ := grow f hnew
        rw [h1] at h
        simp only [Option.some.injEq] at h
        subst h
        exact ⟨h2, h3, h4, h5, by omega, by omega⟩
    · rw [if_neg hg] at h
      simp only [Option.some.injEq] at h
      subst h
      exact ⟨stay (by omega), hm1, hs1, hf1, by omega, by omega⟩
  · intro hfuel hcap
    rw [HashMap.insert, hins]
    by_cases hg : t.full_ + 1 > 2 ^ t.log_capacity_ / 2
    · rw [if_pos hg]
      obtain ⟨f, rfl⟩ : ∃ f, fuel = f + 1 := ⟨fuel - 1, by omega⟩
      obtain ⟨t', h1, _⟩ := grow f (by omega)
      exact ⟨t', h1⟩
    · rw [if_neg hg]
      exact ⟨t1, rfl⟩

/-- `erase` of a key that is present, under the invariant. -/
theorem erase_present_spec (hasher : K → Nat) (fuel : Nat) (t : HashMap K V)
    (hinv : t.Inv hasher) (key : K) (hc : t.contains key) :
    (∀ t', HashMap.erase hasher fuel t key = some t' →
      t'.Inv hasher ∧ (∀ kv, kv ∈ t'.entries ↔ kv ∈ t.entries ∧ kv.1 ≠ key) ∧
      t'.size_ + 1 = t.size_ ∧ t'.full_ = t.full_ ∧
      ((t'.log_capacity_ = t.log_capacity_ ∧ 2 ^ t.log_capacity_ / 8 ≤ t'.size_) ∨
       (t'.log_capacity_ + 1 = t.log_capacity_ ∧ 3 ≤ t.log_capacity_ ∧
        t'.size_ < 2 ^ t.log_capacity_ / 8))) ∧
    (0 < fuel → ∃ t', HashMap.erase hasher fuel t key = some t') := by
  obtain ⟨ha, hL, hsz, hfill, hload⟩ := hinv
  obtain ⟨i, b, kv0, hb, hf, hkv0, hk0⟩ := (contains_iff t key).mp hc
  have hfind := (find_present ha hL hb hf hkv0).1
  rw [hk0] at hfind
  have hil : i < t.metadata_.length := lt_of_getElem?_some hb
  have hil' : i < 2 ^ t.log_capacity_ := by rw [← ha.len_md]; exact hil
  have hcf := countP_erase_full hb hf
  have hcu := countP_erase_used hb hf
  have ha1 := arr_erase ha i hil'
  have hmem : ∀ kv, kv ∈ (⟨t.size_ - 1, t.log_capacity_, t.metadata_.set i get_deleted, t.data_, t.full_⟩ : HashMap K V).entries ↔ kv ∈ t.entries ∧ kv.1 ≠ key := by
    intro kv
    rw [mem_entries_iff, mem_entries_iff]
    simp only
    constructor
    · rintro ⟨j, b', hb', hf', hkv⟩
      rw [getElem?_set_of_lt hil] at hb'
      by_cases hij : i = j
      · simp only [hij, if_true, Option.some.injEq] at hb'
        rw [← hb'] at hf'
        exact absurd hf' (by decide)
      · simp only [hij, if_false] at hb'
        refine ⟨⟨j, b', hb', hf', hkv⟩, ?_⟩
        intro hkk
        exact hij (ha.uniq i j b b' kv0 kv hb hf hkv0 hb' hf' hkv (by rw [hk0, hkk]))
    · rintro ⟨⟨j, b', hb', hf', hkv⟩, hne⟩
      have hij : ¬ i = j := by
        intro hij
        subst hij
        rw [hkv0] at hkv
        simp only [Option.some.injEq] at hkv
        rw [← hkv] at hne
        exact hne hk0
      refine ⟨j, b', ?_, hf', hkv⟩
      rw [getElem?_set_of_lt hil]; simp [hij, hb']
  have heq : HashMap.erase hasher fuel t key
      = if t.size_ - 1 < 2 ^ t.log_capacity_ / 8 then
          HashMap.resize hasher fuel (⟨t.size_ - 1, t.log_capacity_, t.metadata_.set i get_deleted, t.data_, t.full_⟩ : HashMap K V) (t.log_capacity_ - 1)
        else some (⟨t.size_ - 1, t.log_capacity_, t.metadata_.set i get_deleted, t.data_, t.full_⟩ : HashMap K V) := by
    simp only [HashMap.erase, hfind, if_true, HashMap.erase_generic, hil,
      shl_ull_eq (show t.log_capacity_ ≤ 63 by omega), Nat.shiftRight_eq_div_pow]
  have hL3 : t.size_ - 1 < 2 ^ t.log_capacity_ / 8 → 3 ≤ t.log_capacity_ := by
    intro h
    by_contra hc3
    have : t.log_capacity_ = 0 ∨ t.log_capacity_ = 1 ∨ t.log_capacity_ = 2 := by omega
    rcases this with h0 | h0 | h0 <;> rw [h0] at h <;> simp at h
  have shrink : ∀ f, t.size_ - 1 < 2 ^ t.log_capacity_ / 8 →
      ∃ t', HashMap.resize hasher (f + 1) (⟨t.size_ - 1, t.log_capacity_, t.metadata_.set i get_deleted, t.data_, t.full_⟩ : HashMap K V) (t.log_capacity_ - 1) = some t' ∧
        t'.Inv hasher ∧ (∀ kv, kv ∈ t'.entries ↔ kv ∈ t.entries ∧ kv.1 ≠ key) ∧
        t'.size_ + 1 = t.size_ ∧ t'.full_ = t.full_ ∧
        t'.log_capacity_ + 1 = t.log_capacity_ := by
    intro f hs
    have h3 := hL3 hs
    have hp : 2 ^ t.log_capacity_ = 2 * 2 ^ (t.log_capacity_ - 1) := by
      rw [← Nat.pow_succ']
      congr 1; omega
    have hfu := countP_full_le_used t.metadata_
    obtain ⟨t', h1, h2, h3', h4, h5, h6, h7, h8⟩ :=
      resize_ok hasher f (⟨t.size_ - 1, t.log_capacity_, t.metadata_.set i get_deleted, t.data_, t.full_⟩ : HashMap K V) ha1 hL
        (by simp only; omega) (t.log_capacity_ - 1) (by omega)
        (by simp only; omega)
    simp only at h4 h5 h7
    refine ⟨t', h1, ⟨by rw [h3']; exact h2, by omega, h6, by omega, ?_⟩, ?_, by omega, h4,
      by omega⟩
    · rw [h3']; omega
    · intro kv; rw [h8 kv]; exact hmem kv
  have stay : ¬ t.size_ - 1 < 2 ^ t.log_capacity_ / 8 →
      (⟨t.size_ - 1, t.log_capacity_, t.metadata_.set i get_deleted, t.data_, t.full_⟩ : HashMap K V).Inv hasher := by
    intro _
    exact ⟨ha1, hL, by simp only; omega, by simp only; omega, by simp only; omega⟩
  have hpos : 0 < t.metadata_.countP is_full := by omega
  constructor
  · intro t' h
    rw [heq] at h
    by_cases hs : t.size_ - 1 < 2 ^ t.log_capacity_ / 8
    · rw [if_pos hs] at h
      cases fuel with
      | zero => simp [HashMap.resize] at h
      | succ f =>
        obtain ⟨t'', h1, h2, h3, h4, h5, h6⟩ := shrink f hs
        rw [h1] at h
        simp only [Option.some.injEq] at h
        subst h
        exact ⟨h2, h3, h4, h5, Or.inr ⟨h6, hL3 hs, by omega⟩⟩
    · rw [if_neg hs] at h
      simp only [Option.some.injEq] at h
      subst h
      exact ⟨stay hs, hmem, by simp only; omega, rfl, Or.inl ⟨rfl, by simp only; omega⟩⟩
  · intro hfuel
    rw [heq]
    by_cases hs : t.size_ - 1 < 2 ^ t.log_capacity_ / 8
    · rw [if_pos hs]
      obtain ⟨f, rfl⟩ : ∃ f, fuel = f + 1 := ⟨fuel - 1, by omega⟩
      obtain ⟨t', h1, _⟩ := shrink f hs
      exact ⟨t', h1⟩
    · rw [if_neg hs]
      exact ⟨_, rfl⟩

/-- `erase` of a key that is absent changes nothing. -/
theorem erase_absent_spec (hasher : K → Nat) (fuel : Nat) (t : HashMap K V)
    (hinv : t.Inv hasher) (key : K) (hc : ¬ t.contains key) :
    HashMap.erase hasher fuel t key = some t := by
  obtain ⟨ha, hL, hsz, hfill, hload⟩ := hinv
  have hex := exists_empty_slot ha.len_md hload
  obtain ⟨⟨j, hfind, _⟩, _⟩ := find_absent ha hL hex key ((not_contains_iff t key).mp hc)
  simp [HashMap.erase, hfind]

end

section

variable {K V : Type} [DecidableEq K] [DecidableEq V] [Inhabited K] [Inhabited V]

theorem fresh_inv (hasher : K → Nat) (L : Nat) (hL : L ≤ 30) :
    (HashMap.fresh K V L).Inv hasher := by
  refine ⟨fresh_arr hasher L, hL, ?_, ?_, ?_⟩
  · rw [fresh_countP_full]; rfl
  · rw [fresh_countP_used]; exact Nat.zero_le _
  · rw [fresh_countP_used]; exact Nat.zero_le _

theorem new_eq_fresh : (HashMap.new : HashMap K V) = HashMap.fresh K V 1 := rfl

theorem clear_eq_fresh (t : HashMap K V) : t.clear = HashMap.fresh K V 1 := rfl

/-- `insert`, whenever it returns, keeps the invariant and does not lower the capacity. -/
theorem insert_inv (hasher : K → Nat) (fuel : Nat) (t t' : HashMap K V) (kv : K × V)
    (hinv : t.Inv hasher) (h : HashMap.insert hasher fuel t kv = some t') :
    t'.Inv hasher ∧ t.log_capacity_ ≤ t'.log_capacity_ := by
  by_cases hc : t.contains kv.1
  · rw [HashMap.insert, insert_with_present _ hasher t hinv.arr hinv.log_le kv hc] at h
    simp only [Option.some.injEq] at h
    subst h
    exact ⟨hinv, Nat.le_refl _⟩
  · have := (insert_absent_spec hasher fuel t hinv kv.1 kv.2 hc).1 t' h
    exact ⟨this.1, this.2.2.2.2.1⟩

/-- `erase`, whenever it returns, keeps the invariant and a capacity of at least 2. -/
theorem erase_inv (hasher : K → Nat) (fuel : Nat) (t t' : HashMap K V) (k : K)
    (hinv : t.Inv hasher) (hL : 1 ≤ t.log_capacity_)
    (h : HashMap.erase hasher fuel t k = some t') :
    t'.Inv hasher ∧ 1 ≤ t'.log_capacity_ := by
  by_cases hc : t.contains k
  · have := (erase_present_spec hasher fuel t hinv k hc).1 t' h
    refine ⟨this.1, ?_⟩
    rcases this.2.2.2.2 with h1 | h1 <;> omega
  · rw [erase_absent_spec hasher fuel t hinv k hc] at h
    simp only [Option.some.injEq] at h
    subst h
    exact ⟨hinv, hL⟩

/-- `operator[]` is `insert` of the default value followed by a second search. -/
theorem operator_index_eq (hasher : K → Nat) (fuel : Nat) (t : HashMap K V) (k : K) :
    HashMap.operator_index hasher fuel t k
      = match HashMap.insert hasher fuel t (k, default) with
        | none => none
        | some t' =>
          match HashMap.find_allow_deleted_generic hasher t' k with
          | none => none
          | some p' => if p'.2 < t'.data_.length then some (t', p'.2) else none := by
  simp only [HashMap.operator_index, HashMap.insert, HashMap.insert_with]
  cases HashMap.find_allow_deleted_generic hasher t k <;> rfl

theorem operator_index_some (hasher : K → Nat) (fuel : Nat) (t t' : HashMap K V) (k : K)
    (i : Nat) (h : HashMap.operator_index hasher fuel t k = some (t', i)) :
    HashMap.insert hasher fuel t (k, default) = some t' ∧ i < t'.data_.length ∧
      ∃ b, HashMap.find_allow_deleted_generic hasher t' k = some (b, i) := by
  rw [operator_index_eq] at h
  cases h1 : HashMap.insert hasher fuel t (k, default) with
  | none => rw [h1] at h; simp at h
  | some t1 =>
    rw [h1] at h
    simp only at h
    cases h2 : HashMap.find_allow_deleted_generic hasher t1 k with
    | none => rw [h2] at h; simp at h
    | some p =>
      rw [h2] at h
      simp only at h
      split at h
      · simp only [Option.some.injEq, Prod.mk.injEq] at h
        obtain ⟨rfl, rfl⟩ := h
        exact ⟨rfl, by assumption, p.1, h2⟩
      · simp at h

theorem assign_inv (hasher : K → Nat) (t : HashMap K V) (i : Nat) (v : V)
    (hinv : t.Inv hasher) (hi : i < t.data_.length) : (t.assign i v).Inv hasher := by
  obtain ⟨ha, hL, hsz, hfill, hload⟩ := hinv
  have hkv : t.data_[i]? = some (t.data_.getD i default) := by
    rw [List.getElem?_eq_getElem hi, List.getD_eq_getElem _ _ hi]
  exact ⟨arr_assign ha i hkv v, hL, hsz, hfill, hload⟩

/-- Every reachable table satisfies the invariant and has at least two slots. -/
theorem reachable_inv (hasher : K → Nat) (t : HashMap K V) (h : HashMap.Reachable hasher t) :
    t.Inv hasher ∧ 1 ≤ t.log_capacity_ := by
  induction h with
  | new => exact ⟨fresh_inv hasher 1 (by decide), Nat.le_refl _⟩
  | insert fuel kv _ hins ih =>
    have := insert_inv hasher fuel _ _ kv ih.1 hins
    exact ⟨this.1, le_trans ih.2 this.2⟩
  | erase fuel k _ hera ih => exact erase_inv hasher fuel _ _ k ih.1 ih.2 hera
  | operator_index fuel k i _ hop ih =>
    have h1 := operator_index_some hasher fuel _ _ k i hop
    have := insert_inv hasher fuel _ _ _ ih.1 h1.1
    exact ⟨this.1, le_trans ih.2 this.2⟩
  | assign fuel k i v _ hop ih =>
    have h1 := operator_index_some hasher fuel _ _ k i hop
    have := insert_inv hasher fuel _ _ _ ih.1 h1.1
    exact ⟨assign_inv hasher _ i v this.1 h1.2.1, le_trans ih.2 this.2⟩
  | clear _ _ => exact ⟨fresh_inv hasher 1 (by decide), Nat.le_refl _⟩

/-! ## `at` and `find` under the invariant -/

theorem at_present (hasher : K → Nat) (t : HashMap K V) (hinv : t.Inv hasher) (k : K) (v : V)
    (h : (k, v) ∈ t.entries) : HashMap.at hasher t k = some (AtResult.value v) := by
  obtain ⟨i, b, hb, hf, hkv⟩ := (mem_entries_iff t (k, v)).mp h
  have := (find_present hinv.arr hinv.log_le hb hf hkv).1
  simp only at this
  simp [HashMap.at, this, hkv]

theorem at_absent (hasher : K → Nat) (t : HashMap K V) (hinv : t.Inv hasher) (k : K)
    (h : ¬ t.contains k) : HashMap.at hasher t k = some AtResult.out_of_range := by
  have hex := exists_empty_slot hinv.arr.len_md hinv.load_ok
  obtain ⟨⟨j, hfind, _⟩, _⟩ :=
    find_absent hinv.arr hinv.log_le hex k ((not_contains_iff t k).mp h)
  simp [HashMap.at, hfind]

theorem contains_iff_mem (t : HashMap K V) (k : K) : t.contains k ↔ ∃ v, (k, v) ∈ t.entries := by
  simp only [HashMap.contains, List.mem_map]
  constructor
  · rintro ⟨⟨k', v⟩, h, rfl⟩; exact ⟨v, h⟩
  · rintro ⟨v, h⟩; exact ⟨(k, v), h, rfl⟩

/-- Two tables with the same entries answer `at` alike. -/
theorem at_congr (hasher : K → Nat) (t t' : HashMap K V) (hinv : t.Inv hasher)
    (hinv' : t'.Inv hasher) (k : K) (h : ∀ v, (k, v) ∈ t'.entries ↔ (k, v) ∈ t.entries) :
    HashMap.at hasher t' k = HashMap.at hasher t k := by
  by_cases hc : t.contains k
  · obtain ⟨v, hv⟩ := (contains_iff_mem t k).mp hc
    rw [at_present hasher t hinv k v hv, at_present hasher t' hinv' k v ((h v).mpr hv)]
  · have hc' : ¬ t'.contains k := by
      intro hcon
      obtain ⟨v, hv⟩ := (contains_iff_mem t' k).mp hcon
      exact hc ((contains_iff_mem t k).mpr ⟨v, (h v).mp hv⟩)
    rw [at_absent hasher t hinv k hc, at_absent hasher t' hinv' k hc']

/-- The iterator that `find` returns for a stored key stands on its slot. -/
theorem find_present_it (hasher : K → Nat) (t : HashMap K V) (hinv : t.Inv hasher) (k : K)
    (v : V) (h : (k, v) ∈ t.entries) :
    ∃ it e, HashMap.find hasher t k = some it ∧ t.end = some e ∧ it.is_end_ = false ∧
      it.operator_eq e = false ∧ it.operator_deref = some (k, v) := by
  obtain ⟨i, b, hb, hf, hkv⟩ := (mem_entries_iff t (k, v)).mp h
  have hfind := (find_present hinv.arr hinv.log_le hb hf hkv).1
  simp only at hfind
  have hL := hinv.log_le
  have hil : i < 2 ^ t.log_capacity_ := by
    rw [← hinv.arr.len_md]; exact lt_of_getElem?_some hb
  have hiw : i % word = i := by
    apply Nat.mod_eq_of_lt
    have h1 : 2 ^ t.log_capacity_ ≤ 2 ^ 30 := Nat.pow_le_pow_right (by decide) hL
    have h2 : (2 : Nat) ^ 30 < word := by decide
    omega
  have hr := riderAt_new t.metadata_ i t.log_capacity_ (by omega)
  rw [hiw, Nat.mod_eq_of_lt hil] at hr
  have hr0 : RiderAt t.metadata_ (2 ^ t.log_capacity_) (get_hash i) ((i + 0) % 2 ^ t.log_capacity_)
      (Rider.new t.metadata_ i (2 ^ t.log_capacity_ - 1)) := by
    rw [Nat.add_zero, Nat.mod_eq_of_lt hil]; exact hr
  have hi0 : (i + 0) % 2 ^ t.log_capacity_ = i := by
    rw [Nat.add_zero, Nat.mod_eq_of_lt hil]
  obtain ⟨r', hnext, hr'cur, hr'md, hr'mask⟩ :=
    next_loop_full_spec t.metadata_ t.log_capacity_ i (get_hash i) 0 (by omega)
      (fun d hd => absurd hd (Nat.not_lt_zero d)) ⟨b, by rw [hi0]; exact hb, hf⟩ 0 0
      (2 ^ t.log_capacity_) _ rfl (Nat.le_refl _) (two_pow_pos' _) hr0
  have hm : (Rider.new t.metadata_ i (2 ^ t.log_capacity_ - 1)).hash_mask_ + 1
      = 2 ^ t.log_capacity_ := by
    have := two_pow_pos' t.log_capacity_
    simp only [Rider.new]; omega
  refine ⟨{ rider_ := r', data_ := t.data_, is_end_ := false }, _, ?_, end_eq t hL, rfl, ?_, ?_⟩
  · simp only [HashMap.find, hfind, if_true, shl_int_eq hL, IteratorBase.new, Rider.next, hm,
      hnext]
    simp
  · simp [IteratorBase.operator_eq]
  · simp only [IteratorBase.operator_deref, Rider.get_current_hash, hr'cur, hi0]
    exact hkv

/-- For a key that is not stored `find` returns `end()`. -/
theorem find_absent_it (hasher : K → Nat) (t : HashMap K V) (hinv : t.Inv hasher) (k : K)
    (h : ¬ t.contains k) :
    ∃ it e, HashMap.find hasher t k = some it ∧ t.end = some e ∧ it.is_end_ = true ∧
      it.operator_eq e = true := by
  have hex := exists_empty_slot hinv.arr.len_md hinv.load_ok
  obtain ⟨⟨j, hfind, _⟩, _⟩ :=
    find_absent hinv.arr hinv.log_le hex k ((not_contains_iff t k).mp h)
  refine ⟨{ rider_ := Rider.new t.metadata_ 0 (2 ^ t.log_capacity_ - 1), data_ := t.data_,
             is_end_ := true }, _, ?_, end_eq t hinv.log_le, rfl, ?_⟩
  · simp only [HashMap.find, hfind]
    exact end_eq t hinv.log_le
  · simp [IteratorBase.operator_eq]

/-- The value stored with a key is unique. -/
theorem entries_value_unique (hasher : K → Nat) (t : HashMap K V) (hinv : t.Inv hasher) (k : K)
    (v v' : V) (h : (k, v) ∈ t.entries) (h' : (k, v') ∈ t.entries) : v = v' := by
  have h1 := at_present hasher t hinv k v h
  have h2 := at_present hasher t hinv k v' h'
  rw [h1] at h2
  simp only [Option.some.injEq, AtResult.value.injEq] at h2
  exact h2

end

section

variable {K V : Type} [DecidableEq K] [DecidableEq V] [Inhabited K] [Inhabited V]

/-- C1. On a reachable table without key `k`, whenever `insert((k, v))`
returns, `find(k)` is an iterator different from `end()` that dereferences to
`(k, v)`, `size()` has grown by one and every other key is looked up as
before; and `insert` does return when the capacity may still be doubled
(`log_capacity_ < 30`, the range of `1 << log_capacity_` on `int`) and one
nested `resize` is allowed. -/
theorem C1_insert_absent (hasher : K → Nat) (t : HashMap K V) (k : K) (v : V) (fuel : Nat)
    (hr : HashMap.Reachable hasher t) (habs : ¬ t.contains k) :
    (∀ t', HashMap.insert hasher fuel t (k, v) = some t' →
      (∃ it e, HashMap.find hasher t' k = some it ∧ t'.end = some e ∧
        it.operator_eq e = false ∧ it.operator_deref = some (k, v)) ∧
      t'.size = t.size + 1 ∧
      ∀ k', k' ≠ k → (t'.contains k' ↔ t.contains k') ∧
        HashMap.at hasher t' k' = HashMap.at hasher t k') ∧
    (0 < fuel → t.log_capacity_ < 30 → ∃ t', HashMap.insert hasher fuel t (k, v) = some t') := by
  have hinv := (reachable_inv hasher t hr).1
  obtain ⟨h1, h2⟩ := insert_absent_spec hasher fuel t hinv k v habs
  refine ⟨?_, fun hf hL => h2 hf (Or.inl hL)⟩
  intro t' h
  obtain ⟨hinv', hmem, hsz, _, _, _⟩ := h1 t' h
  obtain ⟨it, e, hfind, hend, _, hne, hderef⟩ :=
    find_present_it hasher t' hinv' k v ((hmem (k, v)).mpr (Or.inl rfl))
  refine ⟨⟨it, e, hfind, hend, hne, hderef⟩, hsz, ?_⟩
  intro k' hk'
  have hiff : ∀ v', (k', v') ∈ t'.entries ↔ (k', v') ∈ t.entries := by
    intro v'
    rw [hmem (k', v')]
    constructor
    · rintro (h | h)
      · simp only [Prod.mk.injEq] at h
        exact absurd h.1 hk'
      · exact h
    · intro h; exact Or.inr h
  refine ⟨?_, at_congr hasher t t' hinv hinv' k' hiff⟩
  rw [contains_iff_mem, contains_iff_mem]
  exact exists_congr hiff

/-- C2. On a reachable table that stores `(k, v)`, `insert((k, v'))` returns
the table unchanged (all five members, hence every metadata byte and every
payload), and `k` is still looked up as `v`. -/
theorem C2_insert_present (hasher : K → Nat) (t : HashMap K V) (k : K) (v v' : V) (fuel : Nat)
    (hr : HashMap.Reachable hasher t) (hmem : (k, v) ∈ t.entries) :
    HashMap.insert hasher fuel t (k, v') = some t ∧
      HashMap.at hasher t k = some (AtResult.value v) ∧
      ∃ it, HashMap.find hasher t k = some it ∧ it.operator_deref = some (k, v) := by
  have hinv := (reachable_inv hasher t hr).1
  have hc : t.contains (k, v').1 := (contains_iff_mem t k).mpr ⟨v, hmem⟩
  obtain ⟨it, _, hfind, _, _, _, hderef⟩ := find_present_it hasher t hinv k v hmem
  exact ⟨insert_with_present _ hasher t hinv.arr hinv.log_le (k, v') hc,
    at_present hasher t hinv k v hmem, it, hfind, hderef⟩

/-- C3. On a reachable table that stores key `k`, whenever `erase(k)` returns,
`find(k)` equals `end()`, `at(k)` throws, `size()` has gone down by one and
every other key is looked up as before; and `erase` does return when one
nested `resize` is allowed. -/
theorem C3_erase_present (hasher : K → Nat) (t : HashMap K V) (k : K) (fuel : Nat)
    (hr : HashMap.Reachable hasher t) (hc : t.contains k) :
    (∀ t', HashMap.erase hasher fuel t k = some t' →
      (∃ it e, HashMap.find hasher t' k = some it ∧ t'.end = some e ∧
        it.operator_eq e = true) ∧
      HashMap.at hasher t' k = some AtResult.out_of_range ∧
      t'.size + 1 = t.size ∧
      ∀ k', k' ≠ k → (t'.contains k' ↔ t.contains k') ∧
        HashMap.at hasher t' k' = HashMap.at hasher t k') ∧
    (0 < fuel → ∃ t', HashMap.erase hasher fuel t k = some t') := by
  have hinv := (reachable_inv hasher t hr).1
  obtain ⟨h1, h2⟩ := erase_present_spec hasher fuel t hinv k hc
  refine ⟨?_, h2⟩
  intro t' h
  obtain ⟨hinv', hmem, hsz, _, _⟩ := h1 t' h
  have hnc : ¬ t'.contains k := by
    intro hcon
    obtain ⟨v, hv⟩ := (contains_iff_mem t' k).mp hcon
    exact ((hmem (k, v)).mp hv).2 rfl
  obtain ⟨it, e, hfind, hend, _, heq⟩ := find_absent_it hasher t' hinv' k hnc
  refine ⟨⟨it, e, hfind, hend, heq⟩, at_absent hasher t' hinv' k hnc, hsz, ?_⟩
  intro k' hk'
  have hiff : ∀ v', (k', v') ∈ t'.entries ↔ (k', v') ∈ t.entries := by
    intro v'
    rw [hmem (k', v')]
    exact ⟨fun h => h.1, fun h => ⟨h, hk'⟩⟩
  refine ⟨?_, at_congr hasher t t' hinv hinv' k' hiff⟩
  rw [contains_iff_mem, contains_iff_mem]
  exact exists_congr hiff

/-- C4. On a reachable table that does not store key `k`, `erase(k)` returns
the table unchanged: `size_`, `full_`, `log_capacity_`, the metadata bytes and
the payloads. -/
theorem C4_erase_absent (hasher : K → Nat) (t : HashMap K V) (k : K) (fuel : Nat)
    (hr : HashMap.Reachable hasher t) (hc : ¬ t.contains k) :
    HashMap.erase hasher fuel t k = some t :=
  erase_absent_spec hasher fuel t (reachable_inv hasher t hr).1 k hc

/-- C5. On a reachable table `at(k)` always returns or throws; it throws
`std::out_of_range` exactly when `k` is not stored, and for a stored key it
returns the value stored with it.  (`at` is `const`: the embedding returns no
new table.) -/
theorem C5_at (hasher : K → Nat) (t : HashMap K V) (k : K)
    (hr : HashMap.Reachable hasher t) :
    (HashMap.at hasher t k = some AtResult.out_of_range ↔ ¬ t.contains k) ∧
      (∀ v, (k, v) ∈ t.entries → HashMap.at hasher t k = some (AtResult.value v)) ∧
      (t.contains k → ∃ v, (k, v) ∈ t.entries ∧
        HashMap.at hasher t k = some (AtResult.value v)) := by
  have hinv := (reachable_inv hasher t hr).1
  refine ⟨⟨?_, at_absent hasher t hinv k⟩, at_present hasher t hinv k, ?_⟩
  · intro h hc
    obtain ⟨v, hv⟩ := (contains_iff_mem t k).mp hc
    rw [at_present hasher t hinv k v hv] at h
    simp at h
  · intro hc
    obtain ⟨v, hv⟩ := (contains_iff_mem t k).mp hc
    exact ⟨v, hv, at_present hasher t hinv k v hv⟩

/-- C6. On a reachable table, whenever `operator[](k)` returns, the returned
slot is a fingerprint slot of the table as it is after the call and holds
`k`; for an absent `k` the table then stores `(k, ValueType())` and `size()`
has grown by one, for a stored `k` the table is unchanged and the slot holds
the value of `k`.  The call returns when `k` is stored, and for an absent `k`
when the capacity may still be doubled and one nested `resize` is allowed. -/
theorem C6_operator_index (hasher : K → Nat) (t : HashMap K V) (k : K) (fuel : Nat)
    (hr : HashMap.Reachable hasher t) :
    (¬ t.contains k →
      (∀ t' i, HashMap.operator_index hasher fuel t k = some (t', i) →
        t'.Live i (k, default) ∧ (k, default) ∈ t'.entries ∧ t'.size = t.size + 1) ∧
      (0 < fuel → t.log_capacity_ < 30 →
        ∃ t' i, HashMap.operator_index hasher fuel t k = some (t', i))) ∧
    (∀ v, (k, v) ∈ t.entries →
      ∃ i, HashMap.operator_index hasher fuel t k = some (t, i) ∧ t.Live i (k, v)) := by
  have hinv := (reachable_inv hasher t hr).1
  -- the second search, on a table that stores `k`
  have second : ∀ (t' : HashMap K V) (v : V), t'.Inv hasher → (k, v) ∈ t'.entries →
      ∃ i, HashMap.find_allow_deleted_generic hasher t' k = some (true, i) ∧
        i < t'.data_.length ∧ t'.Live i (k, v) := by
    intro t' v hinv' hmem
    obtain ⟨i, b, hb, hf, hkv⟩ := (mem_entries_iff t' (k, v)).mp hmem
    exact ⟨i, (find_present hinv'.arr hinv'.log_le hb hf hkv).2, lt_of_getElem?_some hkv,
      b, hb, hf, hkv⟩
  constructor
  · intro habs
    obtain ⟨h1, h2⟩ := insert_absent_spec hasher fuel t hinv k default habs
    constructor
    · intro t' i h
      obtain ⟨hins, _, b, hfind⟩ := operator_index_some hasher fuel t t' k i h
      obtain ⟨hinv', hmem, hsz, _⟩ := h1 t' hins
      have hm : (k, default) ∈ t'.entries := (hmem _).mpr (Or.inl rfl)
      obtain ⟨j, hj, _, hlive⟩ := second t' default hinv' hm
      rw [hj] at hfind
      simp only [Option.some.injEq, Prod.mk.injEq] at hfind
      rw [← hfind.2]
      exact ⟨hlive, hm, hsz⟩
    · intro hf hL
      obtain ⟨t', hins⟩ := h2 hf (Or.inl hL)
      obtain ⟨hinv', hmem, _⟩ := h1 t' hins
      obtain ⟨j, hj, hjl, _⟩ := second t' default hinv' ((hmem _).mpr (Or.inl rfl))
      refine ⟨t', j, ?_⟩
      rw [operator_index_eq, hins]
      simp only [hj, hjl, if_true]
  · intro v hmem
    have hc : t.contains (k, (default : V)).1 := (contains_iff_mem t k).mpr ⟨v, hmem⟩
    have hins := insert_with_present (HashMap.resize hasher fuel) hasher t hinv.arr hinv.log_le
      (k, default) hc
    obtain ⟨j, hj, hjl, hlive⟩ := second t v hinv hmem
    refine ⟨j, ?_, hlive⟩
    rw [operator_index_eq, HashMap.insert, hins]
    simp only [hj, hjl, if_true]

end

section

variable {K V : Type} [DecidableEq K] [DecidableEq V] [Inhabited K] [Inhabited V]

theorem getD_of_getElem? {md : List Nat} {i b : Nat} (h : md[i]? = some b) (d : Nat) :
    md.getD i d = b := by
  rw [List.getD_eq_getElem?_getD, h]; rfl

theorem live_step (md : List Nat) (c k b : Nat) (hb : md[c]? = some b) :
    (List.range' c (k + 1)).filter (fun i => is_full (md.getD i get_empty))
      = if is_full b = true then
          c :: (List.range' (c + 1) k).filter (fun i => is_full (md.getD i get_empty))
        else (List.range' (c + 1) k).filter (fun i => is_full (md.getD i get_empty)) := by
  rw [List.range'_succ, List.filter_cons, getD_of_getElem? hb]

theorem live_skip (md : List Nat) :
    ∀ k c n, (∀ i, c ≤ i → i < c + k → ∃ b, md[i]? = some b ∧ is_full b = false) →
      (List.range' c (k + n)).filter (fun i => is_full (md.getD i get_empty))
        = (List.range' (c + k) n).filter (fun i => is_full (md.getD i get_empty)) := by
  intro k
  induction k with
  | zero => intro c n _; simp
  | succ k ih =>
    intro c n hall
    obtain ⟨b, hb, hnf⟩ := hall c (by omega) (by omega)
    have e1 : k + 1 + n = (k + n) + 1 := by omega
    rw [e1, live_step md c (k + n) b hb, hnf]
    simp only [Bool.false_eq_true, if_false]
    rw [ih (c + 1) n (fun i h1 h2 => hall i (by omega) (by omega))]
    congr 2
    omega

/-- The caller's loop from an iterator to `end()` visits the fingerprint slots
from the iterator's slot on, in increasing order. -/
theorem walk_from (md : List Nat) (data : List (K × V)) (L : Nat) (hL : L ≤ 64)
    (hmd : md.length = 2 ^ L) (e : IteratorBase (K × V)) (he : e.is_end_ = true) :
    ∀ m c (l : IteratorBase (K × V)) n, 2 ^ L - c = m → c < 2 ^ L →
      l.rider_.metadata_ = md → l.rider_.hash_mask_ = 2 ^ L - 1 → l.rider_.current_hash_ = c →
      l.data_ = data → l.is_end_ = false →
      (∃ b, md[c]? = some b ∧ is_full b = true) → 2 ^ L - c + 1 ≤ n →
      HashMap.walk n l e
        = some ((List.range' c (2 ^ L - c)).filter (fun i => is_full (md.getD i get_empty))) := by
  intro m
  induction m using Nat.strong_induction_on with
  | _ m ih =>
    intro c l n hm hc hlmd hlmask hlcur hldata hlend hfull hn
    obtain ⟨b, hb, hf⟩ := hfull
    obtain ⟨n', rfl⟩ : ∃ n', n = n' + 1 := ⟨n - 1, by omega⟩
    have e0 : 2 ^ L - c = (2 ^ L - (c + 1)) + 1 := by omega
    rw [e0, live_step md c _ b hb, hf]
    simp only [if_true]
    simp only [HashMap.walk, operator_ne_end l e hlend he, if_true]
    obtain ⟨D, hD, hDfull, hDpass⟩ := first_full_offset hmd (c + 1) ⟨c, b, hb, hf⟩
    have hr : RiderAt md (2 ^ L) l.rider_.initial_hash_ ((c + 1 + 0) % 2 ^ L) l.rider_ := by
      have := riderAt_cursor l.rider_ L c hL hlmask hlcur
      rw [hlmd] at this
      simpa using this
    obtain ⟨r', hnext, hr'cur, hr'md, hr'mask⟩ :=
      next_loop_full_spec md L (c + 1) l.rider_.initial_hash_ D hL hDpass hDfull D 0
        (2 ^ L) l.rider_ (by omega) (by omega) (by omega) hr
    have hnext' : l.rider_.next mode_full = some (r', ((c + 1 + D) % 2 ^ L, mode_full)) := by
      rw [Rider.next, hlmask]
      have : 2 ^ L - 1 + 1 = 2 ^ L := by have := two_pow_pos' L; omega
      rw [this]; exact hnext
    by_cases hwrap : c + 1 + D < 2 ^ L
    · have hj : (c + 1 + D) % 2 ^ L = c + 1 + D := Nat.mod_eq_of_lt hwrap
      have hinc : l.operator_pre_inc = some { l with rider_ := r' } := by
        simp only [IteratorBase.operator_pre_inc, hnext', Rider.get_current_hash, hr'cur, hj,
          hlcur]
        rw [if_neg (by omega)]
      rw [hinc]
      simp only
      rw [ih (2 ^ L - (c + 1 + D)) (by omega) (c + 1 + D) { l with rider_ := r' } n' rfl
        hwrap hr'md hr'mask (by rw [hr'cur, hj]) hldata hlend (by rw [← hj]; exact hDfull)
        (by omega)]
      simp only [Rider.get_current_hash, hlcur]
      have e2 : 2 ^ L - (c + 1) = D + (2 ^ L - (c + 1 + D)) := by omega
      rw [e2, live_skip md D (c + 1)]
      intro i h1 h2
      have := hDpass (i - (c + 1)) (by omega)
      have e3 : c + 1 + (i - (c + 1)) = i := by omega
      rw [e3, Nat.mod_eq_of_lt (by omega)] at this
      exact this
    · have hj : (c + 1 + D) % 2 ^ L = c + 1 + D - 2 ^ L := by
        have e2 : c + 1 + D = (c + 1 + D - 2 ^ L) + 2 ^ L := by omega
        rw [e2, Nat.add_mod_right, Nat.mod_eq_of_lt (by omega)]
        omega
      have hinc : l.operator_pre_inc = some { l with rider_ := r', is_end_ := true } := by
        simp only [IteratorBase.operator_pre_inc, hnext', Rider.get_current_hash, hr'cur, hj,
          hlcur]
        rw [if_pos (by omega)]
      rw [hinc]
      simp only
      obtain ⟨n'', rfl⟩ : ∃ n'', n' = n'' + 1 := ⟨n' - 1, by omega⟩
      have hne : IteratorBase.operator_ne { l with rider_ := r', is_end_ := true } e = false :=
        operator_ne_end_end _ e rfl he
      simp only [HashMap.walk, hne, Rider.get_current_hash, hlcur]
      have hnil : (List.range' (c + 1) (2 ^ L - (c + 1))).filter
          (fun i => is_full (md.getD i get_empty)) = [] := by
        have := live_skip md (2 ^ L - (c + 1)) (c + 1) 0 (by
          intro i h1 h2
          have := hDpass (i - (c + 1)) (by omega)
          have e3 : c + 1 + (i - (c + 1)) = i := by omega
          rw [e3, Nat.mod_eq_of_lt (by omega)] at this
          exact this)
        simpa using this
      rw [hnil]
      simp

theorem live_slots_length (md : List Nat) :
    ((List.range md.length).filter (fun i => is_full (md.getD i get_empty))).length
      = md.countP is_full := by
  induction md using List.reverseRecOn with
  | nil => simp
  | append_singleton l a ih =>
    rw [List.length_append, List.length_singleton, List.range_succ, List.filter_append,
      List.length_append, List.countP_append]
    congr 1
    · rw [← ih]
      congr 1
      apply List.filter_congr
      intro i hi
      rw [List.mem_range] at hi
      rw [List.getD_append _ _ _ _ hi]
    · simp only [List.filter_cons, List.filter_nil, List.countP_cons, List.countP_nil,
        List.getD_append_right _ _ _ _ (Nat.le_refl _), Nat.sub_self, List.getD_cons_zero,
        Nat.zero_add]
      split <;> rfl

theorem mem_live_slots (t : HashMap K V) (i : Nat) :
    i ∈ t.live_slots ↔ ∃ b, t.metadata_[i]? = some b ∧ is_full b = true := by
  simp only [HashMap.live_slots, List.mem_filter, List.mem_range]
  constructor
  · rintro ⟨hi, hf⟩
    refine ⟨t.metadata_[i], List.getElem?_eq_getElem hi, ?_⟩
    rw [List.getD_eq_getElem _ _ hi] at hf
    exact hf
  · rintro ⟨b, hb, hf⟩
    exact ⟨lt_of_getElem?_some hb, by rw [getD_of_getElem? hb]; exact hf⟩

theorem live_slots_sorted (t : HashMap K V) : t.live_slots.Pairwise (fun i j => i < j) :=
  List.Pairwise.filter _ (List.pairwise_lt_range _)

/-- C7. On a reachable table the loop `for (it = begin(); it != end(); ++it)`
ends, after `size()` pre-increments; the slots on which it dereferences the
iterator are the slots whose metadata byte is a fingerprint, each once, by
increasing index; on a table of size 0, `begin() == end()`. -/
theorem C7_iteration (hasher : K → Nat) (t : HashMap K V) (hr : HashMap.Reachable hasher t) :
    t.traverse = some t.live_slots ∧ t.live_slots.length = t.size ∧
      (∀ i, i ∈ t.live_slots ↔ ∃ b, t.metadata_[i]? = some b ∧ is_full b = true) ∧
      t.live_slots.Pairwise (fun i j => i < j) ∧
      (t.size = 0 → ∃ b e, t.begin = some b ∧ t.end = some e ∧ b.operator_eq e = true) := by
  obtain ⟨ha, hL, hsz, _, _⟩ := (reachable_inv hasher t hr).1
  have hlen : t.live_slots.length = t.size := by
    rw [HashMap.live_slots, live_slots_length, HashMap.size, hsz]
  refine ⟨?_, hlen, mem_live_slots t, live_slots_sorted t, ?_⟩
  · by_cases hne : t.size_ = 0
    · have hemp : t.empty = true := by simp [HashMap.empty, hne]
      have hnil : t.live_slots = [] := by
        apply List.eq_nil_of_length_eq_zero
        rw [hlen]; exact hne
      simp only [HashMap.traverse, HashMap.begin, hemp, if_true, end_eq t hL]
      rw [hnil]
      simp [HashMap.walk, IteratorBase.operator_ne, IteratorBase.operator_eq]
    · obtain ⟨b, c, hb, hc, hbmd, hbmask, hbcur, hbdata, hbend, hcfull, hcpass⟩ :=
        begin_nonempty t hL ha.len_md hsz hne
      have hpos := two_pow_pos' t.log_capacity_
      simp only [HashMap.traverse, hb, end_eq t hL, hbmask]
      rw [walk_from t.metadata_ t.data_ t.log_capacity_ (by omega) ha.len_md _ rfl
        (2 ^ t.log_capacity_ - c) c b _ rfl hc hbmd hbmask hbcur hbdata hbend hcfull (by omega)]
      congr 1
      rw [HashMap.live_slots, List.range_eq_range', ha.len_md]
      have e1 : 2 ^ t.log_capacity_ = c + (2 ^ t.log_capacity_ - c) := by omega
      conv_rhs => rw [e1]
      rw [live_skip t.metadata_ c 0 _ (fun i _ h2 => hcpass i (by omega))]
      simp
  · intro h0
    have hemp : t.empty = true := by
      simp only [HashMap.size] at h0
      simp [HashMap.empty, h0]
    refine ⟨{ rider_ := Rider.new t.metadata_ 0 (2 ^ t.log_capacity_ - 1), data_ := t.data_,
               is_end_ := true }, _, ?_, end_eq t hL, ?_⟩
    · simp only [HashMap.begin, hemp, if_true]
      exact end_eq t hL
    · simp [IteratorBase.operator_eq]

end

section

variable {K V : Type} [DecidableEq K] [DecidableEq V] [Inhabited K] [Inhabited V]

/-! ## The range constructors -/

theorem get_log_capacity_loop_eq (L : Nat) (hL : L ≤ 63) :
    ∀ k lc fuel, L - lc = k → lc ≤ L → k < fuel →
      Rider.get_log_capacity_loop (2 ^ L - 1) fuel lc = some L := by
  intro k
  induction k with
  | zero =>
    intro lc fuel hk hle hf
    have : lc = L := by omega
    subst this
    obtain ⟨f, rfl⟩ : ∃ f, fuel = f + 1 := ⟨fuel - 1, by omega⟩
    have hpos := two_pow_pos' lc
    simp only [Rider.get_log_capacity_loop, shl_ull_eq hL]
    rw [if_neg (by omega)]
  | succ k ih =>
    intro lc fuel hk hle hf
    obtain ⟨f, rfl⟩ : ∃ f, fuel = f + 1 := ⟨fuel - 1, by omega⟩
    have hlt : 2 ^ lc < 2 ^ L := Nat.pow_lt_pow_right (by decide) (by omega)
    simp only [Rider.get_log_capacity_loop, shl_ull_eq (show lc ≤ 63 by omega)]
    rw [if_pos (by omega)]
    exact ih (lc + 1) f (by omega) (by omega) (by omega)

/-- The loop of the range constructor on a range of distinct keys that the
table does not contain, when every insertion may resize. -/
theorem build_grow (hasher : K → Nat) (fuel : Nat) (hfuel : 0 < fuel) :
    ∀ (es : List (K × V)) (t : HashMap K V), t.Inv hasher →
      t.full_ + es.length ≤ 2 ^ 29 →
      es.Pairwise (fun a b => a.1 ≠ b.1) → (∀ kv, kv ∈ es → ¬ t.contains kv.1) →
      ∃ t', HashMap.copy_loop_ptr (HashMap.insert hasher fuel) es t = some t' ∧
        t'.Inv hasher ∧ t'.size_ = t.size_ + es.length ∧
        (∀ kv, kv ∈ t'.entries ↔ kv ∈ t.entries ∨ kv ∈ es) := by
  intro es
  induction es with
  | nil =>
    intro t hinv _ _ _
    exact ⟨t, rfl, hinv, by simp, by simp⟩
  | cons e es ih =>
    intro t hinv hroom hpw habs
    simp only [List.length_cons] at hroom
    have hc : ¬ t.contains e.1 := habs e (List.mem_cons_self _ _)
    obtain ⟨h1, h2⟩ := insert_absent_spec hasher fuel t hinv e.1 e.2 hc
    have hcap : t.log_capacity_ < 30 ∨ t.full_ + 1 ≤ 2 ^ t.log_capacity_ / 2 := by
      by_cases h30 : t.log_capacity_ < 30
      · exact Or.inl h30
      · right
        have : t.log_capacity_ = 30 := by have := hinv.log_le; omega
        rw [this]
        have : (2 : Nat) ^ 30 / 2 = 2 ^ 29 := by decide
        omega
    obtain ⟨t1, hins⟩ := h2 hfuel hcap
    obtain ⟨hinv1, hm1, hs1, hf1, _, _⟩ := h1 t1 hins
    rw [HashMap.copy_loop_ptr, show e = (e.1, e.2) from rfl, hins]
    simp only
    rw [List.pairwise_cons] at hpw
    have habs1 : ∀ kv, kv ∈ es → ¬ t1.contains kv.1 := by
      intro kv hkv hcon
      obtain ⟨kv', hkv', hk⟩ := List.mem_map.mp hcon
      rcases (hm1 kv').mp hkv' with h | h
      · apply hpw.1 kv hkv
        rw [← hk, h]
      · exact habs kv (List.mem_cons_of_mem _ hkv) (List.mem_map.mpr ⟨kv', h, hk⟩)
    obtain ⟨t', h3, h4, h5, h6⟩ := ih t1 hinv1 (by omega) hpw.2 habs1
    refine ⟨t', h3, h4, by simp only [List.length_cons]; omega, ?_⟩
    intro kv
    rw [h6 kv, hm1 kv, List.mem_cons]
    constructor
    · rintro ((h | h) | h)
      · right; left; exact h
      · left; exact h
      · right; right; exact h
    · rintro (h | h | h)
      · left; right; exact h
      · left; left; exact h
      · right; exact h

theorem at_of_entries_iff (hasher : K → Nat) (t n : HashMap K V) (hinv : t.Inv hasher)
    (hinv' : n.Inv hasher) (h : ∀ kv, kv ∈ n.entries ↔ kv ∈ t.entries) (k : K) :
    HashMap.at hasher n k = HashMap.at hasher t k :=
  at_congr hasher t n hinv hinv' k (fun v => h (k, v))

/-- C8. For a reachable table `t`, the range constructor applied to
`[t.begin(), t.end())` returns a table with the size of `t` and the same
entries, so that every key is looked up alike in both: without a
log-capacity argument at any depth of nested `resize`, and with any
log-capacity argument in the range of `1 << log_capacity` on `int` when one
nested `resize` is allowed. -/
theorem C8_range_roundtrip (hasher : K → Nat) (t : HashMap K V)
    (hr : HashMap.Reachable hasher t) :
    ∃ b e, t.begin = some b ∧ t.end = some e ∧
      (∀ fuel, ∃ n, HashMap.of_range hasher fuel b e = some n ∧ n.size = t.size ∧
        (∀ kv, kv ∈ n.entries ↔ kv ∈ t.entries) ∧
        ∀ k, HashMap.at hasher n k = HashMap.at hasher t k) ∧
      (∀ fuel log_capacity, 0 < fuel → log_capacity ≤ 30 →
        ∃ n, HashMap.of_range_log hasher fuel b e log_capacity = some n ∧ n.size = t.size ∧
          (∀ kv, kv ∈ n.entries ↔ kv ∈ t.entries) ∧
          ∀ k, HashMap.at hasher n k = HashMap.at hasher t k) := by
  have hinv := (reachable_inv hasher t hr).1
  obtain ⟨ha, hL, hsz, hfill, hload⟩ := hinv
  have hlen : t.entries.length = t.metadata_.countP is_full :=
    entries_length t (by rw [ha.len_md, ha.len_data])
  have hfu := countP_full_le_used t.metadata_
  have hpos := two_pow_pos' t.log_capacity_
  have hfresh_abs : ∀ (Lc : Nat) (kv : K × V), kv ∈ t.entries →
      ¬ (HashMap.fresh K V Lc).contains kv.1 := by
    intro Lc kv _ hc
    simp only [HashMap.contains, fresh_entries, List.map_nil] at hc
    exact absurd hc (List.not_mem_nil _)
  have h29 : 2 ^ t.log_capacity_ ≤ 2 ^ 30 := Nat.pow_le_pow_right (by decide) hL
  have h30 : (2 : Nat) ^ 30 = 2 * 2 ^ 29 := by decide
  have key : ∀ (ins : HashMap K V → K × V → Option (HashMap K V)) (b e : IteratorBase (K × V))
      (Lc : Nat), Lc ≤ 30 → b.rider_.hash_mask_ = 2 ^ t.log_capacity_ - 1 →
      (∀ t1, HashMap.copy_loop ins (2 ^ t.log_capacity_ + 1) b e t1
        = HashMap.copy_loop_ptr ins t.entries t1) →
      HashMap.from_range_log ins b e Lc
        = HashMap.copy_loop_ptr ins t.entries (HashMap.fresh K V Lc) := by
    intro ins b e Lc hLc hmask hloop
    simp only [HashMap.from_range_log, HashMap.copy_from_iterators_generic, alloc_eq _ Lc hLc,
      hmask]
    have e1 : 2 ^ t.log_capacity_ - 1 + 2 = 2 ^ t.log_capacity_ + 1 := by omega
    rw [e1, hloop]
  obtain ⟨b, e, hb, he, _, hmask, _⟩ :=
    copy_range_eq (fun t _ => some t) t hL ha.len_md ha.len_data hsz
  refine ⟨b, e, hb, he, ?_, ?_⟩
  · intro fuel
    obtain ⟨b', e', hb', he', _, _, hloop⟩ :=
      copy_range_eq (HashMap.insert hasher fuel) t hL ha.len_md ha.len_data hsz
    rw [hb] at hb'
    rw [he] at he'
    simp only [Option.some.injEq] at hb' he'
    subst hb' he'
    obtain ⟨n, h1, h2, h3, h4, h5, h6, h7, h8⟩ :=
      build_distinct (HashMap.resize hasher fuel) hasher t.entries
        (HashMap.fresh K V t.log_capacity_) (fresh_arr hasher _) hL
        (by rw [fresh_countP_full]; rfl) (by rw [fresh_countP_used]; exact Nat.zero_le _)
        (by simp only [HashMap.fresh]; omega) (entries_pairwise ha)
        (hfresh_abs t.log_capacity_)
    have h3' : n.log_capacity_ = t.log_capacity_ := h3
    have hninv : n.Inv hasher := by
      refine ⟨h2, by omega, h4, ?_, ?_⟩
      · rw [fresh_countP_used] at h5
        have : (HashMap.fresh K V t.log_capacity_).full_ = 0 := rfl
        omega
      · rw [fresh_countP_used] at h5
        rw [h3']; omega
    have hent : ∀ kv, kv ∈ n.entries ↔ kv ∈ t.entries := by
      intro kv; rw [h8 kv, fresh_entries]; simp
    refine ⟨n, ?_, ?_, hent, at_of_entries_iff hasher t n ⟨ha, hL, hsz, hfill, hload⟩ hninv hent⟩
    · have hlog : b.get_log_capacity = some t.log_capacity_ := by
        simp only [IteratorBase.get_log_capacity, Rider.get_log_capacity, hmask]
        exact get_log_capacity_loop_eq t.log_capacity_ (by omega) _ 0 65 rfl (Nat.zero_le _)
          (by omega)
      simp only [HashMap.of_range, HashMap.from_range, hlog]
      rw [key _ b e _ hL hmask hloop]
      exact h1
    · have : (HashMap.fresh K V t.log_capacity_).size_ = 0 := rfl
      simp only [HashMap.size]
      omega
  · intro fuel Lc hfuel hLc
    obtain ⟨b', e', hb', he', _, _, hloop⟩ :=
      copy_range_eq (HashMap.insert hasher fuel) t hL ha.len_md ha.len_data hsz
    rw [hb] at hb'
    rw [he] at he'
    simp only [Option.some.injEq] at hb' he'
    subst hb' he'
    obtain ⟨n, h1, hninv, h3, h4⟩ :=
      build_grow hasher fuel hfuel t.entries (HashMap.fresh K V Lc) (fresh_inv hasher Lc hLc)
        (by simp only [HashMap.fresh]; omega) (entries_pairwise ha) (hfresh_abs Lc)
    have hent : ∀ kv, kv ∈ n.entries ↔ kv ∈ t.entries := by
      intro kv; rw [h4 kv, fresh_entries]; simp
    refine ⟨n, ?_, ?_, hent, at_of_entries_iff hasher t n ⟨ha, hL, hsz, hfill, hload⟩ hninv hent⟩
    · simp only [HashMap.of_range_log]
      rw [key _ b e _ hLc hmask hloop]
      exact h1
    · have : (HashMap.fresh K V Lc).size_ = 0 := rfl
      simp only [HashMap.size]
      omega

/-! ## The initializer-list constructor -/

theorem initializer_log_loop_spec (n : Nat) (hn : n ≤ 2 ^ 29) :
    ∀ k lc fuel, 29 - lc = k → lc ≤ 29 → k < fuel →
      ∃ r, HashMap.initializer_log_loop n fuel lc = some r ∧ lc ≤ r ∧ r ≤ 29 ∧ n ≤ 2 ^ r := by
  intro k
  induction k with
  | zero =>
    intro lc fuel hk hle hf
    have : lc = 29 := by omega
    subst this
    obtain ⟨f, rfl⟩ : ∃ f, fuel = f + 1 := ⟨fuel - 1, by omega⟩
    refine ⟨29, ?_, Nat.le_refl _, Nat.le_refl _, hn⟩
    simp only [HashMap.initializer_log_loop, shl_ull_eq (show 29 ≤ 63 by decide)]
    rw [if_neg (by omega)]
  | succ k ih =>
    intro lc fuel hk hle hf
    obtain ⟨f, rfl⟩ : ∃ f, fuel = f + 1 := ⟨fuel - 1, by omega⟩
    simp only [HashMap.initializer_log_loop, shl_ull_eq (show lc ≤ 63 by omega)]
    by_cases hlt : 2 ^ lc < n
    · rw [if_pos hlt]
      obtain ⟨r, h1, h2, h3, h4⟩ := ih (lc + 1) f (by omega) (by omega) (by omega)
      exact ⟨r, h1, by omega, h3, h4⟩
    · rw [if_neg hlt]
      exact ⟨lc, rfl, Nat.le_refl _, hle, by omega⟩

/-- C9. For an initializer list `l` of `n ≤ 2 ^ 29` entries (so that
`1 << log_capacity` stays in the range of `int`) the constructor returns a
table whose member `log_capacity_` is the value computed in the shadowing
local, `p + 1` with `2 ^ p ≥ n`; its capacity is at least 2 and at least
`2 * n`, and both arrays have exactly that many slots. -/
theorem C9_initializer_list (hasher : K → Nat) (fuel : Nat) (l : List (K × V))
    (hn : l.length ≤ 2 ^ 29) :
    ∃ p t, HashMap.initializer_log_loop l.length 65 0 = some p ∧
      HashMap.of_initializer_list hasher fuel l = some t ∧
      t.log_capacity_ = p + 1 ∧ 2 ≤ t.capacity ∧ 2 * l.length ≤ t.capacity ∧
      t.metadata_.length = t.capacity ∧ t.data_.length = t.capacity := by
  obtain ⟨p, hp, _, hp29, hnp⟩ := initializer_log_loop_spec l.length hn 29 0 65 rfl
    (Nat.zero_le _) (by decide)
  have hpow : 2 ^ (p + 1) = 2 * 2 ^ p := by rw [Nat.pow_succ]; omega
  have hpos := two_pow_pos' p
  obtain ⟨t, h1, h2, h3, _, _, _, _, _, _⟩ :=
    build_any (HashMap.resize hasher fuel) hasher l (HashMap.fresh K V (p + 1))
      (fresh_arr hasher _) (by show p + 1 ≤ 30; omega) (by rw [fresh_countP_full]; rfl)
      (by rw [fresh_countP_used]; exact Nat.zero_le _)
      (by simp only [HashMap.fresh]; omega)
  have h3' : t.log_capacity_ = p + 1 := h3
  refine ⟨p, t, hp, ?_, h3', ?_, ?_, ?_, ?_⟩
  · simp only [HashMap.of_initializer_list, HashMap.from_initializer_list, hp,
      HashMap.copy_from_iterators_generic_ptr, alloc_eq _ (p + 1) (by omega)]
    exact h1
  · simp only [HashMap.capacity, h3']; omega
  · simp only [HashMap.capacity, h3']; omega
  · simp only [HashMap.capacity]; exact h2.len_md
  · simp only [HashMap.capacity]; exact h2.len_data

/-! ## Sequences of calls -/

theorem run_cons (hasher : K → Nat) (fuel : Nat) (op : Op K V) (ops : List (Op K V))
    (t t' : HashMap K V) (h : HashMap.apply hasher fuel t op = some t') :
    HashMap.run hasher fuel (op :: ops) t = HashMap.run hasher fuel ops t' := by
  simp [HashMap.run, h]

theorem reachable_apply (hasher : K → Nat) (fuel : Nat) (t t' : HashMap K V) (op : Op K V)
    (hr : HashMap.Reachable hasher t) (h : HashMap.apply hasher fuel t op = some t') :
    HashMap.Reachable hasher t' := by
  cases op with
  | insert kv => exact HashMap.Reachable.insert fuel kv hr h
  | erase k => exact HashMap.Reachable.erase fuel k hr h
  | operator_index k =>
    simp only [HashMap.apply, Option.map_eq_some'] at h
    obtain ⟨⟨t'', i⟩, h1, h2⟩ := h
    simp only at h2
    subst h2
    exact HashMap.Reachable.operator_index fuel k i hr h1
  | clear =>
    simp only [HashMap.apply, Option.some.injEq] at h
    subst h
    exact HashMap.Reachable.clear hr

/-- The table after a sequence of calls on a reachable table is reachable. -/
theorem reachable_run (hasher : K → Nat) (fuel : Nat) :
    ∀ (ops : List (Op K V)) (t t' : HashMap K V), HashMap.Reachable hasher t →
      HashMap.run hasher fuel ops t = some t' → HashMap.Reachable hasher t' := by
  intro ops
  induction ops with
  | nil =>
    intro t t' hr h
    simp only [HashMap.run, Option.some.injEq] at h
    subst h
    exact hr
  | cons op ops ih =>
    intro t t' hr h
    simp only [HashMap.run] at h
    cases hap : HashMap.apply hasher fuel t op with
    | none => rw [hap] at h; simp at h
    | some t1 =>
      rw [hap] at h
      exact ih t1 t' (reachable_apply hasher fuel t t1 op hr hap) h

end

section

variable {K V : Type} [DecidableEq K] [DecidableEq V] [Inhabited K] [Inhabited V]

/-- C10 (as amended). After an `erase` call on a reachable table: if the key
was absent the table is unchanged; if the key was present, either the shrink
was not triggered, the capacity is unchanged and `size_ ≥ capacity / 8`, or
the shrink was triggered (`size_ < capacity / 8` after the decrement),
`log_capacity_` was at least 3 and has gone down by exactly one. -/
theorem C10_erase_load (hasher : K → Nat) (t t' : HashMap K V) (k : K) (fuel : Nat)
    (hr : HashMap.Reachable hasher t) (h : HashMap.erase hasher fuel t k = some t') :
    (¬ t.contains k → t' = t) ∧
    (t.contains k →
      (t'.log_capacity_ = t.log_capacity_ ∧ t'.capacity / 8 ≤ t'.size_) ∨
      (t'.log_capacity_ + 1 = t.log_capacity_ ∧ 3 ≤ t.log_capacity_ ∧
        t'.size_ < t.capacity / 8)) := by
  have hinv := (reachable_inv hasher t hr).1
  constructor
  · intro hc
    rw [erase_absent_spec hasher fuel t hinv k hc] at h
    simp only [Option.some.injEq] at h
    exact h.symm
  · intro hc
    obtain ⟨_, _, _, _, h5⟩ := (erase_present_spec hasher fuel t hinv k hc).1 t' h
    rcases h5 with ⟨h6, h7⟩ | ⟨h6, h7, h8⟩
    · left
      exact ⟨h6, by simp only [HashMap.capacity, h6]; exact h7⟩
    · right
      exact ⟨h6, h7, h8⟩

/-! ## Examples -/

theorem sample_run :
    HashMap.run id_hasher 1 [Op.insert (1, 10), Op.insert (2, 20), Op.insert (3, 30)] HashMap.new
      = some sample := by
  rw [run_cons _ _ _ _ _ (table 1 1 [0, 2] [(0, 0), (1, 10)] 1) (by decide)]
  rw [run_cons _ _ _ _ _ (table 2 2 [0, 2, 3] [(0, 0), (1, 10), (2, 20)] 2) (by decide)]
  rw [run_cons _ _ _ _ _ sample (by decide)]
  rfl

theorem sample_reachable : HashMap.Reachable id_hasher sample :=
  reachable_run id_hasher 1 _ _ _ HashMap.Reachable.new sample_run

theorem small_reachable : HashMap.Reachable id_hasher small := by
  refine reachable_run id_hasher 1 [Op.insert (1, 10), Op.insert (2, 20)] _ _
    HashMap.Reachable.new ?_
  rw [run_cons _ _ _ _ _ (table 1 1 [0, 2] [(0, 0), (1, 10)] 1) (by decide)]
  rw [run_cons _ _ _ _ _ small (by decide)]
  rfl

theorem lonely_reachable : HashMap.Reachable id_hasher lonely := by
  refine reachable_run id_hasher 1 [Op.erase 1, Op.erase 2] _ _ sample_reachable ?_
  rw [run_cons _ _ _ _ _ (table 2 3 [0, 255, 3, 4] [(0, 0), (1, 10), (2, 20), (3, 30)] 3)
    (by decide)]
  rw [run_cons _ _ _ _ _ lonely (by decide)]
  rfl

/-- The table after eight insertions, six erasures and one more insertion. -/
theorem sparse_run :
    HashMap.run id_hasher 1
      [Op.insert (0, 0), Op.insert (1, 1), Op.insert (2, 2), Op.insert (3, 3), Op.insert (4, 4),
       Op.insert (5, 5), Op.insert (6, 6), Op.insert (7, 7), Op.erase 0, Op.erase 1, Op.erase 2,
       Op.erase 3, Op.erase 4, Op.erase 5, Op.insert (100, 1)] HashMap.new
      = some (table 3 5 [0, 0, 0, 0, 101, 0, 7, 8]
          [(0, 0), (0, 0), (0, 0), (0, 0), (100, 1), (0, 0), (6, 6), (7, 7)] 9) := by
  rw [run_cons _ _ _ _ _ (table 1 1 [1] [] 1) (by decide)]
  rw [run_cons _ _ _ _ _ (table 2 2 [1, 2] [(0, 0), (1, 1)] 2) (by decide)]
  rw [run_cons _ _ _ _ _ (table 3 3 [1, 2, 3] (diag8.take 3) 3) (by decide)]
  rw [run_cons _ _ _ _ _ (table 4 3 [1, 2, 3, 4] (diag8.take 4) 4) (by decide)]
  rw [run_cons _ _ _ _ _ (table 5 4 [1, 2, 3, 4, 5] (diag8.take 5) 5) (by decide)]
  rw [run_cons _ _ _ _ _ (table 6 4 [1, 2, 3, 4, 5, 6] (diag8.take 6) 6) (by decide)]
  rw [run_cons _ _ _ _ _ (table 7 4 [1, 2, 3, 4, 5, 6, 7] (diag8.take 7) 7) (by decide)]
  rw [run_cons _ _ _ _ _ (table 8 4 [1, 2, 3, 4, 5, 6, 7, 8] diag8 8) (by decide)]
  rw [run_cons _ _ _ _ _ (table 7 4 [255, 2, 3, 4, 5, 6, 7, 8] diag8 8) (by decide)]
  rw [run_cons _ _ _ _ _ (table 6 4 [255, 255, 3, 4, 5, 6, 7, 8] diag8 8) (by decide)]
  rw [run_cons _ _ _ _ _ (table 5 4 [255, 255, 255, 4, 5, 6, 7, 8] diag8 8) (by decide)]
  rw [run_cons _ _ _ _ _ (table 4 4 [255, 255, 255, 255, 5, 6, 7, 8] diag8 8) (by decide)]
  rw [run_cons _ _ _ _ _ (table 3 4 [255, 255, 255, 255, 255, 6, 7, 8] diag8 8) (by decide)]
  rw [run_cons _ _ _ _ _ (table 2 4 [255, 255, 255, 255, 255, 255, 7, 8] diag8 8) (by decide)]
  rw [run_cons _ _ _ _ _ (table 3 5 [0, 0, 0, 0, 101, 0, 7, 8]
    [(0, 0), (0, 0), (0, 0), (0, 0), (100, 1), (0, 0), (6, 6), (7, 7)] 9) (by decide)]
  rfl

/-- Counterexample to C10 as stated: after eight insertions, six erasures and one more
insertion the table has capacity 32 and size 3, and `erase(200)`, of a key
that is not there, returns it unchanged: the capacity is greater than 2 and
`size_ = 3 < 4 = capacity / 8`. -/
theorem C10_counterexample :
    ∃ t t' : HashMap Nat Nat,
      HashMap.run id_hasher 1
        [Op.insert (0, 0), Op.insert (1, 1), Op.insert (2, 2), Op.insert (3, 3),
         Op.insert (4, 4), Op.insert (5, 5), Op.insert (6, 6), Op.insert (7, 7), Op.erase 0,
         Op.erase 1, Op.erase 2, Op.erase 3, Op.erase 4, Op.erase 5, Op.insert (100, 1)]
        HashMap.new = some t ∧
      HashMap.Reachable id_hasher t ∧ HashMap.erase id_hasher 1 t 200 = some t' ∧
      2 < t'.capacity ∧ ¬ t'.capacity / 8 ≤ t'.size_ :=
  ⟨_, table 3 5 [0, 0, 0, 0, 101, 0, 7, 8]
      [(0, 0), (0, 0), (0, 0), (0, 0), (100, 1), (0, 0), (6, 6), (7, 7)] 9, sparse_run,
    reachable_run id_hasher 1 _ _ _ HashMap.Reachable.new sparse_run, by decide, by decide,
    by decide⟩

/-- Erasure on the table `lonely`: `erase(3)` triggers the shrink from
capacity 8 to capacity 4, and the size 0 is below `8 / 8`. -/
theorem C10_erase_load_witness :
    HashMap.Reachable id_hasher lonely ∧
      HashMap.erase id_hasher 1 lonely 3 = some (table 0 2 [] [] 3) ∧ lonely.contains 3 ∧
      (((table 0 2 [] [] 3).log_capacity_ = lonely.log_capacity_ ∧
          (table 0 2 [] [] 3).capacity / 8 ≤ (table 0 2 [] [] 3).size_) ∨
        ((table 0 2 [] [] 3).log_capacity_ + 1 = lonely.log_capacity_ ∧
          3 ≤ lonely.log_capacity_ ∧ (table 0 2 [] [] 3).size_ < lonely.capacity / 8)) :=
  ⟨lonely_reachable, by decide, by decide,
    (C10_erase_load id_hasher lonely _ 3 1 lonely_reachable (by decide)).2 (by decide)⟩

end

section

/-- Insertion of an absent key into the table `small`: `insert((3, 30))`
resizes it from capacity 4 to 8 and returns the table `sample`. -/
theorem C1_insert_absent_witness :
    HashMap.Reachable id_hasher small ∧ ¬ small.contains 3 ∧
    HashMap.insert id_hasher 1 small (3, 30) = some sample ∧
    ∃ t', HashMap.insert id_hasher 1 small (3, 30) = some t' ∧
      (∃ it e, HashMap.find id_hasher t' 3 = some it ∧ t'.end = some e ∧
        it.operator_eq e = false ∧ it.operator_deref = some (3, 30)) ∧
      t'.size = small.size + 1 ∧
      ∀ k', k' ≠ 3 → (t'.contains k' ↔ small.contains k') ∧
        HashMap.at id_hasher t' k' = HashMap.at id_hasher small k' :=
  ⟨small_reachable, by decide, by decide, sample, by decide,
    (C1_insert_absent id_hasher small 3 30 1 small_reachable (by decide)).1 sample
      (by decide)⟩

theorem C2_insert_present_witness :
    HashMap.Reachable id_hasher sample ∧ (2, 20) ∈ sample.entries ∧
    (HashMap.insert id_hasher 1 sample (2, 200) = some sample ∧
      HashMap.at id_hasher sample 2 = some (AtResult.value 20) ∧
      ∃ it, HashMap.find id_hasher sample 2 = some it ∧ it.operator_deref = some (2, 20)) :=
  ⟨sample_reachable, by decide,
    C2_insert_present id_hasher sample 2 20 200 1 sample_reachable (by decide)⟩

/-- Erasure of the only key of the table `lonely`: `erase(3)` shrinks it from
capacity 8 to 4. -/
theorem C3_erase_present_witness :
    HashMap.Reachable id_hasher lonely ∧ lonely.contains 3 ∧
    ∃ t', HashMap.erase id_hasher 1 lonely 3 = some t' ∧
      (∃ it e, HashMap.find id_hasher t' 3 = some it ∧ t'.end = some e ∧
        it.operator_eq e = true) ∧
      HashMap.at id_hasher t' 3 = some AtResult.out_of_range ∧
      t'.size + 1 = lonely.size ∧
      ∀ k', k' ≠ 3 → (t'.contains k' ↔ lonely.contains k') ∧
        HashMap.at id_hasher t' k' = HashMap.at id_hasher lonely k' :=
  ⟨lonely_reachable, by decide, table 0 2 [] [] 3, by decide,
    (C3_erase_present id_hasher lonely 3 1 lonely_reachable (by decide)).1 _ (by decide)⟩

theorem C4_erase_absent_witness :
    HashMap.Reachable id_hasher sample ∧ ¬ sample.contains 9 ∧
    HashMap.erase id_hasher 1 sample 9 = some sample :=
  ⟨sample_reachable, by decide,
    C4_erase_absent id_hasher sample 9 1 sample_reachable (by decide)⟩

theorem C5_at_witness :
    HashMap.Reachable id_hasher sample ∧
    ((HashMap.at id_hasher sample 2 = some AtResult.out_of_range ↔ ¬ sample.contains 2) ∧
      (∀ v, (2, v) ∈ sample.entries → HashMap.at id_hasher sample 2 = some (AtResult.value v)) ∧
      (sample.contains 2 → ∃ v, (2, v) ∈ sample.entries ∧
        HashMap.at id_hasher sample 2 = some (AtResult.value v))) :=
  ⟨sample_reachable, C5_at id_hasher sample 2 sample_reachable⟩

/-- Default insertion into the table `small`: `operator[](3)` resizes it, and
the returned slot is slot 3 of the new arrays. -/
theorem C6_operator_index_witness :
    HashMap.Reachable id_hasher small ∧ ¬ small.contains 3 ∧
    ∃ t' i, HashMap.operator_index id_hasher 1 small 3 = some (t', i) ∧
      t'.Live i (3, default) ∧ (3, default) ∈ t'.entries ∧ t'.size = small.size + 1 :=
  ⟨small_reachable, by decide,
    table 3 3 [0, 2, 3, 4] [(0, 0), (1, 10), (2, 20), (3, 0)] 3, 3, by decide,
    ((C6_operator_index id_hasher small 3 1 small_reachable).1 (by decide)).1 _ _ (by decide)⟩

theorem C7_iteration_witness :
    HashMap.Reachable id_hasher sample ∧
    (sample.traverse = some sample.live_slots ∧ sample.live_slots.length = sample.size ∧
      (∀ i, i ∈ sample.live_slots ↔ ∃ b, sample.metadata_[i]? = some b ∧ is_full b = true) ∧
      sample.live_slots.Pairwise (fun i j => i < j) ∧
      (sample.size = 0 →
        ∃ b e, sample.begin = some b ∧ sample.end = some e ∧ b.operator_eq e = true)) :=
  ⟨sample_reachable, C7_iteration id_hasher sample sample_reachable⟩

theorem C8_range_roundtrip_witness :
    HashMap.Reachable id_hasher sample ∧
    ∃ b e, sample.begin = some b ∧ sample.end = some e ∧
      (∀ fuel, ∃ n, HashMap.of_range id_hasher fuel b e = some n ∧ n.size = sample.size ∧
        (∀ kv, kv ∈ n.entries ↔ kv ∈ sample.entries) ∧
        ∀ k, HashMap.at id_hasher n k = HashMap.at id_hasher sample k) ∧
      (∀ fuel log_capacity, 0 < fuel → log_capacity ≤ 30 →
        ∃ n, HashMap.of_range_log id_hasher fuel b e log_capacity = some n ∧
          n.size = sample.size ∧ (∀ kv, kv ∈ n.entries ↔ kv ∈ sample.entries) ∧
          ∀ k, HashMap.at id_hasher n k = HashMap.at id_hasher sample k) :=
  ⟨sample_reachable, C8_range_roundtrip id_hasher sample sample_reachable⟩

theorem C9_initializer_list_witness :
    [((1 : Nat), (1 : Nat)), (2, 2), (3, 3)].length ≤ 2 ^ 29 ∧
    ∃ p t, HashMap.initializer_log_loop [((1 : Nat), (1 : Nat)), (2, 2), (3, 3)].length 65 0
        = some p ∧
      HashMap.of_initializer_list id_hasher 0 [(1, 1), (2, 2), (3, 3)] = some t ∧
      t.log_capacity_ = p + 1 ∧ 2 ≤ t.capacity ∧
      2 * [((1 : Nat), (1 : Nat)), (2, 2), (3, 3)].length ≤ t.capacity ∧
      t.metadata_.length = t.capacity ∧ t.data_.length = t.capacity :=
  ⟨by decide, C9_initializer_list id_hasher 0 [(1, 1), (2, 2), (3, 3)] (by decide)⟩

/-- The first scenario of the specification, evaluated on the code. -/
theorem sample_scenario :
    HashMap.at id_hasher sample 2 = some (AtResult.value 20) ∧ sample.size = 3 ∧
      sample.traverse = some [1, 2, 3] ∧
      HashMap.erase id_hasher 1 sample 2
        = some (table 2 3 [0, 2, 255, 4] [(0, 0), (1, 10), (2, 20), (3, 30)] 3) ∧
      HashMap.at id_hasher (table 2 3 [0, 2, 255, 4] [(0, 0), (1, 10), (2, 20), (3, 30)] 3) 2
        = some AtResult.out_of_range ∧
      HashMap.of_initializer_list id_hasher 0 [(1, 10), (2, 20), (3, 30)] = some sample := by
  refine ⟨by decide, by decide, by decide, by decide, by decide, by decide⟩

end

section

variable {K V : Type} [DecidableEq K] [DecidableEq V] [Inhabited K] [Inhabited V]

/-- The slot at offset `d` from `hash & mask` is the slot `(hash + d) % capacity`. -/
theorem pos_mask (h L d : Nat) (hL : L ≤ 64) :
    (((h % word) &&& (2 ^ L - 1)) + d) % 2 ^ L = (h + d) % 2 ^ L := by
  rw [word_mask_mod _ _ hL, Nat.mod_add_mod]

/-- `erase_generic` asks for a smaller table only from `log_capacity_ ≥ 3`. -/
theorem erase_generic_eq (rs : HashMap K V → Nat → Option (HashMap K V)) (t : HashMap K V)
    (i : Nat) (hi : i < t.metadata_.length) (hL : t.log_capacity_ ≤ 63) :
    HashMap.erase_generic rs t i
      = if t.size_ - 1 < 2 ^ t.log_capacity_ / 8 then
          rs ⟨t.size_ - 1, t.log_capacity_, t.metadata_.set i get_deleted, t.data_, t.full_⟩
            (t.log_capacity_ - 1)
        else some ⟨t.size_ - 1, t.log_capacity_, t.metadata_.set i get_deleted, t.data_,
          t.full_⟩ := by
  simp only [HashMap.erase_generic, hi, shl_ull_eq hL, Nat.shiftRight_eq_div_pow, if_true]

theorem shrink_log_ge (n L : Nat) (h : n < 2 ^ L / 8) : 3 ≤ L := by
  by_contra hc
  have : L = 0 ∨ L = 1 ∨ L = 2 := by omega
  rcases this with h0 | h0 | h0 <;> rw [h0] at h <;> simp at h

/-- C12. Every reachable table has `log_capacity_ ≥ 1`, a capacity of at least
2; on a reachable table `erase_generic` calls `resize(log_capacity_ - 1)` only
when `log_capacity_ ≥ 3`, so that the subtraction does not underflow, and the
table that an `erase` returns has `log_capacity_ ≥ 2` when it was shrunk and
`log_capacity_ ≥ 1` in every case. -/
theorem C12_capacity_floor (hasher : K → Nat) (t : HashMap K V)
    (hr : HashMap.Reachable hasher t) :
    1 ≤ t.log_capacity_ ∧ 2 ≤ t.capacity ∧
    (∀ (rs : HashMap K V → Nat → Option (HashMap K V)) (i : Nat), i < t.metadata_.length →
      HashMap.erase_generic rs t i
        = (if t.size_ - 1 < 2 ^ t.log_capacity_ / 8 then
            rs ⟨t.size_ - 1, t.log_capacity_, t.metadata_.set i get_deleted, t.data_, t.full_⟩
              (t.log_capacity_ - 1)
          else some ⟨t.size_ - 1, t.log_capacity_, t.metadata_.set i get_deleted, t.data_,
            t.full_⟩) ∧
      (t.size_ - 1 < 2 ^ t.log_capacity_ / 8 → 3 ≤ t.log_capacity_)) ∧
    (∀ fuel k t', HashMap.erase hasher fuel t k = some t' →
      1 ≤ t'.log_capacity_ ∧ 2 ≤ t'.capacity ∧
      (t'.log_capacity_ ≠ t.log_capacity_ →
        3 ≤ t.log_capacity_ ∧ t'.log_capacity_ + 1 = t.log_capacity_)) := by
  obtain ⟨hinv, hL1⟩ := reachable_inv hasher t hr
  have hcap : ∀ (u : HashMap K V), 1 ≤ u.log_capacity_ → 2 ≤ u.capacity := by
    intro u hu
    have : 2 ^ 1 ≤ 2 ^ u.log_capacity_ := Nat.pow_le_pow_right (by decide) hu
    simpa [HashMap.capacity] using this
  refine ⟨hL1, hcap t hL1, ?_, ?_⟩
  · intro rs i hi
    exact ⟨erase_generic_eq rs t i hi (by have := hinv.log_le; omega), shrink_log_ge _ _⟩
  · intro fuel k t' h
    have h1 := (erase_inv hasher fuel t t' k hinv hL1 h).2
    refine ⟨h1, hcap t' h1, ?_⟩
    intro hne
    by_cases hc : t.contains k
    · obtain ⟨_, _, _, _, h5⟩ := (erase_present_spec hasher fuel t hinv k hc).1 t' h
      rcases h5 with ⟨h6, _⟩ | ⟨h6, h7, _⟩
      · exact absurd h6 hne
      · exact ⟨h7, h6⟩
    · rw [erase_absent_spec hasher fuel t hinv k hc] at h
      simp only [Option.some.injEq] at h
      subst h
      exact absurd rfl hne

/-- Both searches return on a table that satisfies the invariant. -/
theorem find_terminates (hasher : K → Nat) (t : HashMap K V) (hinv : t.Inv hasher) (k : K) :
    (∃ r, HashMap.find_generic hasher t k = some r) ∧
      ∃ r, HashMap.find_allow_deleted_generic hasher t k = some r := by
  by_cases hc : t.contains k
  · obtain ⟨i, b, kv, hb, hf, hkv, hk⟩ := (contains_iff t k).mp hc
    have := find_present hinv.arr hinv.log_le hb hf hkv
    rw [hk] at this
    exact ⟨⟨_, this.1⟩, ⟨_, this.2⟩⟩
  · have hex := exists_empty_slot hinv.arr.len_md hinv.load_ok
    obtain ⟨⟨j, h1, _⟩, ⟨T, _, h2, _⟩⟩ :=
      find_absent hinv.arr hinv.log_le hex k ((not_contains_iff t k).mp hc)
    exact ⟨⟨_, h1⟩, ⟨_, h2⟩⟩

/-- C13. On every reachable table the number of non-empty metadata bytes is at
most `capacity / 2`, some metadata byte is empty, and `find_generic` and
`find_allow_deleted_generic` return for every key. -/
theorem C13_probe_terminates (hasher : K → Nat) (t : HashMap K V)
    (hr : HashMap.Reachable hasher t) :
    t.metadata_.countP is_used ≤ t.capacity / 2 ∧
    (∃ i : Nat, i < t.capacity ∧ t.metadata_[i]? = some get_empty) ∧
    ∀ k, (∃ r, HashMap.find_generic hasher t k = some r) ∧
      ∃ r, HashMap.find_allow_deleted_generic hasher t k = some r := by
  have hinv := (reachable_inv hasher t hr).1
  have hload := hinv.load_ok
  refine ⟨by simp only [HashMap.capacity]; omega, ?_, find_terminates hasher t hinv⟩
  obtain ⟨i, hi⟩ := exists_empty_slot hinv.arr.len_md hload
  refine ⟨i, ?_, hi⟩
  have := lt_of_getElem?_some hi
  rw [hinv.arr.len_md] at this
  exact this

/-- C14. On every reachable table, for every key `k` stored in a fingerprint
slot `s`: `s` lies at an offset `d < capacity` on the probe path that starts at
`hash(k) & mask`, and every slot of the path before `s` holds a non-empty byte,
a tombstone or a fingerprint. -/
theorem C14_probe_chain (hasher : K → Nat) (t : HashMap K V) (s : Nat) (k : K) (v : V)
    (hr : HashMap.Reachable hasher t) (hlive : t.Live s (k, v)) :
    ∃ d, d < t.capacity ∧
      (((hasher k % word) &&& (t.capacity - 1)) + d) % t.capacity = s ∧
      ∀ d', d' < d →
        ∃ b, t.metadata_[(((hasher k % word) &&& (t.capacity - 1)) + d') % t.capacity]? = some b ∧
          b ≠ get_empty ∧ (b = get_deleted ∨ is_full b = true) := by
  have hinv := (reachable_inv hasher t hr).1
  have hL : t.log_capacity_ ≤ 64 := by have := hinv.log_le; omega
  obtain ⟨b, hb, hf, hkv⟩ := hlive
  obtain ⟨d, hd, hpos, hpath⟩ := hinv.arr.chain s b (k, v) hb hf hkv
  simp only at hpos hpath
  refine ⟨d, hd, by simp only [HashMap.capacity]; rw [pos_mask _ _ _ hL]; exact hpos, ?_⟩
  intro d' hd'
  simp only [HashMap.capacity]
  rw [pos_mask _ _ _ hL]
  have hlt : (hasher k + d') % 2 ^ t.log_capacity_ < t.metadata_.length := by
    rw [hinv.arr.len_md]; exact Nat.mod_lt _ (two_pow_pos' _)
  obtain ⟨b', hb'⟩ := getElem?_some_of_lt hlt
  have hne : b' ≠ get_empty := by
    intro hc
    exact hpath d' hd' (by rw [hb', hc])
  refine ⟨b', hb', hne, ?_⟩
  by_cases hdel : b' = get_deleted
  · exact Or.inl hdel
  · right; simp [is_full, hne, hdel]

/-- C17. On a reachable table, for a key that is not stored
`find_allow_deleted_generic` returns `false` and the slot at offset `T` of the
probe path from `hash(key) & mask`, where `D` is the offset of the first empty
byte and `T ≤ D` is the offset of the first tombstone before it, if there is
one, and `T = D` otherwise; for a stored key it returns `true` and the slot
that holds the key. -/
theorem C17_find_allow_deleted (hasher : K → Nat) (t : HashMap K V) (k : K)
    (hr : HashMap.Reachable hasher t) :
    (¬ t.contains k →
      ∃ D T, D < t.capacity ∧ T ≤ D ∧
        t.metadata_[(((hasher k % word) &&& (t.capacity - 1)) + D) % t.capacity]?
          = some get_empty ∧
        (∀ d, d < D →
          t.metadata_[(((hasher k % word) &&& (t.capacity - 1)) + d) % t.capacity]?
            ≠ some get_empty) ∧
        (∀ d, d < T →
          t.metadata_[(((hasher k % word) &&& (t.capacity - 1)) + d) % t.capacity]?
            ≠ some get_deleted) ∧
        (T < D →
          t.metadata_[(((hasher k % word) &&& (t.capacity - 1)) + T) % t.capacity]?
            = some get_deleted) ∧
        HashMap.find_allow_deleted_generic hasher t k
          = some (false, (((hasher k % word) &&& (t.capacity - 1)) + T) % t.capacity)) ∧
    (∀ s v, t.Live s (k, v) →
      HashMap.find_allow_deleted_generic hasher t k = some (true, s)) := by
  have hinv := (reachable_inv hasher t hr).1
  have hL : t.log_capacity_ ≤ 64 := by have := hinv.log_le; omega
  constructor
  · intro hc
    have habs := (not_contains_iff t k).mp hc
    have hex := exists_empty_slot hinv.arr.len_md hinv.load_ok
    obtain ⟨D, hD, hemp, hpath⟩ := first_empty_offset hinv.arr.len_md (hasher k) hex
    have hpass := pass_of hinv.arr k D hpath (by
      intro d _ b' kv' hb' hf' hkv'
      exact habs _ _ _ hb' hf' hkv')
    have hbd := first_tombstone_bounds t.metadata_ (2 ^ t.log_capacity_) (hasher k) D 0
    have hsp := first_tombstone_spec t.metadata_ (2 ^ t.log_capacity_) (hasher k) D 0
    have hmin := first_tombstone_min t.metadata_ (2 ^ t.log_capacity_) (hasher k) D 0
    refine ⟨D, first_tombstone t.metadata_ (2 ^ t.log_capacity_) (hasher k) D 0, hD, by omega,
      ?_, ?_, ?_, ?_, ?_⟩
    · simp only [HashMap.capacity]; rw [pos_mask _ _ _ hL]; exact hemp
    · intro d hd
      simp only [HashMap.capacity]; rw [pos_mask _ _ _ hL]; exact hpath d hd
    · intro d hd
      simp only [HashMap.capacity]; rw [pos_mask _ _ _ hL]
      exact hmin d (Nat.zero_le _) hd
    · intro hlt
      simp only [HashMap.capacity]; rw [pos_mask _ _ _ hL]
      rcases hsp with h1 | h1
      · omega
      · exact h1
    · simp only [HashMap.capacity]; rw [pos_mask _ _ _ hL]
      exact find_allow_deleted_generic_absent_spec hasher t k D hinv.log_le hD hpass hemp
  · rintro s v ⟨b, hb, hf, hkv⟩
    exact (find_present hinv.arr hinv.log_le hb hf hkv).2

end

section

variable {K V : Type} [DecidableEq K] [DecidableEq V] [Inhabited K] [Inhabited V]

/-! ## `Rider::next` in an arbitrary mode -/

/-- A round of `Rider::next` on a byte that the mode accepts returns. -/
theorem next_loop_accept {md : List Nat} {cap fp p f b c mode : Nat} {r : Rider}
    (h : RiderAt md cap fp p r) (hb : md[p]? = some b) (hc : category mode fp b = some c) :
    Rider.next_loop mode (f + 1) r = some ({ r with current_hash_ := p }, (p, c)) := by
  obtain ⟨h1, _, h3, h4⟩ := h
  unfold category at hc
  unfold Rider.next_loop
  simp only [h4, h1, hb, h3]
  split_ifs at hc ⊢ <;> simp_all

/-- A round of `Rider::next` on a byte that the mode does not accept goes on. -/
theorem next_loop_reject {md : List Nat} {cap fp p f b mode : Nat} {r : Rider}
    (h : RiderAt md cap fp p r) (hb : md[p]? = some b) (hc : category mode fp b = none) :
    Rider.next_loop mode (f + 1) r = Rider.next_loop mode f { r with current_hash_ := p } := by
  obtain ⟨h1, _, h3, h4⟩ := h
  unfold category at hc
  conv_lhs => unfold Rider.next_loop
  simp only [h4, h1, hb, h3]
  split_ifs at hc ⊢ <;> simp_all

/-- The category that `Rider::next` returns is one that the mode accepts. -/
theorem accepts_of_category {mode fp b c : Nat} (h : category mode fp b = some c) :
    Accepts mode fp b c := by
  unfold category at h
  unfold Accepts
  split_ifs at h with h1 h2 h3 h4 h5 h6 <;> simp only [Option.some.injEq] at h <;>
    subst h
  · exact Or.inl ⟨h1, h2, rfl⟩
  · exact Or.inr (Or.inl ⟨h3, h4, rfl⟩)
  · exact Or.inr (Or.inr (Or.inl ⟨by simp [is_full, h1, h3], h5, rfl⟩))
  · exact Or.inr (Or.inr (Or.inr ⟨h6.2, h6.1, rfl⟩))

/-- A byte on which `Rider::next` goes on is accepted in no category, when the
fingerprint of the rider is a fingerprint byte. -/
theorem not_accepts_of_category {mode fp b : Nat} (hfp : is_full fp = true)
    (h : category mode fp b = none) (c : Nat) : ¬ Accepts mode fp b c := by
  unfold category at h
  simp only [is_full, Bool.and_eq_true, bne_iff_ne, ne_eq] at hfp
  rintro (⟨h1, h2, _⟩ | ⟨h1, h2, _⟩ | ⟨h1, h2, _⟩ | ⟨h1, h2, _⟩)
  · rw [if_pos h1, if_pos h2] at h
    exact absurd h (by simp)
  · have e1 : ¬ (b = get_empty) := by rw [h1]; decide
    rw [if_neg e1, if_pos h1, if_pos h2] at h
    exact absurd h (by simp)
  · simp only [is_full, Bool.and_eq_true, bne_iff_ne, ne_eq] at h1
    rw [if_neg h1.1, if_neg h1.2, if_pos h2] at h
    exact absurd h (by simp)
  · have e1 : ¬ (b = get_empty) := h1 ▸ hfp.1
    have e2 : ¬ (b = get_deleted) := h1 ▸ hfp.2
    rw [if_neg e1, if_neg e2] at h
    split_ifs at h with h3 h4
    exact h4 ⟨h2, h1⟩

/-- The probe of `Rider::next`: the slots at offsets `e .. D - 1` are passed
over and the slot at offset `D` is returned with its category. -/
theorem next_loop_spec (md : List Nat) (L s fp mode D b c : Nat) (hL : L ≤ 64)
    (hpass : ∀ d, d < D → ∃ b', md[(s + d) % 2 ^ L]? = some b' ∧ category mode fp b' = none)
    (hb : md[(s + D) % 2 ^ L]? = some b) (hc : category mode fp b = some c) :
    ∀ k e f r, D - e = k → e ≤ D → D - e < f →
      RiderAt md (2 ^ L) fp ((s + e) % 2 ^ L) r →
      Rider.next_loop mode f r
        = some ({ r with current_hash_ := (s + D) % 2 ^ L }, ((s + D) % 2 ^ L, c)) := by
  intro k
  induction k with
  | zero =>
    intro e f r hk he hf hr
    have heD : e = D := by omega
    subst heD
    obtain ⟨f', rfl⟩ : ∃ f', f = f' + 1 := ⟨f - 1, by omega⟩
    rw [next_loop_accept hr hb hc]
  | succ k ih =>
    intro e f r hk he hf hr
    obtain ⟨f', rfl⟩ : ∃ f', f = f' + 1 := ⟨f - 1, by omega⟩
    obtain ⟨b', hb', hnf⟩ := hpass e (by omega)
    have hr' := riderAt_step hL hr
    rw [pos_succ] at hr'
    rw [next_loop_reject hr hb' hnf]
    exact ih (e + 1) f' _ (by omega) (by omega) (by omega) hr'

/-- The first offset from `s` whose byte the mode accepts. -/
theorem first_accept_offset {md : List Nat} {L : Nat} (hlen : 2 ^ L ≤ md.length)
    (mode fp s : Nat)
    (hex : ∃ (i b c : Nat), i < 2 ^ L ∧ md[i]? = some b ∧ category mode fp b = some c) :
    ∃ D b c, D < 2 ^ L ∧ md[(s + D) % 2 ^ L]? = some b ∧ category mode fp b = some c ∧
      ∀ d, d < D → ∃ b', md[(s + d) % 2 ^ L]? = some b' ∧ category mode fp b' = none := by
  classical
  obtain ⟨i, b, c, hil, hi, hf⟩ := hex
  obtain ⟨d0, hd0, hp0⟩ := pos_surj s hil
  have hex' : ∃ d, d < 2 ^ L ∧ ∃ b c, md[(s + d) % 2 ^ L]? = some b ∧
      category mode fp b = some c := ⟨d0, hd0, b, c, by rw [hp0]; exact hi, hf⟩
  obtain ⟨hD, b1, c1, hb1, hc1⟩ := Nat.find_spec hex'
  refine ⟨Nat.find hex', b1, c1, hD, hb1, hc1, ?_⟩
  intro d hd
  have hlt : (s + d) % 2 ^ L < md.length :=
    lt_of_lt_of_le (Nat.mod_lt _ (two_pow_pos' L)) hlen
  obtain ⟨b', hb'⟩ := getElem?_some_of_lt hlt
  refine ⟨b', hb', ?_⟩
  cases hcat : category mode fp b' with
  | none => rfl
  | some c' =>
    exact absurd ⟨lt_trans hd hD, b', c', hb', hcat⟩ (Nat.find_min hex' hd)

/-- The constructor of the rider wraps: the first slot examined is `hash & mask`. -/
theorem start_wrap_any (h L : Nat) (hL : L ≤ 64) :
    (((h + word - 1) % word + 1) % word) &&& (2 ^ L - 1) = h % 2 ^ L := by
  have hw : 0 < word := by decide
  have e : (h + word - 1) % word = (h % word + word - 1) % word := by
    have e1 : h + word - 1 = h + (word - 1) := by omega
    have e2 : h % word + word - 1 = h % word + (word - 1) := by omega
    rw [e1, e2, Nat.mod_add_mod]
  rw [e, start_wrap h L hL]

/-- A call of `next` on a rider over `md` whose cursor is `cur`. -/
theorem rider_next_from (md : List Nat) (L fp mode s : Nat) (r : Rider) (hL : L ≤ 64)
    (hlen : 2 ^ L ≤ md.length) (hfp : is_full fp = true)
    (hex : ∃ (i b c : Nat), i < 2 ^ L ∧ md[i]? = some b ∧ category mode fp b = some c)
    (hr : RiderAt md (2 ^ L) fp (s % 2 ^ L) r) :
    ∃ D b c, D < 2 ^ L ∧
      md[(s + D) &&& (2 ^ L - 1)]? = some b ∧
      category mode fp b = some c ∧ Accepts mode fp b c ∧
      (∀ d, d < D → ∃ b', md[(s + d) &&& (2 ^ L - 1)]? = some b' ∧
        ∀ c', ¬ Accepts mode fp b' c') ∧
      Rider.next mode r
        = some ({ r with current_hash_ := (s + D) &&& (2 ^ L - 1) },
            ((s + D) &&& (2 ^ L - 1), c)) := by
  obtain ⟨D, b, c, hD, hb, hc, hpass⟩ := first_accept_offset hlen mode fp s hex
  simp only [Nat.and_pow_two_sub_one_eq_mod]
  refine ⟨D, b, c, hD, hb, hc, accepts_of_category hc, ?_, ?_⟩
  · intro d hd
    obtain ⟨b', hb', hc'⟩ := hpass d hd
    exact ⟨b', hb', not_accepts_of_category hfp hc'⟩
  · unfold Rider.next
    rw [riderAt_mask hr]
    exact next_loop_spec md L s fp mode D b c hL hpass hb hc D 0 (2 ^ L) r (by omega)
      (Nat.zero_le _) (by omega) (by simpa using hr)

/-- C18. For a metadata array with at least `2 ^ L` bytes, `L ≤ 64`, the mask
`2 ^ L - 1`, a start hash `h` and a mode such that some slot below `2 ^ L`
holds a byte with a category in the mode: the first call of `next` on
`Rider(metadata, h, mask)` returns `(i, c)` where `i = (h + D) & mask` is the
first index of the sequence `h & mask, (h + 1) & mask, …` whose byte the mode
accepts and `c` is the category the `switch` gives it; the rider is left with
its cursor on `i`. A call on the rider with its cursor at `cur` returns in the
same way the first accepted index of `(cur + 1) & mask, (cur + 2) & mask, …`. -/
theorem C18_rider_next (md : List Nat) (L h mode : Nat) (hL : L ≤ 64)
    (hlen : 2 ^ L ≤ md.length)
    (hex : ∃ (i b c : Nat), i < 2 ^ L ∧ md[i]? = some b ∧
      category mode (get_hash h) b = some c) :
    (∃ D b c, D < 2 ^ L ∧
      md[(h + D) &&& (2 ^ L - 1)]? = some b ∧
      category mode (get_hash h) b = some c ∧ Accepts mode (get_hash h) b c ∧
      (∀ d, d < D → ∃ b', md[(h + d) &&& (2 ^ L - 1)]? = some b' ∧
        ∀ c', ¬ Accepts mode (get_hash h) b' c') ∧
      Rider.next mode (Rider.new md h (2 ^ L - 1))
        = some (⟨md, 2 ^ L - 1, get_hash h, (h + D) &&& (2 ^ L - 1)⟩,
            ((h + D) &&& (2 ^ L - 1), c))) ∧
    ∀ cur : Nat,
      ∃ D b c, D < 2 ^ L ∧
        md[(cur + 1 + D) &&& (2 ^ L - 1)]? = some b ∧
        category mode (get_hash h) b = some c ∧ Accepts mode (get_hash h) b c ∧
        (∀ d, d < D → ∃ b', md[(cur + 1 + d) &&& (2 ^ L - 1)]? = some b' ∧
          ∀ c', ¬ Accepts mode (get_hash h) b' c') ∧
        Rider.next mode ⟨md, 2 ^ L - 1, get_hash h, cur⟩
          = some (⟨md, 2 ^ L - 1, get_hash h, (cur + 1 + D) &&& (2 ^ L - 1)⟩,
              ((cur + 1 + D) &&& (2 ^ L - 1), c)) := by
  constructor
  · exact rider_next_from md L (get_hash h) mode h (Rider.new md h (2 ^ L - 1)) hL hlen
      (get_hash_full h) hex ⟨rfl, rfl, rfl, start_wrap_any h L hL⟩
  · intro cur
    exact rider_next_from md L (get_hash h) mode (cur + 1) ⟨md, 2 ^ L - 1, get_hash h, cur⟩ hL
      hlen (get_hash_full h) hex ⟨rfl, rfl, rfl, word_mask_mod _ _ hL⟩

end

section

variable {K V : Type} [DecidableEq K] [DecidableEq V] [Inhabited K] [Inhabited V]

/-! ## The fingerprint byte -/

theorem and_127_le (h : Nat) : h &&& 127 ≤ 127 := Nat.and_le_right

theorem get_hash_eq (h : Nat) : get_hash h = (h &&& 127) + 1 := by
  have := and_127_le h
  unfold get_hash
  omega

/-- C19. For every hash `h`, `get_hash(h) = (h & 0x7F) + 1`, and this byte is
neither `get_empty() = 0` nor `get_deleted() = 0xFF`. -/
theorem C19_get_hash (h : Nat) :
    get_hash h = (h &&& 127) + 1 ∧ get_empty = 0 ∧ get_deleted = 255 ∧
      get_hash h ≠ get_empty ∧ get_hash h ≠ get_deleted := by
  have := and_127_le h
  refine ⟨get_hash_eq h, rfl, rfl, ?_, ?_⟩ <;> rw [get_hash_eq] <;>
    simp only [get_empty, get_deleted] <;> omega

/-- Counterexample to C20 as stated: the hash `127` has the fingerprint byte
`128`, which is outside `1..=127` and has bit 7 set. -/
theorem C20_counterexample :
    127 < word ∧ get_hash 127 = 128 ∧ ¬ (1 ≤ get_hash 127 ∧ get_hash 127 ≤ 127) ∧
      get_hash 127 &&& 128 ≠ 0 := by decide

/-- C20 (amended). For every hash `h` the fingerprint byte `get_hash(h)` lies
in `1..=128`; it is `128`, with bit 7 set and the low seven bits clear, exactly
when `h & 0x7F = 127`, and otherwise it lies in `1..=127`, fits in the low
seven bits and has bit 7 clear. -/
theorem C20_get_hash_range (h : Nat) :
    1 ≤ get_hash h ∧ get_hash h ≤ 128 ∧
    (get_hash h = 128 ↔ h &&& 127 = 127) ∧
    (h &&& 127 = 127 → get_hash h &&& 128 = 128 ∧ get_hash h &&& 127 = 0) ∧
    (h &&& 127 ≠ 127 →
      get_hash h ≤ 127 ∧ get_hash h &&& 127 = get_hash h ∧ get_hash h &&& 128 = 0) := by
  have hle := and_127_le h
  have hlow : ∀ x, x < 128 → x &&& 127 = x ∧ x &&& 128 = 0 := by decide
  rw [get_hash_eq]
  refine ⟨by omega, by omega, by omega, ?_, ?_⟩
  · intro h1
    rw [h1]
    decide
  · intro h1
    have h2 : (h &&& 127) + 1 < 128 := by omega
    exact ⟨by omega, (hlow _ h2).1, (hlow _ h2).2⟩

/-! ## The counter `full_` -/

/-- `resize` returns a table with the `full_` of the table it was called on. -/
theorem resize_full (hasher : K → Nat) (fuel : Nat) (t t' : HashMap K V) (n : Nat)
    (h : HashMap.resize hasher fuel t n = some t') : t'.full_ = t.full_ := by
  cases fuel with
  | zero => simp [HashMap.resize] at h
  | succ f =>
    simp only [HashMap.resize, HashMap.resize_with] at h
    split at h
    · split at h
      · exact absurd h (by simp)
      · simp only [Option.some.injEq] at h
        rw [← h]
    · exact absurd h (by simp)

/-- C11 at a failing input: after `insert((0, 0))`, `erase(0)`, four times, the
call `insert((0, 0))` returns a table of capacity 8 with one entry whose
`full_` is 5, more than `capacity / 2 = 4`. -/
theorem C11_full_exceeds_half :
    ∃ t : HashMap Nat Nat,
      HashMap.run id_hasher 1
        [Op.insert (0, 0), Op.erase 0, Op.insert (0, 0), Op.erase 0, Op.insert (0, 0),
         Op.erase 0, Op.insert (0, 0), Op.erase 0] HashMap.new = some t ∧
      HashMap.Reachable id_hasher t ∧
      HashMap.insert id_hasher 1 t (0, 0) = some (table 1 3 [1] [] 5) ∧
      (table 1 3 [1] [] 5).capacity = 8 ∧ (table 1 3 [1] [] 5).size_ = 1 ∧
      (table 1 3 [1] [] 5).full_ = 5 ∧
      ¬ (table 1 3 [1] [] 5).full_ ≤ (table 1 3 [1] [] 5).capacity / 2 := by
  have hrun : HashMap.run id_hasher 1
      [Op.insert (0, 0), Op.erase 0, Op.insert (0, 0), Op.erase 0, Op.insert (0, 0),
       Op.erase 0, Op.insert (0, 0), Op.erase 0] HashMap.new = some (table 0 2 [] [] 4) := by
    rw [run_cons _ _ _ _ _ (table 1 1 [1] [] 1) (by decide)]
    rw [run_cons _ _ _ _ _ (table 0 1 [255] [] 1) (by decide)]
    rw [run_cons _ _ _ _ _ (table 1 2 [1] [] 2) (by decide)]
    rw [run_cons _ _ _ _ _ (table 0 2 [255] [] 2) (by decide)]
    rw [run_cons _ _ _ _ _ (table 1 3 [1] [] 3) (by decide)]
    rw [run_cons _ _ _ _ _ (table 0 2 [] [] 3) (by decide)]
    rw [run_cons _ _ _ _ _ (table 1 3 [1] [] 4) (by decide)]
    rw [run_cons _ _ _ _ _ (table 0 2 [] [] 4) (by decide)]
    rfl
  exact ⟨_, hrun, reachable_run id_hasher 1 _ _ _ HashMap.Reachable.new hrun, by decide,
    by decide, by decide, by decide, by decide⟩

/-- C15 at a failing input: `erase(3)` on the table `lonely` (capacity 8, one
entry, two tombstones, `full_ = 3`) writes the tombstone and calls `resize(2)`;
the table that `resize` returns has `size_ = 0`, no tombstone, and
`full_ = 3`. -/
theorem C15_resize_keeps_full :
    HashMap.Reachable id_hasher lonely ∧
    HashMap.find_generic id_hasher lonely 3 = some (true, 3) ∧
    HashMap.erase_generic (HashMap.resize id_hasher 1) lonely 3
      = HashMap.resize id_hasher 1
          (table 0 3 [0, 255, 255, 255] [(0, 0), (1, 10), (2, 20), (3, 30)] 3) 2 ∧
    HashMap.resize id_hasher 1
        (table 0 3 [0, 255, 255, 255] [(0, 0), (1, 10), (2, 20), (3, 30)] 3) 2
      = some (table 0 2 [] [] 3) ∧
    (table 0 2 [] [] 3).size_ = 0 ∧ (table 0 2 [] [] 3).full_ = 3 ∧
    (table 0 2 [] [] 3).metadata_.countP is_used = 0 ∧
    (table 0 2 [] [] 3).full_ ≠ (table 0 2 [] [] 3).size_ :=
  ⟨lonely_reachable, by decide, by decide, by decide, by decide, by decide, by decide,
    by decide⟩

/-- Counterexample to C16 as stated: after `insert((1, 10))`, `insert((2, 20))`,
`insert((3, 30))`, `erase(1)`, the call `insert((1, 10))` writes into the
tombstone of slot 1 and raises `full_` to 4, while three metadata bytes are
not empty. -/
theorem C16_counterexample :
    ∃ t : HashMap Nat Nat,
      HashMap.run id_hasher 1
        [Op.insert (1, 10), Op.insert (2, 20), Op.insert (3, 30), Op.erase 1,
         Op.insert (1, 10)] HashMap.new = some t ∧
      HashMap.Reachable id_hasher t ∧ t.full_ = 4 ∧ t.metadata_.countP is_used = 3 ∧
      t.full_ ≠ t.metadata_.countP is_used := by
  have hrun : HashMap.run id_hasher 1
      [Op.insert (1, 10), Op.insert (2, 20), Op.insert (3, 30), Op.erase 1,
       Op.insert (1, 10)] HashMap.new
      = some (table 3 3 [0, 2, 3, 4] [(0, 0), (1, 10), (2, 20), (3, 30)] 4) := by
    rw [run_cons _ _ _ _ _ (table 1 1 [0, 2] [(0, 0), (1, 10)] 1) (by decide)]
    rw [run_cons _ _ _ _ _ (table 2 2 [0, 2, 3] [(0, 0), (1, 10), (2, 20)] 2) (by decide)]
    rw [run_cons _ _ _ _ _ sample (by decide)]
    rw [run_cons _ _ _ _ _ (table 2 3 [0, 255, 3, 4] [(0, 0), (1, 10), (2, 20), (3, 30)] 3)
      (by decide)]
    rw [run_cons _ _ _ _ _ (table 3 3 [0, 2, 3, 4] [(0, 0), (1, 10), (2, 20), (3, 30)] 4)
      (by decide)]
    rfl
  exact ⟨_, hrun, reachable_run id_hasher 1 _ _ _ HashMap.Reachable.new hrun, by decide,
    by decide, by decide⟩

/-- C16 (amended). On every table reached from a default-constructed table by
`insert`, `erase`, `operator[]` and `clear`, the number of metadata bytes that
are not empty (fingerprints and tombstones) is at most `full_`. -/
theorem C16_fill_bound (hasher : K → Nat) (t : HashMap K V)
    (hr : HashMap.Reachable hasher t) : t.metadata_.countP is_used ≤ t.full_ :=
  (reachable_inv hasher t hr).1.fill_ok

end

section

/-! ## Examples on the table `crowded` -/

theorem crowded_reachable : HashMap.Reachable id_hasher crowded := by
  refine reachable_run id_hasher 1 [Op.insert (9, 90), Op.erase 2] _ _ sample_reachable ?_
  rw [run_cons _ _ _ _ _
    (table 4 3 [0, 2, 3, 4, 10] [(0, 0), (1, 10), (2, 20), (3, 30), (9, 90)] 4) (by decide)]
  rw [run_cons _ _ _ _ _ crowded (by decide)]
  rfl

/-- The floor of the capacity on the table `lonely`: `erase(3)` shrinks it
from `log_capacity_ = 3` to `log_capacity_ = 2`. -/
theorem C12_capacity_floor_witness :
    HashMap.Reachable id_hasher lonely ∧
    HashMap.erase id_hasher 1 lonely 3 = some (table 0 2 [] [] 3) ∧
    (1 ≤ lonely.log_capacity_ ∧ 2 ≤ lonely.capacity) ∧
    (1 ≤ (table 0 2 [] [] 3).log_capacity_ ∧ 2 ≤ (table 0 2 [] [] 3).capacity ∧
      ((table 0 2 [] [] 3).log_capacity_ ≠ lonely.log_capacity_ →
        3 ≤ lonely.log_capacity_ ∧
          (table 0 2 [] [] 3).log_capacity_ + 1 = lonely.log_capacity_)) :=
  ⟨lonely_reachable, by decide,
    ⟨(C12_capacity_floor id_hasher lonely lonely_reachable).1,
      (C12_capacity_floor id_hasher lonely lonely_reachable).2.1⟩,
    (C12_capacity_floor id_hasher lonely lonely_reachable).2.2.2 1 3 _ (by decide)⟩

theorem C13_probe_terminates_witness :
    HashMap.Reachable id_hasher crowded ∧
    (crowded.metadata_.countP is_used ≤ crowded.capacity / 2 ∧
      (∃ i : Nat, i < crowded.capacity ∧ crowded.metadata_[i]? = some get_empty) ∧
      ∀ k, (∃ r, HashMap.find_generic id_hasher crowded k = some r) ∧
        ∃ r, HashMap.find_allow_deleted_generic id_hasher crowded k = some r) :=
  ⟨crowded_reachable, C13_probe_terminates id_hasher crowded crowded_reachable⟩

/-- The probe path of the key 9 of the table `crowded`: it starts at slot 1
and reaches the key in slot 4. -/
theorem C14_probe_chain_witness :
    HashMap.Reachable id_hasher crowded ∧ crowded.Live 4 (9, 90) ∧
    ∃ d, d < crowded.capacity ∧
      (((id_hasher 9 % word) &&& (crowded.capacity - 1)) + d) % crowded.capacity = 4 ∧
      ∀ d', d' < d →
        ∃ b, crowded.metadata_[(((id_hasher 9 % word) &&& (crowded.capacity - 1)) + d')
            % crowded.capacity]? = some b ∧
          b ≠ get_empty ∧ (b = get_deleted ∨ is_full b = true) :=
  ⟨crowded_reachable, ⟨10, by decide, by decide, by decide⟩,
    C14_probe_chain id_hasher crowded 4 9 90 crowded_reachable
      ⟨10, by decide, by decide, by decide⟩⟩

theorem C16_fill_bound_witness :
    HashMap.Reachable id_hasher crowded ∧
      crowded.metadata_.countP is_used ≤ crowded.full_ :=
  ⟨crowded_reachable, C16_fill_bound id_hasher crowded crowded_reachable⟩

/-- The search for insertion on the table `crowded`: the key 17 is absent, its
path starts at slot 1 and the tombstone of slot 2 is returned; the key 9 is
found in slot 4. -/
theorem C17_find_allow_deleted_witness :
    HashMap.Reachable id_hasher crowded ∧ ¬ crowded.contains 17 ∧
    HashMap.find_allow_deleted_generic id_hasher crowded 17 = some (false, 2) ∧
    (∃ D T, D < crowded.capacity ∧ T ≤ D ∧
      crowded.metadata_[(((id_hasher 17 % word) &&& (crowded.capacity - 1)) + D)
          % crowded.capacity]? = some get_empty ∧
      (∀ d, d < D →
        crowded.metadata_[(((id_hasher 17 % word) &&& (crowded.capacity - 1)) + d)
            % crowded.capacity]? ≠ some get_empty) ∧
      (∀ d, d < T →
        crowded.metadata_[(((id_hasher 17 % word) &&& (crowded.capacity - 1)) + d)
            % crowded.capacity]? ≠ some get_deleted) ∧
      (T < D →
        crowded.metadata_[(((id_hasher 17 % word) &&& (crowded.capacity - 1)) + T)
            % crowded.capacity]? = some get_deleted) ∧
      HashMap.find_allow_deleted_generic id_hasher crowded 17
        = some (false, (((id_hasher 17 % word) &&& (crowded.capacity - 1)) + T)
            % crowded.capacity)) ∧
    crowded.Live 4 (9, 90) ∧
    HashMap.find_allow_deleted_generic id_hasher crowded 9 = some (true, 4) :=
  ⟨crowded_reachable, by decide, by decide,
    (C17_find_allow_deleted id_hasher crowded 17 crowded_reachable).1 (by decide),
    ⟨10, by decide, by decide, by decide⟩,
    (C17_find_allow_deleted id_hasher crowded 9 crowded_reachable).2 4 90
      ⟨10, by decide, by decide, by decide⟩⟩

/-- The rider of mode `mode_hash | mode_deleted` on the metadata of the table
`crowded` with start hash 0: the constructor wraps the cursor to `2 ^ 64 - 1`,
the first call passes over the empty slot 0 and the fingerprint of slot 1 and
returns the tombstone of slot 2. -/
theorem C18_rider_next_witness :
    3 ≤ 64 ∧ 2 ^ 3 ≤ crowded.metadata_.length ∧
    (∃ (i b c : Nat), i < 2 ^ 3 ∧ crowded.metadata_[i]? = some b ∧
      category 10 (get_hash 0) b = some c) ∧
    (Rider.new crowded.metadata_ 0 (2 ^ 3 - 1)).current_hash_ = 2 ^ 64 - 1 ∧
    Rider.next 10 (Rider.new crowded.metadata_ 0 (2 ^ 3 - 1))
      = some (⟨crowded.metadata_, 7, 1, 2⟩, (2, mode_deleted)) ∧
    ((∃ D b c, D < 2 ^ 3 ∧
      crowded.metadata_[(0 + D) &&& (2 ^ 3 - 1)]? = some b ∧
      category 10 (get_hash 0) b = some c ∧ Accepts 10 (get_hash 0) b c ∧
      (∀ d, d < D → ∃ b', crowded.metadata_[(0 + d) &&& (2 ^ 3 - 1)]? = some b' ∧
        ∀ c', ¬ Accepts 10 (get_hash 0) b' c') ∧
      Rider.next 10 (Rider.new crowded.metadata_ 0 (2 ^ 3 - 1))
        = some (⟨crowded.metadata_, 2 ^ 3 - 1, get_hash 0, (0 + D) &&& (2 ^ 3 - 1)⟩,
            ((0 + D) &&& (2 ^ 3 - 1), c))) ∧
    ∀ cur : Nat,
      ∃ D b c, D < 2 ^ 3 ∧
        crowded.metadata_[(cur + 1 + D) &&& (2 ^ 3 - 1)]? = some b ∧
        category 10 (get_hash 0) b = some c ∧ Accepts 10 (get_hash 0) b c ∧
        (∀ d, d < D → ∃ b', crowded.metadata_[(cur + 1 + d) &&& (2 ^ 3 - 1)]? = some b' ∧
          ∀ c', ¬ Accepts 10 (get_hash 0) b' c') ∧
        Rider.next 10 ⟨crowded.metadata_, 2 ^ 3 - 1, get_hash 0, cur⟩
          = some (⟨crowded.metadata_, 2 ^ 3 - 1, get_hash 0, (cur + 1 + D) &&& (2 ^ 3 - 1)⟩,
              ((cur + 1 + D) &&& (2 ^ 3 - 1), c))) :=
  ⟨by decide, by decide, ⟨2, 255, 8, by decide, by decide, by decide⟩, by decide, by decide,
    C18_rider_next crowded.metadata_ 3 0 10 (by decide) (by decide)
      ⟨2, 255, 8, by decide, by decide, by decide⟩⟩

end

section

variable {K V : Type} [DecidableEq K] [DecidableEq V] [Inhabited K] [Inhabited V]

/-! ## The copy constructor and `operator=` -/

/-- The copying loop, started with the first `i` slots already copied, returns
the arrays of `other`. -/
theorem copy_slots_spec (other : HashMap K V) (N : Nat)
    (hmd : other.metadata_.length = N) (hdata : other.data_.length = N) :
    ∀ (n i : Nat) (md : List Nat) (data : List (K × V)), i + n = N →
      md.length = N → data.length = N →
      (∀ j, j < i → md[j]? = other.metadata_[j]?) →
      (∀ j, j < i → data[j]? = other.data_[j]?) →
      HashMap.copy_slots other n i md data = some (other.metadata_, other.data_) := by
  intro n
  induction n with
  | zero =>
    intro i md data hi hl1 hl2 h1 h2
    have hiN : i = N := by omega
    have e1 : md = other.metadata_ := by
      apply List.ext_getElem?
      intro j
      by_cases hj : j < i
      · exact h1 j hj
      · rw [List.getElem?_eq_none (by omega), List.getElem?_eq_none (by omega)]
    have e2 : data = other.data_ := by
      apply List.ext_getElem?
      intro j
      by_cases hj : j < i
      · exact h2 j hj
      · rw [List.getElem?_eq_none (by omega), List.getElem?_eq_none (by omega)]
    simp only [HashMap.copy_slots, e1, e2]
  | succ n ih =>
    intro i md data hi hl1 hl2 h1 h2
    have hlt : i < N := by omega
    obtain ⟨b, hb⟩ := getElem?_some_of_lt (hmd ▸ hlt : i < other.metadata_.length)
    obtain ⟨kv, hkv⟩ := getElem?_some_of_lt (hdata ▸ hlt : i < other.data_.length)
    have hc : i < md.length ∧ i < data.length := ⟨by omega, by omega⟩
    simp only [HashMap.copy_slots, hb, hkv, hc, and_self, if_true]
    apply ih (i + 1) _ _ (by omega) (by simp [hl1]) (by simp [hl2])
    · intro j hj
      rw [getElem?_set_of_lt (by omega)]
      by_cases he : i = j
      · rw [if_pos he, ← he, hb]
      · rw [if_neg he]; exact h1 j (by omega)
    · intro j hj
      rw [getElem?_set_of_lt (by omega)]
      by_cases he : i = j
      · rw [if_pos he, ← he, hkv]
      · rw [if_neg he]; exact h2 j (by omega)

/-- The copy constructor returns the members of `other` except `full_`, which is `0`. -/
theorem copy_eq (hasher : K → Nat) (t : HashMap K V) (hinv : t.Inv hasher) :
    HashMap.copy t = some ⟨t.size_, t.log_capacity_, t.metadata_, t.data_, 0⟩ := by
  have hL := hinv.log_le
  have hs := copy_slots_spec t (2 ^ t.log_capacity_) hinv.arr.len_md hinv.arr.len_data
    (2 ^ t.log_capacity_) 0 (List.replicate (2 ^ t.log_capacity_) get_empty)
    (List.replicate (2 ^ t.log_capacity_) default) (by omega) (by simp) (by simp)
    (by intro j hj; omega) (by intro j hj; omega)
  simp only [HashMap.copy, HashMap.members_default, shl_int_eq hL,
    shl_ull_eq (by omega : t.log_capacity_ ≤ 63), hs]

/-- Copy assignment to a table with other arrays returns the members of `other`. -/
theorem operator_assign_eq (hasher : K → Nat) (self t : HashMap K V) (hinv : t.Inv hasher) :
    HashMap.operator_assign true false self t = some t := by
  have hL := hinv.log_le
  have hs := copy_slots_spec t (2 ^ t.log_capacity_) hinv.arr.len_md hinv.arr.len_data
    (2 ^ t.log_capacity_) 0 (List.replicate (2 ^ t.log_capacity_) get_empty)
    (List.replicate (2 ^ t.log_capacity_) default) (by omega) (by simp) (by simp)
    (by intro j hj; omega) (by intro j hj; omega)
  simp only [HashMap.operator_assign, HashMap.full_clear, shl_int_eq hL,
    shl_ull_eq (by omega : t.log_capacity_ ≤ 63), hs, if_true, Bool.false_eq_true, if_false]

theorem quartet_reachable : HashMap.Reachable id_hasher quartet := by
  refine reachable_run id_hasher 1 [Op.insert (9, 90)] _ _ sample_reachable ?_
  rw [run_cons _ _ _ _ _ quartet (by decide)]
  rfl

/-- The four insertions that fill the copy of `quartet`. -/
theorem brimful_run :
    HashMap.run id_hasher 1
      [Op.insert (5, 50), Op.insert (6, 60), Op.insert (7, 70), Op.insert (8, 80)]
      quartet_copy = some brimful := by
  rw [run_cons _ _ _ _ _ (table 5 3 [0, 2, 3, 4, 10, 6]
    [(0, 0), (1, 10), (2, 20), (3, 30), (9, 90), (5, 50)] 1) (by decide)]
  rw [run_cons _ _ _ _ _ (table 6 3 [0, 2, 3, 4, 10, 6, 7]
    [(0, 0), (1, 10), (2, 20), (3, 30), (9, 90), (5, 50), (6, 60)] 2) (by decide)]
  rw [run_cons _ _ _ _ _ (table 7 3 [0, 2, 3, 4, 10, 6, 7, 8]
    [(0, 0), (1, 10), (2, 20), (3, 30), (9, 90), (5, 50), (6, 60), (7, 70)] 3) (by decide)]
  rw [run_cons _ _ _ _ _ brimful (by decide)]
  rfl

/-- C21 at a failing input: on the reachable table `quartet` (capacity 8, four
entries, `full_ = 4`) copy assignment to a fresh table returns `quartet` itself,
while the copy constructor returns the same arrays, `size_` and
`log_capacity_` with `full_ = 0`.  Four insertions on that copy fill all eight
slots without a resize; on the full table the search for the absent key 16
does not return, in `at` and in `insert`.  The first of the four insertions
on the assigned copy resizes it to capacity 16. -/
theorem C21_copy_drops_full :
    HashMap.Reachable id_hasher quartet ∧
    HashMap.operator_assign true false HashMap.new quartet = some quartet ∧
    HashMap.copy quartet = some quartet_copy ∧
    quartet_copy.full_ = 0 ∧ quartet.full_ = 4 ∧
    quartet_copy.metadata_ = quartet.metadata_ ∧ quartet_copy.data_ = quartet.data_ ∧
    quartet_copy.size_ = quartet.size_ ∧ quartet_copy.log_capacity_ = quartet.log_capacity_ ∧
    ¬ quartet_copy.metadata_.countP is_used ≤ quartet_copy.full_ ∧
    HashMap.run id_hasher 1
      [Op.insert (5, 50), Op.insert (6, 60), Op.insert (7, 70), Op.insert (8, 80)]
      quartet_copy = some brimful ∧
    brimful.capacity = 8 ∧ brimful.metadata_.countP is_used = 8 ∧
    (∀ i, i < 8 → brimful.metadata_[i]? ≠ some get_empty) ∧
    HashMap.find_generic id_hasher brimful 16 = none ∧
    HashMap.at id_hasher brimful 16 = none ∧
    HashMap.insert id_hasher 1 brimful (16, 0) = none ∧
    HashMap.insert id_hasher 1 quartet (5, 50)
      = some (table 5 4 [0, 2, 3, 4, 0, 6, 0, 0, 0, 10]
          [(0, 0), (1, 10), (2, 20), (3, 30), (0, 0), (5, 50), (0, 0), (0, 0), (0, 0),
            (9, 90)] 5) :=
  ⟨quartet_reachable, by decide, by decide, by decide, by decide, by decide, by decide,
    by decide, by decide, by decide, brimful_run, by decide, by decide, by decide, by decide,
    by decide, by decide, by decide⟩

end

end HashMapNamespace
